import Mathlib

/-!
# PLONK setup (bw6-633 backend): a shallow embedding of `setup.go`

The Go file `internal/backend/bw6-633/plonk/setup.go` turns a sparse R1CS into a
proving key and a verifying key.  This development embeds the parts of it that the
specification talks about:

* the two FFT domain sizes chosen by `Setup` (lines 109-123),
* the Lagrange-basis selector vectors built by `Setup` (lines 135-165),
* `buildPermutation` (lines 235-281),
* `getIDSmallDomain` (lines 361-376) and
  `ccomputePermutationPolynomials` (lines 334-358),
* `computeLagrangeCosetPolys` (lines 283-314), the two `InitKZG` methods
  (lines 382-401), `NbPublicWitness` (lines 404-406),
* `Setup` as a whole (lines 101-221), with `kzg.Commit` as a parameter.

Conventions.

* Go slices are Lean lists.  A read or a write outside the bounds of a slice makes
  the Go program stop; the embedding returns `none` there (`List.get?` written
  `l[i]?` for reads, `setAt?` for writes), so every operation is an `Option`.
* Go `for i := 0; i < n; i++` loops are `forLoop n body init`.
* Wire ids and coefficient ids are `uint32` values read through `WireID()` and
  `CoeffID()`, which return a non-negative `int`; they are `Nat` here.  Slot indices
  stored in `pk.Permutation` and in `cycle` are `int64` with the sentinel `-1`; they
  are `Int` here (a slot index is below the length of a slice that is held in
  memory, far below `2^63`).
* The field `fr.Element` is a type parameter `F`.
* A `uint64` value converted with `int(...)` goes through `uint64ToInt`, which wraps
  from `2^63` on.
* A Go function that returns an error returns an `Option String` here (`none` for
  nil) next to its other results.
-/

namespace Plonk

/-! ## Generic helpers for slices and loops -/

/-- Write `x` at index `i` of a slice; `none` when the index is out of range. -/
def setAt? {α : Type} (l : List α) (i : Nat) (x : α) : Option (List α) :=
  if i < l.length then some (l.set i x) else none

/-- The loop `for i := 0; i < n; i++ { s = body i s }`, stopping at the first failing
iteration. -/
def forLoop {σ : Type} (n : Nat) (body : Nat → σ → Option σ) (init : σ) : Option σ :=
  match n with
  | 0 => some init
  | k + 1 => (forLoop k body init).bind (body k)

/-! ## Data model (`constraint` and `cs` packages, as used by `setup.go`) -/

/-- A term of a constraint: a coefficient id and a wire id. -/
structure Term where
  /-- coefficient id, read through `CoeffID()` -/
  CID : Nat
  /-- wire id, read through `WireID()` -/
  VID : Nat
deriving DecidableEq, Repr

/-- Coefficient id of a term. -/
def Term.CoeffID (t : Term) : Nat := t.CID

/-- Wire id of a term. -/
def Term.WireID (t : Term) : Nat := t.VID

/-- One gate `qL.xa + qR.xb + qO.xc + qM.(xa.xb) + qK = 0`. -/
structure SparseR1C where
  L : Term
  R : Term
  O : Term
  /-- the two factors `M[0]`, `M[1]` of the multiplicative term -/
  M : Term × Term
  /-- coefficient id of the constant -/
  K : Nat
deriving DecidableEq, Repr

/-- The fields of `cs.SparseR1CS` read by `setup.go`. -/
structure SparseR1CS (F : Type) where
  Constraints : List SparseR1C
  Coefficients : List F
  /-- names of the public variables; only the length is used -/
  Public : List String
  /-- names of the secret variables; only the length is used -/
  Secret : List String
  NbInternalVariables : Nat
  /-- the slice `CommitmentInfo.Committed` -/
  Committed : List Nat

variable {F : Type}

/-- The local `nbVariables` of `buildPermutation` (line 237). -/
def nbVariables (spr : SparseR1CS F) : Nat :=
  spr.NbInternalVariables + spr.Public.length + spr.Secret.length

/-! ## Domain sizes chosen by `Setup` -/

/-- Doubling search used by `nextPowerOfTwo`: starting from the power of two `c`,
double until `n ≤ c` (at most `fuel` times). -/
def nextPowerOfTwoFrom (n : Nat) : Nat → Nat → Nat
  | 0, c => c
  | fuel + 1, c => if n ≤ c then c else nextPowerOfTwoFrom n fuel (2 * c)

/-- Modelled from the spec: the cardinality `fft.NewDomain(m)` gives to a domain, which
the spec describes as the smallest power of two that is at least `m` (section 4.1).
`fft.NewDomain` belongs to the FFT engine, whose code is not part of `setup.go`. -/
def nextPowerOfTwo (n : Nat) : Nat := nextPowerOfTwoFrom n n 1

/-- The local `sizeSystem` of `Setup` (line 112):
`uint64(nbConstraints + len(spr.Public))`.  Both lengths are Go `int`s, hence
below `2^63`, so the sum converted to `uint64` is the exact sum. -/
def sizeSystem (spr : SparseR1CS F) : Nat :=
  spr.Constraints.length + spr.Public.length

/-- Cardinality of `pk.Domain[0]` (line 113), also stored in `vk.Size` (line 125). -/
def smallDomainCardinality (spr : SparseR1CS F) : Nat :=
  nextPowerOfTwo (sizeSystem spr)

/-- Argument given to `fft.NewDomain` for the big domain (lines 119-123); the
products are `uint64` products. -/
def bigDomainArgument (spr : SparseR1CS F) : Nat :=
  if sizeSystem spr < 6 then (8 * sizeSystem spr) % 2 ^ 64
  else (4 * sizeSystem spr) % 2 ^ 64

/-- Cardinality of `pk.Domain[1]` (lines 119-123). -/
def bigDomainCardinality (spr : SparseR1CS F) : Nat :=
  nextPowerOfTwo (bigDomainArgument spr)

/-! ## `buildPermutation` -/

/-- Lines 247-257 of `buildPermutation`: the table `lro`, position -> variable id. -/
def initLRO (spr : SparseR1CS F) (sizeSolution : Nat) : Option (List Nat) := do
  let lro0 : List Nat := List.replicate (3 * sizeSolution) 0
  let lro1 ← forLoop spr.Public.length (fun i lro => setAt? lro i i) lro0
  let offset := spr.Public.length
  forLoop spr.Constraints.length (fun i lro => do
    let c ← spr.Constraints[i]?
    let lro ← setAt? lro (offset + i) c.L.WireID
    let lro ← setAt? lro (sizeSolution + offset + i) c.R.WireID
    setAt? lro (2 * sizeSolution + offset + i) c.O.WireID) lro1

/-- Body of the loop at lines 266-273: the state is `(pk.Permutation, cycle)`. -/
def scanBody (lro : List Nat) (i : Nat) (st : List Int × List Int) :
    Option (List Int × List Int) := do
  let v ← lro[i]?
  let c ← st.2[v]?
  let perm ← if c ≠ -1 then setAt? st.1 i c else some st.1
  let cycle ← setAt? st.2 v (i : Int)
  some (perm, cycle)

/-- Body of the loop at lines 276-280: fill the entries still equal to `-1`. -/
def completeBody (lro : List Nat) (cycle : List Int) (i : Nat) (perm : List Int) :
    Option (List Int) := do
  let x ← perm[i]?
  if x = -1 then do
    let v ← lro[i]?
    let c ← cycle[v]?
    setAt? perm i c
  else some perm

/-- The function `buildPermutation` (lines 235-281); `sizeSolution` is
`int(pk.Domain[0].Cardinality)` and the result is `pk.Permutation`. -/
def buildPermutation (spr : SparseR1CS F) (sizeSolution : Nat) : Option (List Int) := do
  let perm0 : List Int := List.replicate (3 * sizeSolution) (-1)
  let lro ← initLRO spr sizeSolution
  let cycle0 : List Int := List.replicate (nbVariables spr) (-1)
  let st ← forLoop lro.length (scanBody lro) (perm0, cycle0)
  forLoop st.1.length (completeBody lro st.2) st.1

/-- Greatest slot `j < i` with `lro[j] = v`, as an `int64`; `-1` when there is none.
This is the value the scan of lines 266-273 leaves in `cycle[v]` after `i` slots. -/
def lastBefore (lro : List Nat) (v : Nat) : Nat → Int
  | 0 => -1
  | i + 1 => if lro[i]? = some v then (i : Int) else lastBefore lro v i

/-- The entry `buildPermutation` computes for slot `j`: the previous slot of the same
variable, or the last slot of that variable when there is no previous one. -/
def linkOf (lro : List Nat) (j : Nat) : Int :=
  if lastBefore lro (lro.getD j 0) j = -1 then lastBefore lro (lro.getD j 0) lro.length
  else lastBefore lro (lro.getD j 0) j

/-- Every gate wire id is below `nbVariables`. -/
abbrev WireIdsValid (spr : SparseR1CS F) : Prop :=
  ∀ c ∈ spr.Constraints, c.L.WireID < nbVariables spr ∧ c.R.WireID < nbVariables spr ∧
    c.O.WireID < nbVariables spr

/-- The map on slots encoded by the slice `pk.Permutation`. -/
def applyPermutation (perm : List Int) (i : Nat) : Nat := (perm.getD i 0).toNat

/-- The number `c` is the smallest power of two that is at least `n`. -/
def IsSmallestPowerOfTwoGE (c n : Nat) : Prop :=
  (∃ e, c = 2 ^ e) ∧ n ≤ c ∧ ∀ e, n ≤ 2 ^ e → c ≤ 2 ^ e

/-! ## Invariants used to reason about `buildPermutation` -/

/-- Shape of the table `lro` once the first `k` gates have been written. -/
structure LROInv (spr : SparseR1CS F) (N k : Nat) (lro : List Nat) : Prop where
  len : lro.length = 3 * N
  pub : ∀ i, i < spr.Public.length → lro[i]? = some i
  gate : ∀ j c, j < k → spr.Constraints[j]? = some c →
    lro[spr.Public.length + j]? = some c.L.WireID ∧
    lro[N + spr.Public.length + j]? = some c.R.WireID ∧
    lro[2 * N + spr.Public.length + j]? = some c.O.WireID
  pad : ∀ i, i < 3 * N → spr.Public.length ≤ i →
    (∀ j, j < k → i ≠ spr.Public.length + j ∧ i ≠ N + spr.Public.length + j ∧
      i ≠ 2 * N + spr.Public.length + j) → lro[i]? = some 0

/-- The linking discipline of `buildPermutation`, stated for a labelling `lab` of the
slots `[0, n)` and a map `f` on slots: a slot with an earlier occurrence of its label
is sent to the closest earlier one, a first occurrence is sent to the last one. -/
structure CycleLinks (n : Nat) (lab : Nat → Nat) (f : Nat → Nat) : Prop where
  prev : ∀ i, i < n → (∃ j, j < i ∧ lab j = lab i) →
    f i < i ∧ lab (f i) = lab i ∧ ∀ j, j < i → lab j = lab i → j ≤ f i
  last : ∀ i, i < n → (¬ ∃ j, j < i ∧ lab j = lab i) →
    f i < n ∧ lab (f i) = lab i ∧ ∀ k, k < n → lab k = lab i → k ≤ f i

/-! ## Properties of a permutation slice, relative to the table `lro` -/

/-- Entry `i` of `perm` is the closest earlier slot carrying the same variable id as
slot `i` when there is one, and otherwise the last slot of `[0, n)` carrying it. -/
def LinkedBackOrToLast (lro : List Nat) (perm : List Int) (n : Nat) : Prop :=
  ∀ i, i < n →
    ((∃ j, j < i ∧ lro[j]? = lro[i]?) →
      ∃ j : Nat, perm[i]? = some (j : Int) ∧ j < i ∧ lro[j]? = lro[i]? ∧
        ∀ j', j' < i → lro[j']? = lro[i]? → j' ≤ j) ∧
    ((¬ ∃ j, j < i ∧ lro[j]? = lro[i]?) →
      ∃ k : Nat, perm[i]? = some (k : Int) ∧ k < n ∧ lro[k]? = lro[i]? ∧
        ∀ k', k' < n → lro[k']? = lro[i]? → k' ≤ k)

/-- The slice `perm` has length `n` and is a bijection of `[0, n)` onto itself. -/
def IsBijectionOnSlots (perm : List Int) (n : Nat) : Prop :=
  perm.length = n ∧
  (∀ i, i < n → ∃ t : Nat, t < n ∧ perm[i]? = some (t : Int)) ∧
  (∀ i i', i < n → i' < n → perm[i]? = perm[i']? → i = i') ∧
  (∀ t : Nat, t < n → ∃ i, i < n ∧ perm[i]? = some (t : Int))

/-- The permutation leaves the table fixed: `lro[perm[i]] = lro[i]`. -/
def FixesTable (lro : List Nat) (perm : List Int) (n : Nat) : Prop :=
  ∀ i, i < n → ∃ t : Nat, perm[i]? = some (t : Int) ∧ lro[t]? = lro[i]?

/-- Following the permutation from slot `i` reaches slot `j` exactly when both slots
carry the same variable id: the slots of one variable form one cycle, and cycles of
different variables are disjoint. -/
def SingleCyclePerVariable (lro : List Nat) (perm : List Int) (n : Nat) : Prop :=
  ∀ i j, i < n → j < n →
    ((∃ k, (applyPermutation perm)^[k] i = j) ↔ lro[i]? = lro[j]?)

/-- Slot `s` is an occurrence of variable `v` in the sense of the data model: the
L-block slot of the placeholder row of a public variable, or the L/R/O-block slot of a
gate whose L/R/O wire is `v`. -/
def OccurrenceSlot (spr : SparseR1CS F) (N v s : Nat) : Prop :=
  (v < spr.Public.length ∧ s = v) ∨
  ∃ j c, spr.Constraints[j]? = some c ∧
    ((c.L.WireID = v ∧ s = spr.Public.length + j) ∨
     (c.R.WireID = v ∧ s = N + spr.Public.length + j) ∨
     (c.O.WireID = v ∧ s = 2 * N + spr.Public.length + j))

/-- Slot `s` is written by neither loop of lines 248-257: it is the R- or O-block slot
of a placeholder row, or a slot of a row past the last gate. -/
def PaddingSlot (spr : SparseR1CS F) (N s : Nat) : Prop :=
  spr.Public.length ≤ s ∧
  ∀ j, j < spr.Constraints.length →
    s ≠ spr.Public.length + j ∧ s ≠ N + spr.Public.length + j ∧
    s ≠ 2 * N + spr.Public.length + j

/-- Slot `s` is bound to variable `v`: it is an occurrence of `v`, or it is a padding
slot and `v` is the variable id `0`. -/
def BoundSlot (spr : SparseR1CS F) (N v s : Nat) : Prop :=
  OccurrenceSlot spr N v s ∨ (v = 0 ∧ PaddingSlot spr N s)

/-- The cycles of `perm` are exactly the classes of the relation `slotOf`: from a slot
of `v` the permutation reaches exactly the slots of `v`. -/
def CyclesAreExactly (slotOf : Nat → Nat → Prop) (perm : List Int) (n : Nat) : Prop :=
  ∀ v s t, s < n → t < n → slotOf v s →
    ((∃ k, (applyPermutation perm)^[k] s = t) ↔ slotOf v t)

/-! ## A small system: 3 gates, 1 public input -/

/-- Three gates over the variables `0` (public), `1` (secret), `2`, `3` (internal):
`x0 * x1 = x2`, `x2 * x1 = x3`, `x3 * x0 = x1`. -/
def exampleSystem : SparseR1CS (ZMod 17) where
  Constraints := [
    { L := ⟨0, 0⟩, R := ⟨0, 1⟩, O := ⟨2, 2⟩, M := (⟨1, 0⟩, ⟨1, 1⟩), K := 0 },
    { L := ⟨0, 2⟩, R := ⟨0, 1⟩, O := ⟨2, 3⟩, M := (⟨1, 2⟩, ⟨1, 1⟩), K := 0 },
    { L := ⟨0, 3⟩, R := ⟨0, 0⟩, O := ⟨2, 1⟩, M := (⟨1, 3⟩, ⟨1, 0⟩), K := 0 }]
  Coefficients := [0, 1, -1]
  Public := ["x0"]
  Secret := ["x1"]
  NbInternalVariables := 2
  Committed := []

/-! ## FFT domain, `getIDSmallDomain`, `ccomputePermutationPolynomials` -/

/-- The fields of `fft.Domain` read by `setup.go`. -/
structure Domain (F : Type) where
  Cardinality : Nat
  /-- generator of the multiplicative group of size `Cardinality` -/
  Generator : F
  /-- the coset shift -/
  FrMultiplicativeGen : F

/-- Modelled from the spec: `domain.FFTInverse(v, fft.DIF)` followed by
`fft.BitReverse(v)`, which the spec describes as the passage from the Lagrange basis to
the canonical (coefficient) form over the domain.  The FFT engine is not part of
`setup.go`.  Coefficient `j` of the result is `N⁻¹ * Σ_i v[i] * (g⁻¹)^(i*j)`, in natural
order. -/
def toCanonical [Field F] (domain : Domain F) (v : List F) : List F :=
  (List.range domain.Cardinality).map fun j =>
    (domain.Cardinality : F)⁻¹ *
      ∑ i ∈ Finset.range domain.Cardinality, v.getD i 0 * domain.Generator⁻¹ ^ (i * j)

/-- Value at `x` of the polynomial whose canonical form is `coeffs`. -/
def evalCanonical [Field F] (coeffs : List F) (x : F) : F :=
  ∑ j ∈ Finset.range coeffs.length, coeffs.getD j 0 * x ^ j

/-- Body of the loop of `getIDSmallDomain` (lines 369-373), for `i = k + 1`. -/
def idBody [Field F] (domain : Domain F) (k : Nat) (res : List F) : Option (List F) := do
  let i := k + 1
  let a ← res[i - 1]?
  let res ← setAt? res i (a * domain.Generator)
  let b ← res[domain.Cardinality + i - 1]?
  let res ← setAt? res (domain.Cardinality + i) (b * domain.Generator)
  let c ← res[2 * domain.Cardinality + i - 1]?
  setAt? res (2 * domain.Cardinality + i) (c * domain.Generator)

/-- The function `getIDSmallDomain` (lines 361-376). -/
def getIDSmallDomain [Field F] (domain : Domain F) : Option (List F) := do
  let res : List F := List.replicate (3 * domain.Cardinality) 0
  let res ← setAt? res 0 1
  let res ← setAt? res domain.Cardinality domain.FrMultiplicativeGen
  let res ← setAt? res (2 * domain.Cardinality)
    (domain.FrMultiplicativeGen * domain.FrMultiplicativeGen)
  forLoop (domain.Cardinality - 1) (idBody domain) res

/-- The read `evaluationIDSmallDomain[pk.Permutation[i]]`. -/
def readID [Field F] (id : List F) (perm : List Int) (i : Nat) : Option F := do
  let p ← perm[i]?
  if p < 0 then none else id[p.toNat]?

/-- Body of the loop at lines 345-349; the state is `(S1, S2, S3)`. -/
def permutationBody [Field F] (id : List F) (perm : List Int) (nbElmts i : Nat)
    (s : List F × List F × List F) : Option (List F × List F × List F) := do
  let a ← readID id perm i
  let s1 ← setAt? s.1 i a
  let b ← readID id perm (nbElmts + i)
  let s2 ← setAt? s.2.1 i b
  let c ← readID id perm (2 * nbElmts + i)
  let s3 ← setAt? s.2.2 i c
  some (s1, s2, s3)

/-- Lines 336-349 of `ccomputePermutationPolynomials`: the Lagrange form of
`S1, S2, S3`. -/
def permutationLagrange [Field F] (domain : Domain F) (perm : List Int) :
    Option (List F × List F × List F) := do
  let nbElmts := domain.Cardinality
  let id ← getIDSmallDomain domain
  let z : List F := List.replicate nbElmts 0
  forLoop nbElmts (permutationBody id perm nbElmts) (z, z, z)

/-- The function `ccomputePermutationPolynomials` (lines 334-358); the result is
`(pk.S1Canonical, pk.S2Canonical, pk.S3Canonical)`. -/
def ccomputePermutationPolynomials [Field F] (domain : Domain F) (perm : List Int) :
    Option (List F × List F × List F) := do
  let s ← permutationLagrange domain perm
  some (toCanonical domain s.1, toCanonical domain s.2.1, toCanonical domain s.2.2)

/-! ## Selector vectors built by `Setup` -/

/-- The seven slices filled by lines 135-165 of `Setup`. -/
structure Selectors (F : Type) where
  Ql : List F
  Qr : List F
  Qm : List F
  Qo : List F
  CQk : List F
  LQk : List F
  QcPrime : List F

/-- Body of the placeholder loop (lines 143-150). -/
def placeholderBody [Field F] (i : Nat) (s : Selectors F) : Option (Selectors F) := do
  let ql ← setAt? s.Ql i (-1)
  let qr ← setAt? s.Qr i 0
  let qm ← setAt? s.Qm i 0
  let qo ← setAt? s.Qo i 0
  let cqk ← setAt? s.CQk i 0
  let lqk ← setAt? s.LQk i 0
  some { s with Ql := ql, Qr := qr, Qm := qm, Qo := qo, CQk := cqk, LQk := lqk }

/-- Body of the constraint loop (lines 152-161). -/
def constraintBody [Field F] (spr : SparseR1CS F) (offset i : Nat) (s : Selectors F) :
    Option (Selectors F) := do
  let c ← spr.Constraints[i]?
  let l ← spr.Coefficients[c.L.CoeffID]?
  let ql ← setAt? s.Ql (offset + i) l
  let r ← spr.Coefficients[c.R.CoeffID]?
  let qr ← setAt? s.Qr (offset + i) r
  let m0 ← spr.Coefficients[c.M.1.CoeffID]?
  let m1 ← spr.Coefficients[c.M.2.CoeffID]?
  let qm ← setAt? s.Qm (offset + i) (m0 * m1)
  let o ← spr.Coefficients[c.O.CoeffID]?
  let qo ← setAt? s.Qo (offset + i) o
  let k ← spr.Coefficients[c.K]?
  let cqk ← setAt? s.CQk (offset + i) k
  let lqk ← setAt? s.LQk (offset + i) k
  some { s with Ql := ql, Qr := qr, Qm := qm, Qo := qo, CQk := cqk, LQk := lqk }

/-- Body of the loop over `spr.CommitmentInfo.Committed` (lines 163-165). -/
def committedBody [Field F] (spr : SparseR1CS F) (i : Nat) (qcp : List F) : Option (List F) := do
  let committed ← spr.Committed[i]?
  setAt? qcp committed 1

/-- Lines 135-165 of `Setup`: the selector vectors in Lagrange basis, before the
inverse transform; `card` is `pk.Domain[0].Cardinality`. -/
def lagrangeSelectors [Field F] (spr : SparseR1CS F) (card : Nat) : Option (Selectors F) := do
  let z : List F := List.replicate card 0
  let s0 : Selectors F :=
    { Ql := z, Qr := z, Qm := z, Qo := z, CQk := z, LQk := z, QcPrime := z }
  let s1 ← forLoop spr.Public.length placeholderBody s0
  let s2 ← forLoop spr.Constraints.length (constraintBody spr spr.Public.length) s1
  let qcp ← forLoop spr.Committed.length (committedBody spr) s2.QcPrime
  some { s2 with QcPrime := qcp }

/-- Every coefficient id of every gate is an index of `spr.Coefficients`. -/
abbrev CoeffIdsValid (spr : SparseR1CS F) : Prop :=
  ∀ c ∈ spr.Constraints,
    c.L.CoeffID < spr.Coefficients.length ∧ c.R.CoeffID < spr.Coefficients.length ∧
    c.M.1.CoeffID < spr.Coefficients.length ∧ c.M.2.CoeffID < spr.Coefficients.length ∧
    c.O.CoeffID < spr.Coefficients.length ∧ c.K < spr.Coefficients.length

/-- Every committed index is a row of a vector of length `card`. -/
abbrev CommittedValid (spr : SparseR1CS F) (card : Nat) : Prop :=
  ∀ c ∈ spr.Committed, c < card

instance fact_prime_seventeen : Fact (Nat.Prime 17) := ⟨by norm_num⟩

/-- The domain of cardinality 4 of `ZMod 17`: `4` has order 4, the shift is `3`. -/
def exampleDomain : Domain (ZMod 17) :=
  { Cardinality := 4, Generator := 4, FrMultiplicativeGen := 3 }

/-! ## Closed form of the selector vectors -/

/-- The coefficient `spr.Coefficients[cid]` (zero outside the slice). -/
def coeffAt [Field F] (spr : SparseR1CS F) (cid : Nat) : F := spr.Coefficients.getD cid 0

/-- The value `sel c` for the gate `c` of index `j` (zero when there is no such gate). -/
def gateValue [Field F] (spr : SparseR1CS F) (sel : SparseR1C → F) (j : Nat) : F :=
  match spr.Constraints[j]? with
  | some c => sel c
  | none => 0

/-- A vector laid out as `[p placeholder rows | k gate rows | zeros]`: `a` on the
placeholder rows, `g j` on the row of gate `j`, zero after. -/
def rowValue [Field F] (p k : Nat) (a : F) (g : Nat → F) (i : Nat) : F :=
  if i < p then a else if i < p + k then g (i - p) else 0

/-- The slice `v` has length `n` and entry `f i` at every index `i < n`. -/
def RowsAre (v : List F) (n : Nat) (f : Nat → F) : Prop :=
  v.length = n ∧ ∀ i, i < n → v[i]? = some (f i)

/-- Shape of the selector vectors after `p` placeholder rows and `k` gate rows. -/
structure SelectorsInv [Field F] (spr : SparseR1CS F) (n p k : Nat) (s : Selectors F) :
    Prop where
  ql : RowsAre s.Ql n (rowValue p k (-1) (gateValue spr fun c => coeffAt spr c.L.CoeffID))
  qr : RowsAre s.Qr n (rowValue p k 0 (gateValue spr fun c => coeffAt spr c.R.CoeffID))
  qm : RowsAre s.Qm n (rowValue p k 0
    (gateValue spr fun c => coeffAt spr c.M.1.CoeffID * coeffAt spr c.M.2.CoeffID))
  qo : RowsAre s.Qo n (rowValue p k 0 (gateValue spr fun c => coeffAt spr c.O.CoeffID))
  cqk : RowsAre s.CQk n (rowValue p k 0 (gateValue spr fun c => coeffAt spr c.K))
  lqk : RowsAre s.LQk n (rowValue p k 0 (gateValue spr fun c => coeffAt spr c.K))
  qcp : s.QcPrime.length = n

/-- The six vectors hold `l, r, m, o, k, k` at row `i`. -/
def RowIs (s : Selectors F) (i : Nat) (l r m o k : F) : Prop :=
  s.Ql[i]? = some l ∧ s.Qr[i]? = some r ∧ s.Qm[i]? = some m ∧ s.Qo[i]? = some o ∧
  s.CQk[i]? = some k ∧ s.LQk[i]? = some k

/-- A system with a single gate `x0 * x0 = x1` and no public input. -/
def singleGateSystem : SparseR1CS (ZMod 17) where
  Constraints := [{ L := ⟨0, 0⟩, R := ⟨0, 0⟩, O := ⟨2, 1⟩, M := (⟨1, 0⟩, ⟨1, 0⟩), K := 0 }]
  Coefficients := [0, 1, -1]
  Public := []
  Secret := ["x0", "x1"]
  NbInternalVariables := 0
  Committed := []

/-! ## Keys, reference string and `InitKZG` -/

/-- The part of `kzg.SRS` read by `setup.go`: the G1 basis elements.  A value of this
type stands for a non-nil `*kzg.SRS`. -/
structure SRS (G : Type) where
  G1 : List G

/-- The struct `VerifyingKey` (lines 77-98); `D` is `kzg.Digest`.  The pointer
`KZGSRS` is `none` when nil. -/
structure VerifyingKey (F D G : Type) where
  Size : Nat
  SizeInv : F
  Generator : F
  NbPublicVariables : Nat
  KZGSRS : Option (SRS G)
  CosetShift : F
  /-- the array `S [3]kzg.Digest` -/
  S : D × D × D
  Ql : D
  Qr : D
  Qm : D
  Qo : D
  Qk : D
  QcPrime : D
  /-- the slice `CommitmentInfo.Committed` -/
  CommitmentInfo : List Nat

/-- The struct `ProvingKey` (lines 39-70).  The field `Vk` is a pointer to the
verifying key returned next to the proving key; it is held here by value. -/
structure ProvingKey (F D G : Type) where
  Vk : VerifyingKey F D G
  Ql : List F
  Qr : List F
  Qm : List F
  Qo : List F
  QcPrime : List F
  lQl : List F
  lQr : List F
  lQm : List F
  lQo : List F
  lQcPrime : List F
  CQk : List F
  LQk : List F
  /-- the array `Domain [2]fft.Domain`: small domain, big domain -/
  Domain : Domain F × Domain F
  S1Canonical : List F
  S2Canonical : List F
  S3Canonical : List F
  lS1LagrangeCoset : List F
  lS2LagrangeCoset : List F
  lS3LagrangeCoset : List F
  Permutation : List Int

/-- The Go conversion `int(x)` of a `uint64` value `x`: values from `2^63` on wrap to
negative numbers. -/
def uint64ToInt (x : Nat) : Int :=
  if x % 2 ^ 64 < 2 ^ 63 then ((x % 2 ^ 64 : Nat) : Int)
  else ((x % 2 ^ 64 : Nat) : Int) - 2 ^ 64

/-- The method `(vk *VerifyingKey) InitKZG` (lines 392-401): the returned error
(`none` for nil) and the key after the call. -/
def VerifyingKey.InitKZG {F D G : Type} (vk : VerifyingKey F D G) (srs : SRS G) :
    Option String × VerifyingKey F D G :=
  if (srs.G1.length : Int) < uint64ToInt vk.Size then (some "kzg srs is too small", vk)
  else (none, { vk with KZGSRS := some srs })

/-- The method `(pk *ProvingKey) InitKZG` (lines 382-384). -/
def ProvingKey.InitKZG {F D G : Type} (pk : ProvingKey F D G) (srs : SRS G) :
    Option String × ProvingKey F D G :=
  ((pk.Vk.InitKZG srs).1, { pk with Vk := (pk.Vk.InitKZG srs).2 })

/-- The method `NbPublicWitness` (lines 404-406). -/
def VerifyingKey.NbPublicWitness {F D G : Type} (vk : VerifyingKey F D G) : Int :=
  uint64ToInt vk.NbPublicVariables

/-! ## Coset evaluation -/

/-- The function `clone` (lines 316-320): `make([]fr.Element, len(input), capacity)`
stops the program when `capacity` is below `len(input)` (`none`); otherwise the result
is a copy of `input`, the capacity only reserving memory. -/
def clone (input : List F) (capacity : Nat) : Option (List F) :=
  if input.length ≤ capacity then some input else none

/-- The slice `v` extended with zeros to length `n`. -/
def zeroExtend [Field F] (v : List F) (n : Nat) : List F :=
  v ++ List.replicate (n - v.length) 0

/-- Modelled from the spec: `iop.NewPolynomial(v, canReg)` followed by
`ToLagrangeCoset(domain)` and `Coefficients()`, which the spec (section 4.5) describes
as zero-extending the canonical form to the domain length and evaluating it over the
coset of the domain, at the points `shift * generator^i`.  The `iop` package is not
part of `setup.go`. -/
def toLagrangeCoset [Field F] (domain : Domain F) (v : List F) : List F :=
  (List.range domain.Cardinality).map fun i =>
    evalCanonical (zeroExtend v domain.Cardinality)
      (domain.FrMultiplicativeGen * domain.Generator ^ i)

/-- The method `computeLagrangeCosetPolys` (lines 283-314): the eight clones of lines
285-293, then the eight coset evaluations; `none` when a clone stops the program. -/
def ProvingKey.computeLagrangeCosetPolys {D G : Type} [Field F] (pk : ProvingKey F D G) :
    Option (ProvingKey F D G) := do
  let wql ← clone pk.Ql pk.Domain.2.Cardinality
  let wqr ← clone pk.Qr pk.Domain.2.Cardinality
  let wqm ← clone pk.Qm pk.Domain.2.Cardinality
  let wqo ← clone pk.Qo pk.Domain.2.Cardinality
  let wqcp ← clone pk.QcPrime pk.Domain.2.Cardinality
  let ws1 ← clone pk.S1Canonical pk.Domain.2.Cardinality
  let ws2 ← clone pk.S2Canonical pk.Domain.2.Cardinality
  let ws3 ← clone pk.S3Canonical pk.Domain.2.Cardinality
  some { pk with
    lQl := toLagrangeCoset pk.Domain.2 wql
    lQr := toLagrangeCoset pk.Domain.2 wqr
    lQm := toLagrangeCoset pk.Domain.2 wqm
    lQo := toLagrangeCoset pk.Domain.2 wqo
    lQcPrime := toLagrangeCoset pk.Domain.2 wqcp
    lS1LagrangeCoset := toLagrangeCoset pk.Domain.2 ws1
    lS2LagrangeCoset := toLagrangeCoset pk.Domain.2 ws2
    lS3LagrangeCoset := toLagrangeCoset pk.Domain.2 ws3 }

/-- The canonical forms cloned by `computeLagrangeCosetPolys` (lines 285-293). -/
def ProvingKey.cosetSources {D G : Type} (pk : ProvingKey F D G) : List (List F) :=
  [pk.Ql, pk.Qr, pk.Qm, pk.Qo, pk.QcPrime,
    pk.S1Canonical, pk.S2Canonical, pk.S3Canonical]

/-- The coset-evaluated vectors held by a proving key. -/
def ProvingKey.cosetForms {D G : Type} (pk : ProvingKey F D G) : List (List F) :=
  [pk.lQl, pk.lQr, pk.lQm, pk.lQo, pk.lQcPrime,
    pk.lS1LagrangeCoset, pk.lS2LagrangeCoset, pk.lS3LagrangeCoset]

/-! ## `Setup` -/

/-- Modelled from the spec: the forward transform over a domain takes the canonical
form of a polynomial to its values at the points `generator^i` (Lagrange basis).  The
FFT engine is not part of `setup.go`. -/
def toLagrange [Field F] (domain : Domain F) (coeffs : List F) : List F :=
  (List.range domain.Cardinality).map fun i => evalCanonical coeffs (domain.Generator ^ i)

/-- What the FFT engine derives from the field: the generator of the domain of a given
cardinality and the coset shift. -/
structure DomainParams (F : Type) where
  generatorOf : Nat → F
  multiplicativeGen : F

/-- Modelled from the spec: `fft.NewDomain(m)`, a domain whose cardinality is the
smallest power of two that is at least `m` (section 4.1), with the generator and the
coset shift the FFT engine derives from the field. -/
def NewDomain (params : DomainParams F) (m : Nat) : Domain F :=
  { Cardinality := nextPowerOfTwo m
    Generator := params.generatorOf (nextPowerOfTwo m)
    FrMultiplicativeGen := params.multiplicativeGen }

/-- Lines 167-178 of `Setup`: the six vectors `Ql, Qr, Qm, Qo, CQk, QcPrime` are put in
canonical form; `LQk` is not touched. -/
def canonicalSelectors [Field F] (domain : Domain F) (s : Selectors F) : Selectors F :=
  { Ql := toCanonical domain s.Ql
    Qr := toCanonical domain s.Qr
    Qm := toCanonical domain s.Qm
    Qo := toCanonical domain s.Qo
    CQk := toCanonical domain s.CQk
    LQk := s.LQk
    QcPrime := toCanonical domain s.QcPrime }

/-- Lines 135-187 of `Setup`: the proving key once the selectors, the permutation, the
permutation polynomials and the coset forms are computed; `none` when an index is out
of range or a clone stops the program. -/
def buildProvingKey {D G : Type} [Field F] (spr : SparseR1CS F)
    (domains : Domain F × Domain F) (vk : VerifyingKey F D G) :
    Option (ProvingKey F D G) := do
  let sel ← lagrangeSelectors spr domains.1.Cardinality
  let can := canonicalSelectors domains.1 sel
  let perm ← buildPermutation spr domains.1.Cardinality
  let s ← ccomputePermutationPolynomials domains.1 perm
  let pk : ProvingKey F D G :=
    { Vk := vk, Ql := can.Ql, Qr := can.Qr, Qm := can.Qm, Qo := can.Qo,
      QcPrime := can.QcPrime, lQl := [], lQr := [], lQm := [], lQo := [], lQcPrime := [],
      CQk := can.CQk, LQk := can.LQk, Domain := domains,
      S1Canonical := s.1, S2Canonical := s.2.1, S3Canonical := s.2.2,
      lS1LagrangeCoset := [], lS2LagrangeCoset := [], lS3LagrangeCoset := [],
      Permutation := perm }
  pk.computeLagrangeCosetPolys

/-- The vectors given to `kzg.Commit` by `Setup`, in the order of lines 191-217. -/
def ProvingKey.committedVectors {D G : Type} (pk : ProvingKey F D G) : List (List F) :=
  [pk.Ql, pk.Qr, pk.Qm, pk.QcPrime, pk.Qo, pk.CQk,
    pk.S1Canonical, pk.S2Canonical, pk.S3Canonical]

/-- Lines 190-217 of `Setup`: the nine calls to `kzg.Commit`, given as the parameter
`commit`, under `vk.KZGSRS`; the first failing call stops the sequence.  The outer
`none` is a nil `vk.KZGSRS`. -/
def commitAll {D G : Type} (commit : List F → SRS G → Except String D)
    (pk : ProvingKey F D G) (vk : VerifyingKey F D G) :
    Option (Except String (VerifyingKey F D G)) := do
  let srs ← vk.KZGSRS
  some (do
    let ql ← commit pk.Ql srs
    let qr ← commit pk.Qr srs
    let qm ← commit pk.Qm srs
    let qcp ← commit pk.QcPrime srs
    let qo ← commit pk.Qo srs
    let qk ← commit pk.CQk srs
    let s0 ← commit pk.S1Canonical srs
    let s1 ← commit pk.S2Canonical srs
    let s2 ← commit pk.S3Canonical srs
    Except.ok { vk with Ql := ql, Qr := qr, Qm := qm, QcPrime := qcp, Qo := qo, Qk := qk,
                        S := (s0, s1, s2) })

/-- The three values returned by `Setup`; `none` stands for nil. -/
structure SetupReturn (F D G : Type) where
  pk : Option (ProvingKey F D G)
  vk : Option (VerifyingKey F D G)
  err : Option String

/-- The verifying key of `Setup` after lines 102-128, before `InitKZG`. -/
def initialVerifyingKey {D G : Type} [Field F] [Inhabited D] (params : DomainParams F)
    (spr : SparseR1CS F) : VerifyingKey F D G :=
  { Size := (NewDomain params (sizeSystem spr)).Cardinality
    SizeInv := ((NewDomain params (sizeSystem spr)).Cardinality : F)⁻¹
    Generator := (NewDomain params (sizeSystem spr)).Generator
    NbPublicVariables := spr.Public.length
    KZGSRS := none
    CosetShift := (NewDomain params (sizeSystem spr)).FrMultiplicativeGen
    S := (default, default, default)
    Ql := default, Qr := default, Qm := default, Qo := default, Qk := default
    QcPrime := default
    CommitmentInfo := spr.Committed }

/-- The two domains of `Setup` (lines 113-123). -/
def setupDomains (params : DomainParams F) (spr : SparseR1CS F) : Domain F × Domain F :=
  (NewDomain params (sizeSystem spr), NewDomain params (bigDomainArgument spr))

/-- The function `Setup` (lines 101-221).  The outer `none` is a run stopped by an
out-of-range index or by a clone; otherwise the three returned values. -/
def Setup {D G : Type} [Field F] [Inhabited D] (params : DomainParams F)
    (commit : List F → SRS G → Except String D) (spr : SparseR1CS F) (srs : SRS G) :
    Option (SetupReturn F D G) :=
  match (initialVerifyingKey params spr : VerifyingKey F D G).InitKZG srs with
  | (some err, _) => some { pk := none, vk := none, err := some err }
  | (none, vk) => do
    let pk ← buildProvingKey spr (setupDomains params spr) vk
    let res ← commitAll commit pk vk
    match res with
    | Except.error err => some { pk := none, vk := none, err := some err }
    | Except.ok vk => some { pk := some { pk with Vk := vk }, vk := some vk, err := none }

/-! ## Small inputs for `Setup` -/

/-- Generators of the domains of `ZMod 17` of cardinality 2, 4, 8, 16; shift 3. -/
def exampleParams : DomainParams (ZMod 17) where
  generatorOf := fun n => if n = 2 then 16 else if n = 4 then 4 else if n = 8 then 2
    else if n = 16 then 3 else 1
  multiplicativeGen := 3

/-- A reference string with the four basis elements `1, 5, 5^2, 5^3` of `ZMod 17`. -/
def exampleSRS : SRS (ZMod 17) := { G1 := [1, 5, 8, 6] }

/-- A commitment for the small inputs: the value of the polynomial at the point
behind the reference string; it fails when the vector is longer than the basis. -/
def exampleCommit (v : List (ZMod 17)) (srs : SRS (ZMod 17)) : Except String (ZMod 17) :=
  if v.length ≤ srs.G1.length then Except.ok (List.zipWith (fun a b => a * b) v srs.G1).sum
  else Except.error "invalid polynomial size"

/-- The system `exampleSystem` with the gate of index 0 committed. -/
def committedSystem : SparseR1CS (ZMod 17) := { exampleSystem with Committed := [0] }

/-- A verifying key whose `Size` is `2^63`. -/
def hugeSizeKey : VerifyingKey (ZMod 17) (ZMod 17) (ZMod 17) :=
  { Size := 2 ^ 63, SizeInv := 0, Generator := 1, NbPublicVariables := 0, KZGSRS := none,
    CosetShift := 3, S := (0, 0, 0), Ql := 0, Qr := 0, Qm := 0, Qo := 0, Qk := 0,
    QcPrime := 0, CommitmentInfo := [] }

/-! ## Statements about the values returned by `Setup` -/

/-- The run of `Setup` returned both keys and no error. -/
def SetupSucceeds {D G : Type} [Field F] [Inhabited D] (params : DomainParams F)
    (commit : List F → SRS G → Except String D) (spr : SparseR1CS F) (srs : SRS G)
    (pk : ProvingKey F D G) (vk : VerifyingKey F D G) : Prop :=
  Setup params commit spr srs = some { pk := some pk, vk := some vk, err := none }

/-- Each of the nine digests of `vk` is the commitment under `srs` of the corresponding
canonical-form polynomial of `pk`. -/
def DigestsCommitTo {D G : Type} (commit : List F → SRS G → Except String D) (srs : SRS G)
    (pk : ProvingKey F D G) (vk : VerifyingKey F D G) : Prop :=
  commit pk.Ql srs = Except.ok vk.Ql ∧ commit pk.Qr srs = Except.ok vk.Qr ∧
  commit pk.Qm srs = Except.ok vk.Qm ∧ commit pk.Qo srs = Except.ok vk.Qo ∧
  commit pk.QcPrime srs = Except.ok vk.QcPrime ∧ commit pk.CQk srs = Except.ok vk.Qk ∧
  commit pk.S1Canonical srs = Except.ok vk.S.1 ∧
  commit pk.S2Canonical srs = Except.ok vk.S.2.1 ∧
  commit pk.S3Canonical srs = Except.ok vk.S.2.2

/-- The error contract of `Setup`: it returns; `pk0` being the proving key it builds,
it returns an error exactly when the reference string has fewer than `card` basis
elements or one of the nine commitments fails; an error comes with no key, no error
comes with both keys; and when `commit` accepts every vector that is not longer than
the basis, there is no error exactly when the basis has at least `card` elements. -/
def SetupContract {D G : Type} [Field F] [Inhabited D] (params : DomainParams F)
    (commit : List F → SRS G → Except String D) (spr : SparseR1CS F) (srs : SRS G)
    (card : Nat) : Prop :=
  ∃ r pk0, Setup params commit spr srs = some r ∧
    buildProvingKey spr (setupDomains params spr)
      ((initialVerifyingKey params spr : VerifyingKey F D G).InitKZG srs).2 = some pk0 ∧
    (r.err ≠ none ↔ (srs.G1.length < card ∨
      ∃ v, v ∈ pk0.committedVectors ∧ ∃ e, commit v srs = Except.error e)) ∧
    (r.err ≠ none → r.pk = none ∧ r.vk = none) ∧
    (r.err = none → r.pk ≠ none ∧ r.vk ≠ none) ∧
    ((∀ v, v.length ≤ srs.G1.length → ∃ d, commit v srs = Except.ok d) →
      (r.err = none ↔ card ≤ srs.G1.length))

/-- The slice `l` is the coset form of the canonical form `canon` over `domain`: it has
the length of the domain and entry `i` is the value at `shift * generator^i` of the
polynomial `canon` zero-extended to that length. -/
def IsCosetFormOf [Field F] (domain : Domain F) (canon l : List F) : Prop :=
  l.length = domain.Cardinality ∧
  ∀ i, i < domain.Cardinality →
    l[i]? = some (evalCanonical (zeroExtend canon domain.Cardinality)
      (domain.FrMultiplicativeGen * domain.Generator ^ i))

/-- The method `computeLagrangeCosetPolys` returns, and the key then holds the
big-domain coset form of the canonical form `canon`. -/
def DerivesCosetFormOf {D G : Type} [Field F] (pk : ProvingKey F D G) (canon : List F) :
    Prop :=
  ∃ pk', pk.computeLagrangeCosetPolys = some pk' ∧
    toLagrangeCoset pk.Domain.2 canon ∈ pk'.cosetForms

/-- A proving key over `ZMod 17` with constant polynomials: `Ql = 1`, `CQk = 2`, the
others `0`; the big domain has cardinality 2. -/
def cosetExampleKey : ProvingKey (ZMod 17) (ZMod 17) (ZMod 17) :=
  { Vk := hugeSizeKey, Ql := [1], Qr := [0], Qm := [0], Qo := [0], QcPrime := [0],
    lQl := [], lQr := [], lQm := [], lQo := [], lQcPrime := [], CQk := [2], LQk := [2],
    Domain := ({ Cardinality := 1, Generator := 1, FrMultiplicativeGen := 3 },
      { Cardinality := 2, Generator := 16, FrMultiplicativeGen := 3 }),
    S1Canonical := [0], S2Canonical := [0], S3Canonical := [0],
    lS1LagrangeCoset := [], lS2LagrangeCoset := [], lS3LagrangeCoset := [],
    Permutation := [0, 1, 2] }

/-! # Theorems -/

/-! ## Loops and the table `lro` -/

theorem setAt?_eq_some {α : Type} {l : List α} {i : Nat} (x : α) (h : i < l.length) :
    setAt? l i x = some (l.set i x) := by
  simp [setAt?, h]

theorem forLoop_inv {σ : Type} (P : Nat → σ → Prop) (n : Nat) (body : Nat → σ → Option σ)
    (init : σ) (h0 : P 0 init)
    (hstep : ∀ k, k < n → ∀ s, P k s → ∃ s', body k s = some s' ∧ P (k + 1) s') :
    ∃ s, forLoop n body init = some s ∧ P n s := by
  induction n with
  | zero => exact ⟨init, rfl, h0⟩
  | succ k ih =>
    obtain ⟨s, hs, hP⟩ := ih (fun j hj => hstep j (Nat.lt_succ_of_lt hj))
    obtain ⟨s', hs', hP'⟩ := hstep k (Nat.lt_succ_self k) s hP
    exact ⟨s', by simp [forLoop, hs, hs'], hP'⟩

theorem initLRO_spec (spr : SparseR1CS F) (N : Nat) (hN : sizeSystem spr ≤ N) :
    ∃ lro, initLRO spr N = some lro ∧ LROInv spr N spr.Constraints.length lro := by
  unfold sizeSystem at hN
  -- placeholders
  obtain ⟨lro1, h1, hlen1, hI1⟩ := forLoop_inv
    (fun k (lro : List Nat) => lro.length = 3 * N ∧
      ∀ i, i < 3 * N → lro[i]? = some (if i < k then i else 0))
    spr.Public.length (fun i lro => setAt? lro i i) (List.replicate (3 * N) 0)
    ⟨by simp, fun i hi => by simp [List.getElem?_replicate, hi]⟩
    (fun k hk s ⟨hl, hs⟩ => by
      refine ⟨s.set k k, setAt?_eq_some _ (by omega), by simpa using hl, fun i hi => ?_⟩
      rw [List.getElem?_set]
      by_cases hik : k = i
      · subst hik; simp; omega
      · rw [if_neg hik, hs i hi]
        congr 1
        by_cases h1 : i < k
        · rw [if_pos h1, if_pos (by omega)]
        · rw [if_neg h1, if_neg (by omega)])
  -- gates
  obtain ⟨lro, h2, hI2⟩ := forLoop_inv (fun k (lro : List Nat) => LROInv spr N k lro)
    spr.Constraints.length (fun i lro => do
      let c ← spr.Constraints[i]?
      let lro ← setAt? lro (spr.Public.length + i) c.L.WireID
      let lro ← setAt? lro (N + spr.Public.length + i) c.R.WireID
      setAt? lro (2 * N + spr.Public.length + i) c.O.WireID) lro1
    { len := hlen1
      pub := fun i hi => by rw [hI1 i (by omega), if_pos hi]
      gate := fun j c hj => absurd hj (Nat.not_lt_zero j)
      pad := fun i hi hp _ => by rw [hI1 i hi, if_neg (by omega)] }
    (fun k hk s hs => by
      have hl := hs.len
      refine ⟨((s.set (spr.Public.length + k) spr.Constraints[k].L.WireID).set
        (N + spr.Public.length + k) spr.Constraints[k].R.WireID).set
        (2 * N + spr.Public.length + k) spr.Constraints[k].O.WireID, ?_, ?_⟩
      · simp only [List.getElem?_eq_getElem hk, Option.bind_eq_bind, Option.some_bind]
        rw [setAt?_eq_some _ (by omega)]
        simp only [Option.some_bind]
        rw [setAt?_eq_some _ (by simp; omega)]
        simp only [Option.some_bind]
        rw [setAt?_eq_some _ (by simp; omega)]
      · refine ⟨by simpa using hl, fun i hi => ?_, fun j c hj hc => ?_, fun i hi hp hne => ?_⟩
        · simp only [List.getElem?_set, List.length_set]
          rw [if_neg (by omega), if_neg (by omega), if_neg (by omega)]
          exact hs.pub i hi
        · simp only [List.getElem?_set, List.length_set]
          by_cases hjk : j = k
          · subst hjk
            rw [List.getElem?_eq_getElem hk] at hc
            cases hc
            refine ⟨?_, ?_, ?_⟩
            · rw [if_neg (by omega), if_neg (by omega), if_pos rfl, if_pos (by omega)]
            · rw [if_neg (by omega), if_pos rfl, if_pos (by omega)]
            · rw [if_pos rfl, if_pos (by omega)]
          · have hj' : j < k := by omega
            obtain ⟨a, b, c'⟩ := hs.gate j c hj' hc
            refine ⟨?_, ?_, ?_⟩
            · rw [if_neg (by omega), if_neg (by omega), if_neg (by omega)]; exact a
            · rw [if_neg (by omega), if_neg (by omega), if_neg (by omega)]; exact b
            · rw [if_neg (by omega), if_neg (by omega), if_neg (by omega)]; exact c'
        · simp only [List.getElem?_set, List.length_set]
          have := hne k (Nat.lt_succ_self k)
          rw [if_neg (by omega), if_neg (by omega), if_neg (by omega)]
          exact hs.pad i hi hp (fun j hj => hne j (Nat.lt_succ_of_lt hj)))
  refine ⟨lro, ?_, hI2⟩
  simp only [initLRO, h1, Option.bind_eq_bind, Option.some_bind]
  exact h2

/-! ## The scan of `buildPermutation` -/

theorem lastBefore_spec (lro : List Nat) (v i : Nat) :
    (lastBefore lro v i = -1 ∧ ∀ j, j < i → lro[j]? ≠ some v) ∨
    ∃ j, j < i ∧ lastBefore lro v i = (j : Int) ∧ lro[j]? = some v ∧
      ∀ j', j' < i → lro[j']? = some v → j' ≤ j := by
  induction i with
  | zero => exact Or.inl ⟨rfl, fun j hj => absurd hj (Nat.not_lt_zero j)⟩
  | succ i ih =>
    by_cases h : lro[i]? = some v
    · right
      exact ⟨i, Nat.lt_succ_self i, by simp [lastBefore, h], h, fun j' hj' _ => by omega⟩
    · have hl : lastBefore lro v (i + 1) = lastBefore lro v i := by simp [lastBefore, h]
      rcases ih with ⟨h1, h2⟩ | ⟨j, hj, h1, h2, h3⟩
      · left
        refine ⟨by rw [hl, h1], fun j hj => ?_⟩
        by_cases hji : j = i
        · subst hji; exact h
        · exact h2 j (by omega)
      · right
        refine ⟨j, by omega, by rw [hl, h1], h2, fun j' hj' hv => ?_⟩
        by_cases hji : j' = i
        · subst hji; exact absurd hv h
        · exact h3 j' (by omega) hv

theorem lro_valid (spr : SparseR1CS F) (N : Nat) (lro : List Nat) (hw : WireIdsValid spr) (hnb : 1 ≤ nbVariables spr)
    (hI : LROInv spr N spr.Constraints.length lro) :
    ∀ i, i < 3 * N → ∃ v, v < nbVariables spr ∧ lro[i]? = some v := by
  intro i hi
  have hwire : ∀ j (hj : j < spr.Constraints.length),
      spr.Constraints[j].L.WireID < nbVariables spr ∧
      spr.Constraints[j].R.WireID < nbVariables spr ∧
      spr.Constraints[j].O.WireID < nbVariables spr :=
    fun j hj => hw _ (List.getElem_mem hj)
  by_cases h1 : i < spr.Public.length
  · exact ⟨i, by unfold nbVariables; omega, hI.pub i h1⟩
  by_cases h2 : i < spr.Public.length + spr.Constraints.length
  · have hj : i - spr.Public.length < spr.Constraints.length := by omega
    have := (hI.gate _ _ hj (List.getElem?_eq_getElem hj)).1
    rw [show spr.Public.length + (i - spr.Public.length) = i by omega] at this
    exact ⟨_, (hwire _ hj).1, this⟩
  by_cases h3 : N + spr.Public.length ≤ i ∧ i < N + spr.Public.length + spr.Constraints.length
  · have hj : i - (N + spr.Public.length) < spr.Constraints.length := by omega
    have := (hI.gate _ _ hj (List.getElem?_eq_getElem hj)).2.1
    rw [show N + spr.Public.length + (i - (N + spr.Public.length)) = i by omega] at this
    exact ⟨_, (hwire _ hj).2.1, this⟩
  by_cases h4 : 2 * N + spr.Public.length ≤ i ∧
      i < 2 * N + spr.Public.length + spr.Constraints.length
  · have hj : i - (2 * N + spr.Public.length) < spr.Constraints.length := by omega
    have := (hI.gate _ _ hj (List.getElem?_eq_getElem hj)).2.2
    rw [show 2 * N + spr.Public.length + (i - (2 * N + spr.Public.length)) = i by omega] at this
    exact ⟨_, (hwire _ hj).2.2, this⟩
  exact ⟨0, hnb, hI.pad i hi (by omega) (fun j hj => by omega)⟩

theorem scan_spec (lro : List Nat) (n nbV : Nat) (hlen : lro.length = n)
    (hval : ∀ i, i < n → ∃ v, v < nbV ∧ lro[i]? = some v) :
    ∃ st, forLoop lro.length (scanBody lro)
        (List.replicate n (-1), List.replicate nbV (-1)) = some st ∧
      st.1.length = n ∧ st.2.length = nbV ∧
      (∀ v, v < nbV → st.2[v]? = some (lastBefore lro v n)) ∧
      (∀ j, j < n → st.1[j]? = some (lastBefore lro (lro.getD j 0) j)) := by
  obtain ⟨st, h, h1, h2, h3, h4⟩ := forLoop_inv
    (fun k (st : List Int × List Int) => st.1.length = n ∧ st.2.length = nbV ∧
      (∀ v, v < nbV → st.2[v]? = some (lastBefore lro v k)) ∧
      (∀ j, j < n → st.1[j]? =
        some (if j < k then lastBefore lro (lro.getD j 0) j else -1)))
    lro.length (scanBody lro) (List.replicate n (-1), List.replicate nbV (-1))
    ⟨by simp, by simp, fun v hv => by simp [List.getElem?_replicate, hv, lastBefore],
      fun j hj => by simp [List.getElem?_replicate, hj]⟩
    (fun k hk st ⟨h1, h2, h3, h4⟩ => by
      rw [hlen] at hk
      obtain ⟨v, hv, hlv⟩ := hval k hk
      have hgd : lro.getD k 0 = v := by simp [List.getD_eq_getElem?_getD, hlv]
      by_cases hc : lastBefore lro v k = -1
      · refine ⟨(st.1, st.2.set v (k : Int)), ?_, h1, by simpa using h2, ?_, ?_⟩
        · simp [scanBody, hlv, h3 v hv, hc, setAt?, h2, hv]
        · intro w hw
          simp only [List.getElem?_set, lastBefore, hlv]
          by_cases hvw : v = w
          · subst hvw; simp [h2, hv]
          · rw [if_neg hvw, if_neg (by simpa using hvw)]; exact h3 w hw
        · intro j hj
          rw [h4 j hj]
          by_cases hjk : j = k
          · subst hjk; simp [← hgd] at hc; simp [hc]
          · congr 1
            by_cases hlt : j < k
            · rw [if_pos hlt, if_pos (by omega)]
            · rw [if_neg hlt, if_neg (by omega)]
      · refine ⟨(st.1.set k (lastBefore lro v k), st.2.set v (k : Int)), ?_,
          by simpa using h1, by simpa using h2, ?_, ?_⟩
        · simp only [scanBody, hlv, h3 v hv, Option.bind_eq_bind, Option.some_bind]
          rw [if_pos hc, setAt?_eq_some _ (by omega)]
          simp only [Option.some_bind]
          rw [setAt?_eq_some _ (by omega)]
          simp
        · intro w hw
          simp only [List.getElem?_set, lastBefore, hlv]
          by_cases hvw : v = w
          · subst hvw; simp [h2, hv]
          · rw [if_neg hvw, if_neg (by simpa using hvw)]; exact h3 w hw
        · intro j hj
          simp only [List.getElem?_set]
          by_cases hjk : k = j
          · subst hjk; simp [hlv, h1, hk]
          · rw [if_neg hjk, h4 j hj]
            congr 1
            by_cases hlt : j < k
            · rw [if_pos hlt, if_pos (by omega)]
            · rw [if_neg hlt, if_neg (by omega)])
  refine ⟨st, h, h1, h2, fun v hv => by rw [h3 v hv, hlen], fun j hj => ?_⟩
  rw [h4 j hj, hlen, if_pos hj]

theorem complete_spec (lro : List Nat) (n nbV : Nat) (hlen : lro.length = n)
    (hval : ∀ i, i < n → ∃ v, v < nbV ∧ lro[i]? = some v)
    (perm cycle : List Int) (hp : perm.length = n)
    (hcy : ∀ v, v < nbV → cycle[v]? = some (lastBefore lro v n))
    (hpe : ∀ j, j < n → perm[j]? = some (lastBefore lro (lro.getD j 0) j)) :
    ∃ res, forLoop perm.length (completeBody lro cycle) perm = some res ∧
      res.length = n ∧ ∀ j, j < n → res[j]? = some (linkOf lro j) := by
  obtain ⟨res, h, h1, h2⟩ := forLoop_inv
    (fun k (res : List Int) => res.length = n ∧
      ∀ j, j < n → res[j]? =
        some (if j < k then linkOf lro j else lastBefore lro (lro.getD j 0) j))
    perm.length (completeBody lro cycle) perm
    ⟨hp, fun j hj => by simpa using hpe j hj⟩
    (fun k hk res ⟨h1, h2⟩ => by
      rw [hp] at hk
      obtain ⟨v, hv, hlv⟩ := hval k hk
      have hgd : lro.getD k 0 = v := by simp [List.getD_eq_getElem?_getD, hlv]
      have hk2 := h2 k hk
      rw [if_neg (Nat.lt_irrefl k), hgd] at hk2
      by_cases hc : lastBefore lro v k = -1
      · refine ⟨res.set k (lastBefore lro v n), ?_, by simpa using h1, fun j hj => ?_⟩
        · simp [completeBody, hk2, hc, hlv, hcy v hv, setAt?, h1, hk]
        · rw [List.getElem?_set]
          by_cases hjk : k = j
          · subst hjk
            rw [if_pos rfl, if_pos (by omega), if_pos (Nat.lt_succ_self k)]
            simp only [linkOf, hgd, hc, if_true, hlen]
          · rw [if_neg hjk, h2 j hj]
            congr 1
            by_cases hlt : j < k
            · rw [if_pos hlt, if_pos (by omega)]
            · rw [if_neg hlt, if_neg (by omega)]
      · refine ⟨res, ?_, h1, fun j hj => ?_⟩
        · simp [completeBody, hk2, hc]
        · rw [h2 j hj]
          by_cases hjk : j = k
          · subst hjk
            rw [if_neg (Nat.lt_irrefl j), if_pos (Nat.lt_succ_self j)]
            simp only [linkOf, hgd, hc, if_false]
          · congr 1
            by_cases hlt : j < k
            · rw [if_pos hlt, if_pos (by omega)]
            · rw [if_neg hlt, if_neg (by omega)])
  refine ⟨res, h, h1, fun j hj => ?_⟩
  rw [h2 j hj, hp, if_pos hj]

/-- What `buildPermutation` returns on a well-formed system: the table `lro` is built,
and entry `j` of the result is `linkOf lro j`. -/
theorem buildPermutation_eq (spr : SparseR1CS F) (N : Nat) (hN : sizeSystem spr ≤ N)
    (hw : WireIdsValid spr) (hnb : 1 ≤ nbVariables spr) :
    ∃ lro perm, initLRO spr N = some lro ∧ buildPermutation spr N = some perm ∧
      LROInv spr N spr.Constraints.length lro ∧ perm.length = 3 * N ∧
      (∀ i, i < 3 * N → ∃ v, v < nbVariables spr ∧ lro[i]? = some v) ∧
      ∀ j, j < 3 * N → perm[j]? = some (linkOf lro j) := by
  obtain ⟨lro, hl, hI⟩ := initLRO_spec spr N hN
  have hval := lro_valid spr N lro hw hnb hI
  obtain ⟨st, hs, h1, _, h3, h4⟩ := scan_spec lro (3 * N) (nbVariables spr) hI.len hval
  obtain ⟨res, hr, hr1, hr2⟩ :=
    complete_spec lro (3 * N) (nbVariables spr) hI.len hval st.1 st.2 h1 h3 h4
  refine ⟨lro, res, hl, ?_, hI, hr1, hval, hr2⟩
  simp only [buildPermutation, hl, Option.bind_eq_bind, Option.some_bind, hs]
  exact hr

/-! ## Cycles of a map that links each slot back to the previous one -/

namespace CycleLinks

variable {n : Nat} {lab f : Nat → Nat}

theorem lt (H : CycleLinks n lab f) {i : Nat} (hi : i < n) : f i < n := by
  by_cases h : ∃ j, j < i ∧ lab j = lab i
  · exact Nat.lt_trans (H.prev i hi h).1 hi
  · exact (H.last i hi h).1

theorem lab_eq (H : CycleLinks n lab f) {i : Nat} (hi : i < n) : lab (f i) = lab i := by
  by_cases h : ∃ j, j < i ∧ lab j = lab i
  · exact (H.prev i hi h).2.1
  · exact (H.last i hi h).2.1

theorem not_lt_of_eq (H : CycleLinks n lab f) {i i' : Nat} (hi : i < n) (hi' : i' < n)
    (h : f i = f i') : ¬ i < i' := by
  intro hlt
  have hlab : lab i = lab i' := by rw [← H.lab_eq hi, h, H.lab_eq hi']
  obtain ⟨h1, _, h3⟩ := H.prev i' hi' ⟨i, hlt, hlab⟩
  have h4 := h3 i hlt hlab
  by_cases hp : ∃ j, j < i ∧ lab j = lab i
  · have := (H.prev i hi hp).1
    omega
  · have := (H.last i hi hp).2.2 i' hi' hlab.symm
    omega

theorem injOn (H : CycleLinks n lab f) {i i' : Nat} (hi : i < n) (hi' : i' < n)
    (h : f i = f i') : i = i' := by
  have h1 := H.not_lt_of_eq hi hi' h
  have h2 := H.not_lt_of_eq hi' hi h.symm
  omega

theorem surjOn (H : CycleLinks n lab f) {t : Nat} (ht : t < n) : ∃ i, i < n ∧ f i = t := by
  let g : Fin n → Fin n := fun i => ⟨f i.1, H.lt i.2⟩
  have hg : Function.Injective g := fun a b hab =>
    Fin.ext (H.injOn a.2 b.2 (by simpa [g] using congrArg Fin.val hab))
  obtain ⟨a, ha⟩ := (Finite.injective_iff_surjective.mp hg) ⟨t, ht⟩
  exact ⟨a.1, a.2, by simpa [g] using congrArg Fin.val ha⟩

theorem iterate_lt (H : CycleLinks n lab f) {i : Nat} (hi : i < n) (k : Nat) :
    f^[k] i < n ∧ lab (f^[k] i) = lab i := by
  induction k with
  | zero => exact ⟨hi, rfl⟩
  | succ k ih =>
    rw [Function.iterate_succ_apply']
    exact ⟨H.lt ih.1, (H.lab_eq ih.1).trans ih.2⟩

theorem reach_down (H : CycleLinks n lab f) :
    ∀ t, t < n → ∀ j, j ≤ t → lab j = lab t → ∃ k, f^[k] t = j := by
  intro t
  induction t using Nat.strong_induction_on with
  | _ t ih =>
    intro ht j hj hlab
    by_cases hjt : j = t
    · exact ⟨0, hjt.symm⟩
    · have hlt : j < t := by omega
      obtain ⟨h1, h2, h3⟩ := H.prev t ht ⟨j, hlt, hlab⟩
      obtain ⟨k, hk⟩ := ih (f t) h1 (by omega) j (h3 j hlt hlab) (hlab.trans h2.symm)
      exact ⟨k + 1, by rw [Function.iterate_succ_apply]; exact hk⟩

theorem reach_last (H : CycleLinks n lab f) :
    ∀ i, i < n → ∃ l, l < n ∧ lab l = lab i ∧ (∀ k, k < n → lab k = lab i → k ≤ l) ∧
      ∃ k, f^[k] i = l := by
  intro i
  induction i using Nat.strong_induction_on with
  | _ i ih =>
    intro hi
    by_cases hp : ∃ j, j < i ∧ lab j = lab i
    · obtain ⟨h1, h2, _⟩ := H.prev i hi hp
      obtain ⟨l, hl, hlab, hmax, k, hk⟩ := ih (f i) h1 (by omega)
      exact ⟨l, hl, hlab.trans h2, fun k' hk' hk'' => hmax k' hk' (hk''.trans h2.symm),
        k + 1, by rw [Function.iterate_succ_apply]; exact hk⟩
    · obtain ⟨h1, h2, h3⟩ := H.last i hi hp
      exact ⟨f i, h1, h2, h3, 1, rfl⟩

theorem orbit (H : CycleLinks n lab f) {i j : Nat} (hi : i < n) (hj : j < n) :
    (∃ k, f^[k] i = j) ↔ lab i = lab j := by
  constructor
  · rintro ⟨k, rfl⟩
    exact (H.iterate_lt hi k).2.symm
  · intro hlab
    obtain ⟨l, hl, hlab', hmax, k1, hk1⟩ := H.reach_last i hi
    obtain ⟨k2, hk2⟩ := H.reach_down l hl j (hmax j hj hlab.symm) (hlab.symm.trans hlab'.symm)
    exact ⟨k2 + k1, by rw [Function.iterate_add_apply, hk1, hk2]⟩

end CycleLinks

/-! ## From `linkOf` to cycles; domain cardinalities -/

theorem getElem?_eq_some_getD {α : Type} (l : List α) (d : α) (i : Nat)
    (h : i < l.length) : l[i]? = some (l.getD i d) := by
  simp [List.getD_eq_getElem?_getD, List.getElem?_eq_getElem h]

theorem cycleLinks_of_linkOf (lro : List Nat) (perm : List Int) (n : Nat)
    (hlen : lro.length = n) (hperm : ∀ j, j < n → perm[j]? = some (linkOf lro j)) :
    CycleLinks n (fun i => lro.getD i 0) (applyPermutation perm) ∧
      ∀ i, i < n → perm[i]? = some ((applyPermutation perm i : Nat) : Int) := by
  have hget : ∀ j, j < n → lro[j]? = some (lro.getD j 0) :=
    fun j hj => getElem?_eq_some_getD lro 0 j (by omega)
  have happ : ∀ i, i < n → applyPermutation perm i = (linkOf lro i).toNat := by
    intro i hi
    simp [applyPermutation, List.getD_eq_getElem?_getD, hperm i hi]
  -- the two shapes of `linkOf`
  have hprev : ∀ i, i < n → (∃ j, j < i ∧ lro.getD j 0 = lro.getD i 0) →
      ∃ j : Nat, linkOf lro i = (j : Int) ∧ j < i ∧ lro.getD j 0 = lro.getD i 0 ∧
        ∀ j', j' < i → lro.getD j' 0 = lro.getD i 0 → j' ≤ j := by
    rintro i hi ⟨j, hj, hjl⟩
    rcases lastBefore_spec lro (lro.getD i 0) i with ⟨_, h2⟩ | ⟨j0, h1, h2, h3, h4⟩
    · exact absurd (by rw [hget j (by omega), hjl]) (h2 j hj)
    · refine ⟨j0, ?_, h1, ?_, fun j' hj' hl' => h4 j' hj' (by rw [hget j' (by omega), hl'])⟩
      · have : (j0 : Int) ≠ -1 := by omega
        simp only [linkOf, h2, this, if_false]
      · have := hget j0 (by omega)
        rw [h3] at this
        exact (Option.some.inj this).symm
  have hlast : ∀ i, i < n → (¬ ∃ j, j < i ∧ lro.getD j 0 = lro.getD i 0) →
      ∃ k : Nat, linkOf lro i = (k : Int) ∧ k < n ∧ lro.getD k 0 = lro.getD i 0 ∧
        ∀ k', k' < n → lro.getD k' 0 = lro.getD i 0 → k' ≤ k := by
    intro i hi hno
    rcases lastBefore_spec lro (lro.getD i 0) i with ⟨h1, _⟩ | ⟨j0, h1, _, h3, _⟩
    · rcases lastBefore_spec lro (lro.getD i 0) n with ⟨_, h2'⟩ | ⟨k0, h1', h2', h3', h4'⟩
      · exact absurd (hget i hi) (h2' i hi)
      · refine ⟨k0, ?_, h1', ?_, fun k' hk' hl' => h4' k' hk' (by rw [hget k' hk', hl'])⟩
        · simp only [linkOf, h1, if_true, hlen, h2']
        · have := hget k0 h1'
          rw [h3'] at this
          exact (Option.some.inj this).symm
    · refine absurd ⟨j0, h1, ?_⟩ hno
      have := hget j0 (by omega)
      rw [h3] at this
      exact (Option.some.inj this).symm
  refine ⟨⟨fun i hi hp => ?_, fun i hi hp => ?_⟩, fun i hi => ?_⟩
  · obtain ⟨j, h1, h2, h3, h4⟩ := hprev i hi hp
    have : applyPermutation perm i = j := by rw [happ i hi, h1]; rfl
    rw [this]
    exact ⟨h2, h3, h4⟩
  · obtain ⟨k, h1, h2, h3, h4⟩ := hlast i hi hp
    have : applyPermutation perm i = k := by rw [happ i hi, h1]; rfl
    rw [this]
    exact ⟨h2, h3, h4⟩
  · rw [hperm i hi, happ i hi]
    by_cases hp : ∃ j, j < i ∧ lro.getD j 0 = lro.getD i 0
    · obtain ⟨j, h1, _⟩ := hprev i hi hp
      rw [h1]; rfl
    · obtain ⟨k, h1, _⟩ := hlast i hi hp
      rw [h1]; rfl

theorem nextPowerOfTwoFrom_spec (n : Nat) :
    ∀ fuel k, n ≤ 2 ^ (k + fuel) → (∀ j, j < k → 2 ^ j < n) →
      ∃ e, nextPowerOfTwoFrom n fuel (2 ^ k) = 2 ^ e ∧ n ≤ 2 ^ e ∧ ∀ j, j < e → 2 ^ j < n := by
  intro fuel
  induction fuel with
  | zero => intro k hk hmin; exact ⟨k, rfl, by simpa using hk, hmin⟩
  | succ fuel ih =>
    intro k hk hmin
    by_cases h : n ≤ 2 ^ k
    · exact ⟨k, by simp [nextPowerOfTwoFrom, h], h, hmin⟩
    · obtain ⟨e, h1, h2, h3⟩ := ih (k + 1) (by rw [show k + 1 + fuel = k + (fuel + 1) by omega]; exact hk)
        (fun j hj => by
          by_cases hjk : j = k
          · subst hjk; omega
          · exact hmin j (by omega))
      refine ⟨e, ?_, h2, h3⟩
      rw [← h1]
      simp [nextPowerOfTwoFrom, h, pow_succ, Nat.mul_comm]

theorem nextPowerOfTwo_spec (n : Nat) : IsSmallestPowerOfTwoGE (nextPowerOfTwo n) n := by
  obtain ⟨e, h1, h2, h3⟩ := nextPowerOfTwoFrom_spec n n 0
    (by simpa using (Nat.lt_two_pow n).le) (fun j hj => absurd hj (Nat.not_lt_zero j))
  have h1' : nextPowerOfTwo n = 2 ^ e := by simpa [nextPowerOfTwo] using h1
  refine ⟨⟨e, h1'⟩, by rw [h1']; exact h2, fun e' he' => ?_⟩
  rw [h1']
  apply Nat.pow_le_pow_right (by decide)
  by_contra hlt
  have := h3 e' (by omega)
  omega

theorem sizeSystem_le_smallDomainCardinality (spr : SparseR1CS F) :
    sizeSystem spr ≤ smallDomainCardinality spr :=
  (nextPowerOfTwo_spec (sizeSystem spr)).2.1

/-! ## Statements about `buildPermutation` -/

/-- Facts shared by the statements about `buildPermutation` on a well-formed system,
with `n = 3 * smallDomainCardinality spr` slots. -/
theorem buildPermutation_cycleLinks (spr : SparseR1CS F) (hw : WireIdsValid spr)
    (hnb : 1 ≤ nbVariables spr) :
    ∃ lro perm, initLRO spr (smallDomainCardinality spr) = some lro ∧
      buildPermutation spr (smallDomainCardinality spr) = some perm ∧
      LROInv spr (smallDomainCardinality spr) spr.Constraints.length lro ∧
      perm.length = 3 * smallDomainCardinality spr ∧
      CycleLinks (3 * smallDomainCardinality spr) (fun i => lro.getD i 0)
        (applyPermutation perm) ∧
      ∀ i, i < 3 * smallDomainCardinality spr →
        perm[i]? = some ((applyPermutation perm i : Nat) : Int) := by
  obtain ⟨lro, perm, h1, h2, h3, h4, _, h6⟩ := buildPermutation_eq spr
    (smallDomainCardinality spr) (sizeSystem_le_smallDomainCardinality spr) hw hnb
  obtain ⟨h7, h8⟩ := cycleLinks_of_linkOf lro perm _ h3.len h6
  exact ⟨lro, perm, h1, h2, h3, h4, h7, h8⟩

theorem getElem?_eq_iff_getD_eq (lro : List Nat) {i j : Nat} (hi : i < lro.length)
    (hj : j < lro.length) : lro[i]? = lro[j]? ↔ lro.getD i 0 = lro.getD j 0 := by
  rw [getElem?_eq_some_getD lro 0 i hi, getElem?_eq_some_getD lro 0 j hj]
  exact ⟨fun h => Option.some.inj h, fun h => by rw [h]⟩

theorem linkedBackOrToLast_of_cycleLinks (lro : List Nat) (perm : List Int) (n : Nat)
    (hlen : lro.length = n)
    (H : CycleLinks n (fun i => lro.getD i 0) (applyPermutation perm))
    (hp : ∀ i, i < n → perm[i]? = some ((applyPermutation perm i : Nat) : Int)) :
    LinkedBackOrToLast lro perm n := by
  intro i hi
  have hiff : ∀ a b, a < n → b < n → (lro[a]? = lro[b]? ↔ lro.getD a 0 = lro.getD b 0) :=
    fun a b ha hb => getElem?_eq_iff_getD_eq lro (by omega) (by omega)
  constructor
  · rintro ⟨j, hj, hjl⟩
    obtain ⟨h1, h2, h3⟩ := H.prev i hi ⟨j, hj, (hiff j i (by omega) hi).mp hjl⟩
    exact ⟨applyPermutation perm i, hp i hi, h1, (hiff _ i (by omega) hi).mpr h2,
      fun j' hj' hl => h3 j' hj' ((hiff j' i (by omega) hi).mp hl)⟩
  · intro hno
    obtain ⟨h1, h2, h3⟩ := H.last i hi
      (fun ⟨j, hj, hjl⟩ => hno ⟨j, hj, (hiff j i (by omega) hi).mpr hjl⟩)
    exact ⟨applyPermutation perm i, hp i hi, h1, (hiff _ i h1 hi).mpr h2,
      fun k' hk' hl => h3 k' hk' ((hiff k' i hk' hi).mp hl)⟩

theorem singleCycle_of_cycleLinks (lro : List Nat) (perm : List Int) (n : Nat)
    (hlen : lro.length = n)
    (H : CycleLinks n (fun i => lro.getD i 0) (applyPermutation perm)) :
    SingleCyclePerVariable lro perm n := by
  intro i j hi hj
  rw [getElem?_eq_iff_getD_eq lro (by omega) (by omega)]
  exact H.orbit hi hj

/-- C1: on a system whose gate wire ids are below `nbVariables` (with at least one
variable), `buildPermutation` succeeds and, with `lro` the table of length `3N` it
builds, every slot `i` is sent to the greatest earlier slot carrying the same variable
id when there is one, and otherwise to the greatest slot of `[0, 3N)` carrying it. -/
theorem buildPermutation_links (spr : SparseR1CS F) (hw : WireIdsValid spr)
    (hnb : 1 ≤ nbVariables spr) :
    ∃ lro perm, initLRO spr (smallDomainCardinality spr) = some lro ∧
      buildPermutation spr (smallDomainCardinality spr) = some perm ∧
      lro.length = 3 * smallDomainCardinality spr ∧
      perm.length = 3 * smallDomainCardinality spr ∧
      LinkedBackOrToLast lro perm (3 * smallDomainCardinality spr) := by
  obtain ⟨lro, perm, h1, h2, h3, h4, h5, h6⟩ := buildPermutation_cycleLinks spr hw hnb
  exact ⟨lro, perm, h1, h2, h3.len, h4,
    linkedBackOrToLast_of_cycleLinks lro perm _ h3.len h5 h6⟩

/-- Witness for C1 on the system with 3 gates and 1 public input. -/
theorem buildPermutation_links_witness :
    WireIdsValid exampleSystem ∧ 1 ≤ nbVariables exampleSystem ∧
    ∃ lro perm, initLRO exampleSystem (smallDomainCardinality exampleSystem) = some lro ∧
      buildPermutation exampleSystem (smallDomainCardinality exampleSystem) = some perm ∧
      lro.length = 3 * smallDomainCardinality exampleSystem ∧
      perm.length = 3 * smallDomainCardinality exampleSystem ∧
      LinkedBackOrToLast lro perm (3 * smallDomainCardinality exampleSystem) :=
  ⟨by decide, by decide, buildPermutation_links exampleSystem (by decide) (by decide)⟩

theorem isBijectionOnSlots_of_cycleLinks (perm : List Int) (n : Nat) (lab : Nat → Nat)
    (hlen : perm.length = n) (H : CycleLinks n lab (applyPermutation perm))
    (hp : ∀ i, i < n → perm[i]? = some ((applyPermutation perm i : Nat) : Int)) :
    IsBijectionOnSlots perm n := by
  refine ⟨hlen, fun i hi => ⟨_, H.lt hi, hp i hi⟩, fun i i' hi hi' h => ?_, fun t ht => ?_⟩
  · rw [hp i hi, hp i' hi'] at h
    exact H.injOn hi hi' (Int.ofNat.inj (Option.some.inj h))
  · obtain ⟨i, hi, hfi⟩ := H.surjOn ht
    exact ⟨i, hi, by rw [hp i hi, hfi]⟩

theorem fixesTable_of_cycleLinks (lro : List Nat) (perm : List Int) (n : Nat)
    (hlen : lro.length = n)
    (H : CycleLinks n (fun i => lro.getD i 0) (applyPermutation perm))
    (hp : ∀ i, i < n → perm[i]? = some ((applyPermutation perm i : Nat) : Int)) :
    FixesTable lro perm n := by
  intro i hi
  have := H.lt hi
  exact ⟨_, hp i hi, (getElem?_eq_iff_getD_eq lro (by omega) (by omega)).mpr (H.lab_eq hi)⟩

/-- C3: on a system with valid wire ids, the slice produced by `buildPermutation` has
length `3N`, is a bijection of `[0, 3N)` onto itself, leaves the table `lro` fixed
(`lro[perm[i]] = lro[i]`), and the slots of each variable form a single cycle, which
goes from each slot to the closest earlier slot of the variable and from the first
slot back to the last. -/
theorem buildPermutation_bijection (spr : SparseR1CS F) (hw : WireIdsValid spr)
    (hnb : 1 ≤ nbVariables spr) :
    ∃ lro perm, initLRO spr (smallDomainCardinality spr) = some lro ∧
      buildPermutation spr (smallDomainCardinality spr) = some perm ∧
      IsBijectionOnSlots perm (3 * smallDomainCardinality spr) ∧
      FixesTable lro perm (3 * smallDomainCardinality spr) ∧
      SingleCyclePerVariable lro perm (3 * smallDomainCardinality spr) ∧
      LinkedBackOrToLast lro perm (3 * smallDomainCardinality spr) := by
  obtain ⟨lro, perm, h1, h2, h3, h4, h5, h6⟩ := buildPermutation_cycleLinks spr hw hnb
  exact ⟨lro, perm, h1, h2, isBijectionOnSlots_of_cycleLinks perm _ _ h4 h5 h6,
    fixesTable_of_cycleLinks lro perm _ h3.len h5 h6,
    singleCycle_of_cycleLinks lro perm _ h3.len h5,
    linkedBackOrToLast_of_cycleLinks lro perm _ h3.len h5 h6⟩

/-- Witness for C3 on the system with 3 gates and 1 public input. -/
theorem buildPermutation_bijection_witness :
    WireIdsValid exampleSystem ∧ 1 ≤ nbVariables exampleSystem ∧
    ∃ lro perm, initLRO exampleSystem (smallDomainCardinality exampleSystem) = some lro ∧
      buildPermutation exampleSystem (smallDomainCardinality exampleSystem) = some perm ∧
      IsBijectionOnSlots perm (3 * smallDomainCardinality exampleSystem) ∧
      FixesTable lro perm (3 * smallDomainCardinality exampleSystem) ∧
      SingleCyclePerVariable lro perm (3 * smallDomainCardinality exampleSystem) ∧
      LinkedBackOrToLast lro perm (3 * smallDomainCardinality exampleSystem) :=
  ⟨by decide, by decide, buildPermutation_bijection exampleSystem (by decide) (by decide)⟩

theorem boundSlot_iff (spr : SparseR1CS F) (N : Nat) (lro : List Nat)
    (hI : LROInv spr N spr.Constraints.length lro)
    (v s : Nat) (hs : s < 3 * N) : BoundSlot spr N v s ↔ lro[s]? = some v := by
  constructor
  · rintro ((⟨hv, rfl⟩ | ⟨j, c, hc, h⟩) | ⟨rfl, hp, hpad⟩)
    · exact hI.pub s hv
    · have hj : j < spr.Constraints.length := by
        by_contra hge
        rw [List.getElem?_eq_none (by omega)] at hc
        exact absurd hc (by simp)
      obtain ⟨a, b, d⟩ := hI.gate j c hj hc
      rcases h with ⟨rfl, rfl⟩ | ⟨rfl, rfl⟩ | ⟨rfl, rfl⟩
      · exact a
      · exact b
      · exact d
    · exact hI.pad s hs hp hpad
  · intro hl
    by_cases h1 : s < spr.Public.length
    · have := hI.pub s h1
      rw [hl] at this
      cases this
      exact Or.inl (Or.inl ⟨h1, rfl⟩)
    by_cases hpad : PaddingSlot spr N s
    · have := hI.pad s hs hpad.1 hpad.2
      rw [hl] at this
      cases this
      exact Or.inr ⟨rfl, hpad⟩
    · have : ∃ j, j < spr.Constraints.length ∧ (s = spr.Public.length + j ∨
          s = N + spr.Public.length + j ∨ s = 2 * N + spr.Public.length + j) := by
        by_contra hno
        apply hpad
        refine ⟨by omega, fun j hj => ?_⟩
        refine ⟨fun h => hno ⟨j, hj, Or.inl h⟩, fun h => hno ⟨j, hj, Or.inr (Or.inl h)⟩,
          fun h => hno ⟨j, hj, Or.inr (Or.inr h)⟩⟩
      obtain ⟨j, hj, hsj⟩ := this
      obtain ⟨a, b, d⟩ := hI.gate j _ hj (List.getElem?_eq_getElem hj)
      refine Or.inl (Or.inr ⟨j, _, List.getElem?_eq_getElem hj, ?_⟩)
      rcases hsj with rfl | rfl | rfl
      · rw [hl] at a; exact Or.inl ⟨(Option.some.inj a).symm, rfl⟩
      · rw [hl] at b; exact Or.inr (Or.inl ⟨(Option.some.inj b).symm, rfl⟩)
      · rw [hl] at d; exact Or.inr (Or.inr ⟨(Option.some.inj d).symm, rfl⟩)

/-- C2, as stated, fails on the system with 3 gates and 1 public input (`N = 4`):
slot `4`, the R-block slot of the placeholder row, is no occurrence of any variable,
yet it lies on the cycle of slot `0`, the placeholder of the public variable `0`. -/
theorem cycles_not_exactly_occurrences :
    ∃ perm, buildPermutation exampleSystem (smallDomainCardinality exampleSystem) = some perm ∧
      ¬ CyclesAreExactly (OccurrenceSlot exampleSystem (smallDomainCardinality exampleSystem))
        perm (3 * smallDomainCardinality exampleSystem) := by
  refine ⟨[8, 0, 9, 10, 1, 11, 5, 4, 7, 2, 3, 6], by decide, fun h => ?_⟩
  have hN : smallDomainCardinality exampleSystem = 4 := by decide
  rw [hN] at h
  have h0 : OccurrenceSlot exampleSystem 4 0 0 := Or.inl ⟨by decide, rfl⟩
  have h4 := (h 0 0 4 (by decide) (by decide) h0).mp ⟨3, by decide⟩
  rcases h4 with ⟨_, h⟩ | ⟨j, c, hc, h⟩
  · exact absurd h (by decide)
  · have hj : j < 3 := by
      by_contra hge
      have : exampleSystem.Constraints[j]? = none :=
        List.getElem?_eq_none (by simp [exampleSystem]; omega)
      rw [this] at hc
      exact absurd hc (by simp)
    have hp : exampleSystem.Public.length = 1 := rfl
    rw [hp] at h
    omega

/-- C2, amended: on a system with valid wire ids, every slot of `[0, 3N)` is bound to
exactly one variable id (the variable it is an occurrence of, or `0` for a padding
slot), and the cycles of the permutation are exactly the sets of slots bound to one
variable: from a slot bound to `v` the permutation reaches the slots bound to `v` and
no other. -/
theorem buildPermutation_cycles (spr : SparseR1CS F) (hw : WireIdsValid spr)
    (hnb : 1 ≤ nbVariables spr) :
    ∃ perm, buildPermutation spr (smallDomainCardinality spr) = some perm ∧
      (∀ s, s < 3 * smallDomainCardinality spr →
        ∃ v, BoundSlot spr (smallDomainCardinality spr) v s ∧
          ∀ w, BoundSlot spr (smallDomainCardinality spr) w s → w = v) ∧
      CyclesAreExactly (BoundSlot spr (smallDomainCardinality spr)) perm
        (3 * smallDomainCardinality spr) := by
  obtain ⟨lro, perm, _, h2, h3, _, h5, _⟩ := buildPermutation_cycleLinks spr hw hnb
  have hb := boundSlot_iff spr _ lro h3
  have hget : ∀ s, s < 3 * smallDomainCardinality spr → lro[s]? = some (lro.getD s 0) :=
    fun s hs => getElem?_eq_some_getD lro 0 s (by rw [h3.len]; exact hs)
  refine ⟨perm, h2, fun s hs => ⟨lro.getD s 0, (hb _ s hs).mpr (hget s hs), fun w hw' => ?_⟩,
    fun v s t hs ht hv => ?_⟩
  · have := (hb w s hs).mp hw'
    rw [hget s hs] at this
    exact (Option.some.inj this).symm
  · rw [hb v t ht, singleCycle_of_cycleLinks lro perm _ h3.len h5 s t hs ht,
      (hb v s hs).mp hv]
    exact ⟨fun h => h.symm, fun h => h.symm⟩

/-- Witness for the amended C2 on the system with 3 gates and 1 public input. -/
theorem buildPermutation_cycles_witness :
    WireIdsValid exampleSystem ∧ 1 ≤ nbVariables exampleSystem ∧
    ∃ perm, buildPermutation exampleSystem (smallDomainCardinality exampleSystem) = some perm ∧
      (∀ s, s < 3 * smallDomainCardinality exampleSystem →
        ∃ v, BoundSlot exampleSystem (smallDomainCardinality exampleSystem) v s ∧
          ∀ w, BoundSlot exampleSystem (smallDomainCardinality exampleSystem) w s → w = v) ∧
      CyclesAreExactly (BoundSlot exampleSystem (smallDomainCardinality exampleSystem)) perm
        (3 * smallDomainCardinality exampleSystem) :=
  ⟨by decide, by decide, buildPermutation_cycles exampleSystem (by decide) (by decide)⟩

/-! ## Interpolation over the small domain -/

theorem toCanonical_length [Field F] (domain : Domain F) (v : List F) :
    (toCanonical domain v).length = domain.Cardinality := by
  simp [toCanonical]

theorem toCanonical_getD [Field F] (domain : Domain F) (v : List F) (j : Nat)
    (hj : j < domain.Cardinality) :
    (toCanonical domain v).getD j 0 = (domain.Cardinality : F)⁻¹ *
      ∑ i ∈ Finset.range domain.Cardinality, v.getD i 0 * domain.Generator⁻¹ ^ (i * j) := by
  simp [toCanonical, List.getD_eq_getElem?_getD, List.getElem?_map, List.getElem?_range hj]

/-- Sum of the powers of `g^k * (g⁻¹)^i` over the domain: `N` when `i = k`, else `0`. -/
theorem sum_pow_mul_inv_pow [Field F] (g : F) (N : Nat) (hg : IsPrimitiveRoot g N) (i k : Nat)
    (hi : i < N) (hk : k < N) :
    ∑ j ∈ Finset.range N, (g⁻¹ ^ i * g ^ k) ^ j = if i = k then (N : F) else 0 := by
  have hg0 : g ≠ 0 := hg.ne_zero (by omega)
  by_cases hik : i = k
  · subst hik
    rw [if_pos rfl, ← mul_pow, inv_mul_cancel₀ hg0]
    simp
  · rw [if_neg hik]
    have hne : g⁻¹ ^ i * g ^ k ≠ 1 := by
      intro h
      apply hik
      apply hg.pow_inj hi hk
      have : g ^ i * (g⁻¹ ^ i * g ^ k) = g ^ i := by rw [h, mul_one]
      rw [← mul_assoc, ← mul_pow, mul_inv_cancel₀ hg0, one_pow, one_mul] at this
      exact this.symm
    have hone : (g⁻¹ ^ i * g ^ k) ^ N = 1 := by
      rw [mul_pow, ← pow_mul, ← pow_mul, mul_comm i N, mul_comm k N, pow_mul, pow_mul,
        inv_pow, hg.pow_eq_one]
      simp
    have := mul_geom_sum (g⁻¹ ^ i * g ^ k) N
    rw [hone, sub_self] at this
    rcases mul_eq_zero.mp this with h | h
    · exact absurd (sub_eq_zero.mp h) hne
    · exact h

/-- Interpolation: the canonical form of `v` takes the value `v[k]` at `g^k`. -/
theorem evalCanonical_toCanonical [Field F] (domain : Domain F)
    (hg : IsPrimitiveRoot domain.Generator domain.Cardinality) (hN : 1 ≤ domain.Cardinality)
    (v : List F) (k : Nat) (hk : k < domain.Cardinality) :
    evalCanonical (toCanonical domain v) (domain.Generator ^ k) = v.getD k 0 := by
  haveI : NeZero domain.Cardinality := ⟨by omega⟩
  have hN0 : (domain.Cardinality : F) ≠ 0 := hg.neZero'.ne
  unfold evalCanonical
  rw [toCanonical_length]
  have h1 : ∀ j ∈ Finset.range domain.Cardinality,
      (toCanonical domain v).getD j 0 * (domain.Generator ^ k) ^ j =
      ∑ i ∈ Finset.range domain.Cardinality, (domain.Cardinality : F)⁻¹ *
        (v.getD i 0 * (domain.Generator⁻¹ ^ i * domain.Generator ^ k) ^ j) := by
    intro j hj
    rw [toCanonical_getD domain v j (Finset.mem_range.mp hj), mul_assoc, Finset.sum_mul,
      Finset.mul_sum]
    refine Finset.sum_congr rfl fun i _ => ?_
    rw [mul_pow, ← pow_mul, ← pow_mul, mul_assoc]
  rw [Finset.sum_congr rfl h1, Finset.sum_comm]
  have h2 : ∀ i ∈ Finset.range domain.Cardinality,
      ∑ j ∈ Finset.range domain.Cardinality, (domain.Cardinality : F)⁻¹ *
        (v.getD i 0 * (domain.Generator⁻¹ ^ i * domain.Generator ^ k) ^ j) =
      if i = k then v.getD i 0 else 0 := by
    intro i hi
    rw [← Finset.mul_sum, ← Finset.mul_sum,
      sum_pow_mul_inv_pow domain.Generator domain.Cardinality hg i k (Finset.mem_range.mp hi) hk]
    by_cases hik : i = k
    · rw [if_pos hik, if_pos hik, mul_comm (v.getD i 0), ← mul_assoc, inv_mul_cancel₀ hN0,
        one_mul]
    · rw [if_neg hik, if_neg hik, mul_zero, mul_zero]
  rw [Finset.sum_congr rfl h2, Finset.sum_ite_eq' (Finset.range domain.Cardinality) k]
  rw [if_pos (Finset.mem_range.mpr hk)]

/-! ## `getIDSmallDomain` and the permutation polynomials -/

/-- The entries of the vector returned by `getIDSmallDomain`. -/
theorem getIDSmallDomain_rows [Field F] (domain : Domain F) (hN : 1 ≤ domain.Cardinality) :
    ∃ res, getIDSmallDomain domain = some res ∧ res.length = 3 * domain.Cardinality ∧
      ∀ i, i < domain.Cardinality →
        res[i]? = some (domain.Generator ^ i) ∧
        res[domain.Cardinality + i]? = some (domain.FrMultiplicativeGen * domain.Generator ^ i) ∧
        res[2 * domain.Cardinality + i]? =
          some (domain.FrMultiplicativeGen ^ 2 * domain.Generator ^ i) := by
  obtain ⟨res, h, hlen, hI⟩ := forLoop_inv
    (fun k (res : List F) => res.length = 3 * domain.Cardinality ∧
      ∀ i, i ≤ k →
        res[i]? = some (domain.Generator ^ i) ∧
        res[domain.Cardinality + i]? = some (domain.FrMultiplicativeGen * domain.Generator ^ i) ∧
        res[2 * domain.Cardinality + i]? =
          some (domain.FrMultiplicativeGen ^ 2 * domain.Generator ^ i))
    (domain.Cardinality - 1) (idBody domain)
    ((((List.replicate (3 * domain.Cardinality) (0 : F)).set 0 1).set domain.Cardinality
      domain.FrMultiplicativeGen).set (2 * domain.Cardinality)
      (domain.FrMultiplicativeGen * domain.FrMultiplicativeGen))
    ⟨by simp, fun i hi => by
      have hi0 : i = 0 := by omega
      subst hi0
      have h0 : 0 < 3 * domain.Cardinality := by omega
      have h1 : domain.Cardinality < 3 * domain.Cardinality := by omega
      have h2 : 2 * domain.Cardinality < 3 * domain.Cardinality := by omega
      have h3 : domain.Cardinality ≠ 0 := by omega
      have h4 : ¬ 2 * domain.Cardinality = 0 := by omega
      have h5 : ¬ 2 * domain.Cardinality = domain.Cardinality := by omega
      simp [List.getElem?_set, h0, h1, h2, h3, h4, h5, pow_two]⟩
    (fun k hk s ⟨hl, hs⟩ => by
      obtain ⟨a, b, c⟩ := hs k (Nat.le_refl k)
      refine ⟨((s.set (k + 1) (domain.Generator ^ k * domain.Generator)).set
          (domain.Cardinality + (k + 1))
          (domain.FrMultiplicativeGen * domain.Generator ^ k * domain.Generator)).set
          (2 * domain.Cardinality + (k + 1))
          (domain.FrMultiplicativeGen ^ 2 * domain.Generator ^ k * domain.Generator), ?_, ?_⟩
      · have e1 : k + 1 - 1 = k := by omega
        have e2 : domain.Cardinality + (k + 1) - 1 = domain.Cardinality + k := by omega
        have e3 : 2 * domain.Cardinality + (k + 1) - 1 = 2 * domain.Cardinality + k := by omega
        simp only [idBody, e1, e2, e3, a, Option.bind_eq_bind, Option.some_bind]
        rw [setAt?_eq_some _ (by omega)]
        simp only [Option.some_bind]
        rw [List.getElem?_set, if_neg (by omega), b]
        simp only [Option.some_bind]
        rw [setAt?_eq_some _ (by simp; omega)]
        simp only [Option.some_bind]
        rw [List.getElem?_set, if_neg (by omega), List.getElem?_set, if_neg (by omega), c]
        simp only [Option.some_bind]
        rw [setAt?_eq_some _ (by simp; omega)]
      · refine ⟨by simpa using hl, fun i hi => ?_⟩
        simp only [List.getElem?_set, List.length_set]
        by_cases hik : i = k + 1
        · subst hik
          refine ⟨?_, ?_, ?_⟩
          · rw [if_neg (by omega), if_neg (by omega), if_pos rfl, if_pos (by omega),
              pow_succ domain.Generator k]
          · rw [if_neg (by omega), if_pos rfl, if_pos (by omega),
              pow_succ domain.Generator k, mul_assoc]
          · rw [if_pos rfl, if_pos (by omega), pow_succ domain.Generator k, mul_assoc]
        · obtain ⟨a', b', c'⟩ := hs i (by omega)
          refine ⟨?_, ?_, ?_⟩
          · rw [if_neg (by omega), if_neg (by omega), if_neg (by omega)]; exact a'
          · rw [if_neg (by omega), if_neg (by omega), if_neg (by omega)]; exact b'
          · rw [if_neg (by omega), if_neg (by omega), if_neg (by omega)]; exact c')
  refine ⟨res, ?_, hlen, fun i hi => hI i (by omega)⟩
  simp only [getIDSmallDomain, Option.bind_eq_bind]
  rw [setAt?_eq_some _ (by simp; omega)]
  simp only [Option.some_bind]
  rw [setAt?_eq_some _ (by simp; omega)]
  simp only [Option.some_bind]
  rw [setAt?_eq_some _ (by simp; omega)]
  simp only [Option.some_bind]
  exact h

/-- C5: for a domain of cardinality `N ≥ 1` with generator `g` and coset shift `u`,
`getIDSmallDomain` returns a vector of length `3N` with `res[i] = g^i`,
`res[N+i] = u * g^i` and `res[2N+i] = u^2 * g^i` for every `i < N`. -/
theorem getIDSmallDomain_spec [Field F] (domain : Domain F) (hN : 1 ≤ domain.Cardinality) :
    ∃ res, getIDSmallDomain domain = some res ∧ res.length = 3 * domain.Cardinality ∧
      ∀ i, i < domain.Cardinality →
        res[i]? = some (domain.Generator ^ i) ∧
        res[domain.Cardinality + i]? = some (domain.FrMultiplicativeGen * domain.Generator ^ i) ∧
        res[2 * domain.Cardinality + i]? =
          some (domain.FrMultiplicativeGen ^ 2 * domain.Generator ^ i) :=
  getIDSmallDomain_rows domain hN

/-- Witness for C5 on the domain of cardinality 4 of `ZMod 17`. -/
theorem getIDSmallDomain_spec_witness :
    1 ≤ exampleDomain.Cardinality ∧
    ∃ res, getIDSmallDomain exampleDomain = some res ∧
      res.length = 3 * exampleDomain.Cardinality ∧
      ∀ i, i < exampleDomain.Cardinality →
        res[i]? = some (exampleDomain.Generator ^ i) ∧
        res[exampleDomain.Cardinality + i]? =
          some (exampleDomain.FrMultiplicativeGen * exampleDomain.Generator ^ i) ∧
        res[2 * exampleDomain.Cardinality + i]? =
          some (exampleDomain.FrMultiplicativeGen ^ 2 * exampleDomain.Generator ^ i) :=
  ⟨by decide, getIDSmallDomain_spec exampleDomain (by decide)⟩

theorem readID_eq [Field F] (id : List F) (perm : List Int) (i t : Nat)
    (h : perm[i]? = some (t : Int)) : readID id perm i = id[t]? := by
  have : ¬ ((t : Int) < 0) := by omega
  simp [readID, h, this]

theorem permutationLagrange_spec [Field F] (domain : Domain F) (perm : List Int) (id : List F)
    (hid : getIDSmallDomain domain = some id) (hlen : id.length = 3 * domain.Cardinality)
    (hperm : ∀ i, i < 3 * domain.Cardinality →
      ∃ t : Nat, t < 3 * domain.Cardinality ∧ perm[i]? = some (t : Int)) :
    ∃ s, permutationLagrange domain perm = some s ∧
      s.1.length = domain.Cardinality ∧ s.2.1.length = domain.Cardinality ∧
      s.2.2.length = domain.Cardinality ∧
      ∀ i, i < domain.Cardinality → ∃ t1 t2 t3 : Nat,
        perm[i]? = some (t1 : Int) ∧ perm[domain.Cardinality + i]? = some (t2 : Int) ∧
        perm[2 * domain.Cardinality + i]? = some (t3 : Int) ∧
        s.1[i]? = id[t1]? ∧ s.2.1[i]? = id[t2]? ∧ s.2.2[i]? = id[t3]? := by
  obtain ⟨s, h, h1, h2, h3, h4⟩ := forLoop_inv
    (fun k (s : List F × List F × List F) =>
      s.1.length = domain.Cardinality ∧ s.2.1.length = domain.Cardinality ∧
      s.2.2.length = domain.Cardinality ∧
      ∀ i, i < k → ∃ t1 t2 t3 : Nat,
        perm[i]? = some (t1 : Int) ∧ perm[domain.Cardinality + i]? = some (t2 : Int) ∧
        perm[2 * domain.Cardinality + i]? = some (t3 : Int) ∧
        s.1[i]? = id[t1]? ∧ s.2.1[i]? = id[t2]? ∧ s.2.2[i]? = id[t3]?)
    domain.Cardinality (permutationBody id perm domain.Cardinality)
    (List.replicate domain.Cardinality 0, List.replicate domain.Cardinality 0,
      List.replicate domain.Cardinality 0)
    ⟨by simp, by simp, by simp, fun i hi => absurd hi (Nat.not_lt_zero i)⟩
    (fun k hk s ⟨h1, h2, h3, h4⟩ => by
      obtain ⟨t1, ht1, hp1⟩ := hperm k (by omega)
      obtain ⟨t2, ht2, hp2⟩ := hperm (domain.Cardinality + k) (by omega)
      obtain ⟨t3, ht3, hp3⟩ := hperm (2 * domain.Cardinality + k) (by omega)
      have e1 := getElem?_eq_some_getD id 0 t1 (by omega)
      have e2 := getElem?_eq_some_getD id 0 t2 (by omega)
      have e3 := getElem?_eq_some_getD id 0 t3 (by omega)
      refine ⟨(s.1.set k (id.getD t1 0), s.2.1.set k (id.getD t2 0),
        s.2.2.set k (id.getD t3 0)), ?_, by simpa using h1, by simpa using h2,
        by simpa using h3, fun i hi => ?_⟩
      · simp only [permutationBody, readID_eq id perm _ _ hp1, readID_eq id perm _ _ hp2,
          readID_eq id perm _ _ hp3, e1, e2, e3, Option.bind_eq_bind, Option.some_bind]
        rw [setAt?_eq_some _ (by omega)]
        simp only [Option.some_bind]
        rw [setAt?_eq_some _ (by omega)]
        simp only [Option.some_bind]
        rw [setAt?_eq_some _ (by omega)]
        simp only [Option.some_bind]
      · by_cases hik : i = k
        · subst hik
          refine ⟨t1, t2, t3, hp1, hp2, hp3, ?_, ?_, ?_⟩
          · rw [e1, List.getElem?_set, if_pos rfl, if_pos (by omega)]
          · rw [e2, List.getElem?_set, if_pos rfl, if_pos (by omega)]
          · rw [e3, List.getElem?_set, if_pos rfl, if_pos (by omega)]
        · obtain ⟨u1, u2, u3, q1, q2, q3, r1, r2, r3⟩ := h4 i (by omega)
          refine ⟨u1, u2, u3, q1, q2, q3, ?_, ?_, ?_⟩
          · simp only [List.getElem?_set]; rw [if_neg (by omega)]; exact r1
          · simp only [List.getElem?_set]; rw [if_neg (by omega)]; exact r2
          · simp only [List.getElem?_set]; rw [if_neg (by omega)]; exact r3)
  refine ⟨s, ?_, h1, h2, h3, h4⟩
  simp only [permutationLagrange, hid, Option.bind_eq_bind, Option.some_bind]
  exact h

theorem smallDomainCardinality_pos (spr : SparseR1CS F) : 1 ≤ smallDomainCardinality spr := by
  obtain ⟨⟨e, he⟩, _, _⟩ := nextPowerOfTwo_spec (sizeSystem spr)
  unfold smallDomainCardinality
  rw [he]
  exact Nat.one_le_two_pow

/-- C4: with the inverse transform followed by bit reversal modelled as interpolation
over the small domain (`toCanonical`), for every position `i < N` the canonical
polynomials `S1, S2, S3` stored by `ccomputePermutationPolynomials`, evaluated at
`generator^i`, give `identity[permutation[i]]`, `identity[permutation[N + i]]` and
`identity[permutation[2N + i]]`, where `identity` is the vector returned by
`getIDSmallDomain` and `permutation` the slice built by `buildPermutation`. -/
theorem permutationPolynomials_eval [Field F] (spr : SparseR1CS F) (domain : Domain F)
    (hw : WireIdsValid spr) (hnb : 1 ≤ nbVariables spr)
    (hcard : domain.Cardinality = smallDomainCardinality spr)
    (hg : IsPrimitiveRoot domain.Generator domain.Cardinality) :
    ∃ perm id S, buildPermutation spr domain.Cardinality = some perm ∧
      getIDSmallDomain domain = some id ∧
      ccomputePermutationPolynomials domain perm = some S ∧
      ∀ i, i < domain.Cardinality → ∃ t1 t2 t3 : Nat,
        perm[i]? = some (t1 : Int) ∧ perm[domain.Cardinality + i]? = some (t2 : Int) ∧
        perm[2 * domain.Cardinality + i]? = some (t3 : Int) ∧
        id[t1]? = some (evalCanonical S.1 (domain.Generator ^ i)) ∧
        id[t2]? = some (evalCanonical S.2.1 (domain.Generator ^ i)) ∧
        id[t3]? = some (evalCanonical S.2.2 (domain.Generator ^ i)) := by
  have hN : 1 ≤ domain.Cardinality := by rw [hcard]; exact smallDomainCardinality_pos spr
  obtain ⟨lro, perm, _, h2, _, h4, h5, h6⟩ := buildPermutation_cycleLinks spr hw hnb
  rw [← hcard] at h2 h4 h5 h6
  obtain ⟨id, hid, hidlen, _⟩ := getIDSmallDomain_rows domain hN
  obtain ⟨s, hs, l1, l2, l3, hrows⟩ := permutationLagrange_spec domain perm id hid hidlen
    (fun i hi => ⟨_, h5.lt hi, h6 i hi⟩)
  refine ⟨perm, id, (toCanonical domain s.1, toCanonical domain s.2.1,
    toCanonical domain s.2.2), h2, hid, by simp [ccomputePermutationPolynomials, hs],
    fun i hi => ?_⟩
  obtain ⟨t1, t2, t3, p1, p2, p3, r1, r2, r3⟩ := hrows i hi
  refine ⟨t1, t2, t3, p1, p2, p3, ?_, ?_, ?_⟩
  · rw [evalCanonical_toCanonical domain hg hN s.1 i hi, ← r1]
    exact getElem?_eq_some_getD s.1 0 i (by omega)
  · rw [evalCanonical_toCanonical domain hg hN s.2.1 i hi, ← r2]
    exact getElem?_eq_some_getD s.2.1 0 i (by omega)
  · rw [evalCanonical_toCanonical domain hg hN s.2.2 i hi, ← r3]
    exact getElem?_eq_some_getD s.2.2 0 i (by omega)

theorem exampleDomain_primitiveRoot :
    IsPrimitiveRoot exampleDomain.Generator exampleDomain.Cardinality := by
  refine IsPrimitiveRoot.mk_of_lt _ (by decide) (by decide) fun l h0 hl => ?_
  have hl4 : l < 4 := hl
  interval_cases l <;> decide

/-- Witness for C4: the system with 3 gates and 1 public input over `ZMod 17`. -/
theorem permutationPolynomials_eval_witness :
    WireIdsValid exampleSystem ∧ 1 ≤ nbVariables exampleSystem ∧
    exampleDomain.Cardinality = smallDomainCardinality exampleSystem ∧
    IsPrimitiveRoot exampleDomain.Generator exampleDomain.Cardinality ∧
    ∃ perm id S, buildPermutation exampleSystem exampleDomain.Cardinality = some perm ∧
      getIDSmallDomain exampleDomain = some id ∧
      ccomputePermutationPolynomials exampleDomain perm = some S ∧
      ∀ i, i < exampleDomain.Cardinality → ∃ t1 t2 t3 : Nat,
        perm[i]? = some (t1 : Int) ∧ perm[exampleDomain.Cardinality + i]? = some (t2 : Int) ∧
        perm[2 * exampleDomain.Cardinality + i]? = some (t3 : Int) ∧
        id[t1]? = some (evalCanonical S.1 (exampleDomain.Generator ^ i)) ∧
        id[t2]? = some (evalCanonical S.2.1 (exampleDomain.Generator ^ i)) ∧
        id[t3]? = some (evalCanonical S.2.2 (exampleDomain.Generator ^ i)) :=
  ⟨by decide, by decide, by decide, exampleDomain_primitiveRoot,
    permutationPolynomials_eval exampleSystem exampleDomain (by decide) (by decide)
      (by decide) exampleDomain_primitiveRoot⟩

/-! ## Selector vectors -/

theorem rowsAre_replicate [Field F] (n : Nat) (a : F) (g : Nat → F) :
    RowsAre (List.replicate n (0 : F)) n (rowValue 0 0 a g) := by
  refine ⟨by simp, fun i hi => ?_⟩
  simp [List.getElem?_replicate, hi, rowValue]

theorem rowsAre_set_placeholder [Field F] (v : List F) (n k : Nat) (a : F) (g : Nat → F)
    (h : RowsAre v n (rowValue k 0 a g)) (hk : k < n) :
    RowsAre (v.set k a) n (rowValue (k + 1) 0 a g) := by
  refine ⟨by simpa using h.1, fun i hi => ?_⟩
  rw [List.getElem?_set]
  by_cases hik : k = i
  · subst hik
    rw [if_pos rfl, if_pos (by rw [h.1]; exact hk)]
    simp [rowValue]
  · rw [if_neg hik, h.2 i hi]
    congr 1
    unfold rowValue
    by_cases hlt : i < k
    · rw [if_pos hlt, if_pos (by omega)]
    · rw [if_neg hlt, if_neg (by omega), if_neg (by omega), if_neg (by omega)]

theorem rowsAre_set_gate [Field F] (v : List F) (n p k : Nat) (a : F) (g : Nat → F)
    (h : RowsAre v n (rowValue p k a g)) (hk : p + k < n) :
    RowsAre (v.set (p + k) (g k)) n (rowValue p (k + 1) a g) := by
  refine ⟨by simpa using h.1, fun i hi => ?_⟩
  rw [List.getElem?_set]
  by_cases hik : p + k = i
  · subst hik
    rw [if_pos rfl, if_pos (by rw [h.1]; exact hk)]
    unfold rowValue
    rw [if_neg (by omega), if_pos (by omega), Nat.add_sub_cancel_left]
  · rw [if_neg hik, h.2 i hi]
    congr 1
    unfold rowValue
    by_cases h1 : i < p
    · rw [if_pos h1, if_pos h1]
    · rw [if_neg h1, if_neg h1]
      by_cases h2 : i < p + k
      · rw [if_pos h2, if_pos (by omega)]
      · rw [if_neg h2, if_neg (by omega)]

theorem rowsAre_setAt? [Field F] (v : List F) (n : Nat) (f : Nat → F) (h : RowsAre v n f)
    (i : Nat) (x : F) (hi : i < n) : setAt? v i x = some (v.set i x) :=
  setAt?_eq_some x (by rw [h.1]; exact hi)

theorem lagrangeSelectors_inv [Field F] (spr : SparseR1CS F) (n : Nat)
    (hn : sizeSystem spr ≤ n) (hc : CoeffIdsValid spr) (hcm : CommittedValid spr n) :
    ∃ s, lagrangeSelectors spr n = some s ∧
      SelectorsInv spr n spr.Public.length spr.Constraints.length s := by
  unfold sizeSystem at hn
  -- placeholders
  obtain ⟨s1, hs1, hI1⟩ := forLoop_inv (fun k (s : Selectors F) => SelectorsInv spr n k 0 s)
    spr.Public.length placeholderBody
    { Ql := List.replicate n 0, Qr := List.replicate n 0, Qm := List.replicate n 0,
      Qo := List.replicate n 0, CQk := List.replicate n 0, LQk := List.replicate n 0,
      QcPrime := List.replicate n 0 }
    ⟨rowsAre_replicate _ _ _, rowsAre_replicate _ _ _, rowsAre_replicate _ _ _,
      rowsAre_replicate _ _ _, rowsAre_replicate _ _ _, rowsAre_replicate _ _ _, by simp⟩
    (fun k hk s hs => by
      have hkn : k < n := by omega
      refine ⟨{ s with Ql := s.Ql.set k (-1), Qr := s.Qr.set k 0, Qm := s.Qm.set k 0,
                       Qo := s.Qo.set k 0, CQk := s.CQk.set k 0, LQk := s.LQk.set k 0 },
        ?_, ?_⟩
      · simp only [placeholderBody, rowsAre_setAt? _ _ _ hs.ql _ _ hkn,
          rowsAre_setAt? _ _ _ hs.qr _ _ hkn, rowsAre_setAt? _ _ _ hs.qm _ _ hkn,
          rowsAre_setAt? _ _ _ hs.qo _ _ hkn, rowsAre_setAt? _ _ _ hs.cqk _ _ hkn,
          rowsAre_setAt? _ _ _ hs.lqk _ _ hkn, Option.bind_eq_bind, Option.some_bind]
      · exact ⟨rowsAre_set_placeholder _ _ _ _ _ hs.ql hkn,
          rowsAre_set_placeholder _ _ _ _ _ hs.qr hkn,
          rowsAre_set_placeholder _ _ _ _ _ hs.qm hkn,
          rowsAre_set_placeholder _ _ _ _ _ hs.qo hkn,
          rowsAre_set_placeholder _ _ _ _ _ hs.cqk hkn,
          rowsAre_set_placeholder _ _ _ _ _ hs.lqk hkn, hs.qcp⟩)
  -- gates
  obtain ⟨s2, hs2, hI2⟩ := forLoop_inv
    (fun k (s : Selectors F) => SelectorsInv spr n spr.Public.length k s)
    spr.Constraints.length (constraintBody spr spr.Public.length) s1 hI1
    (fun k hk s hs => by
      have hkn : spr.Public.length + k < n := by omega
      have hck : spr.Constraints[k]? = some spr.Constraints[k] := List.getElem?_eq_getElem hk
      obtain ⟨c1, c2, c3, c4, c5, c6⟩ := hc _ (List.getElem_mem hk)
      have hgv : ∀ sel : SparseR1C → F, gateValue spr sel k = sel spr.Constraints[k] :=
        fun sel => by simp [gateValue, hck]
      refine ⟨{ s with
          Ql := s.Ql.set (spr.Public.length + k)
            (gateValue spr (fun c => coeffAt spr c.L.CoeffID) k),
          Qr := s.Qr.set (spr.Public.length + k)
            (gateValue spr (fun c => coeffAt spr c.R.CoeffID) k),
          Qm := s.Qm.set (spr.Public.length + k)
            (gateValue spr (fun c => coeffAt spr c.M.1.CoeffID * coeffAt spr c.M.2.CoeffID) k),
          Qo := s.Qo.set (spr.Public.length + k)
            (gateValue spr (fun c => coeffAt spr c.O.CoeffID) k),
          CQk := s.CQk.set (spr.Public.length + k) (gateValue spr (fun c => coeffAt spr c.K) k),
          LQk := s.LQk.set (spr.Public.length + k) (gateValue spr (fun c => coeffAt spr c.K) k) },
        ?_, ?_⟩
      · simp only [constraintBody, hck, getElem?_eq_some_getD spr.Coefficients 0 _ c1,
          getElem?_eq_some_getD spr.Coefficients 0 _ c2,
          getElem?_eq_some_getD spr.Coefficients 0 _ c3,
          getElem?_eq_some_getD spr.Coefficients 0 _ c4,
          getElem?_eq_some_getD spr.Coefficients 0 _ c5,
          getElem?_eq_some_getD spr.Coefficients 0 _ c6,
          rowsAre_setAt? _ _ _ hs.ql _ _ hkn,
          rowsAre_setAt? _ _ _ hs.qr _ _ hkn, rowsAre_setAt? _ _ _ hs.qm _ _ hkn,
          rowsAre_setAt? _ _ _ hs.qo _ _ hkn, rowsAre_setAt? _ _ _ hs.cqk _ _ hkn,
          rowsAre_setAt? _ _ _ hs.lqk _ _ hkn, Option.bind_eq_bind, Option.some_bind, hgv,
          coeffAt]
      · exact ⟨rowsAre_set_gate _ _ _ _ _ _ hs.ql hkn, rowsAre_set_gate _ _ _ _ _ _ hs.qr hkn,
          rowsAre_set_gate _ _ _ _ _ _ hs.qm hkn, rowsAre_set_gate _ _ _ _ _ _ hs.qo hkn,
          rowsAre_set_gate _ _ _ _ _ _ hs.cqk hkn, rowsAre_set_gate _ _ _ _ _ _ hs.lqk hkn,
          hs.qcp⟩)
  -- committed rows
  obtain ⟨qcp, hq, hlen⟩ := forLoop_inv (fun _ (q : List F) => q.length = n)
    spr.Committed.length (committedBody spr) s2.QcPrime hI2.qcp
    (fun k hk q hq => by
      have hck : spr.Committed[k]? = some spr.Committed[k] := List.getElem?_eq_getElem hk
      have hlt : spr.Committed[k] < n := hcm _ (List.getElem_mem hk)
      refine ⟨q.set spr.Committed[k] 1, ?_, by simpa using hq⟩
      simp only [committedBody, hck, Option.bind_eq_bind, Option.some_bind]
      exact setAt?_eq_some _ (by omega))
  refine ⟨{ s2 with QcPrime := qcp }, ?_, ⟨hI2.ql, hI2.qr, hI2.qm, hI2.qo, hI2.cqk, hI2.lqk, hlen⟩⟩
  simp only [lagrangeSelectors, hs1, hs2, hq, Option.bind_eq_bind, Option.some_bind]

/-! ## Domain sizes and selector rows -/

/-- C6: the small domain chosen by `Setup` for a system with `m` gates and `p` public
inputs (its cardinality is also what line 125 stores in `vk.Size`) has cardinality the
smallest power of two that is at least `m + p`. -/
theorem smallDomainCardinality_spec (spr : SparseR1CS F) :
    IsSmallestPowerOfTwoGE (smallDomainCardinality spr)
      (spr.Constraints.length + spr.Public.length) :=
  nextPowerOfTwo_spec (sizeSystem spr)

/-- The example of C6: 3 gates and 1 public input give cardinality 4. -/
theorem smallDomainCardinality_example :
    exampleSystem.Constraints.length = 3 ∧ exampleSystem.Public.length = 1 ∧
    smallDomainCardinality exampleSystem = 4 := by decide

theorem bigDomainArgument_small (spr : SparseR1CS F) (h6 : sizeSystem spr < 6) :
    bigDomainArgument spr = 8 * sizeSystem spr := by
  unfold bigDomainArgument
  rw [if_pos h6]
  exact Nat.mod_eq_of_lt (by omega)

theorem bigDomainArgument_large (spr : SparseR1CS F) (h6 : 6 ≤ sizeSystem spr)
    (h : sizeSystem spr < 2 ^ 62) : bigDomainArgument spr = 4 * sizeSystem spr := by
  unfold bigDomainArgument
  rw [if_neg (by omega)]
  exact Nat.mod_eq_of_lt (by omega)

/-- C7: with `n = m + p` (a number of rows of a system held in memory, so that `4n`
does not wrap as a `uint64`), the big domain chosen by `Setup` has cardinality the
smallest power of two that is at least `8n` when `n < 6`, and the smallest power of two
that is at least `4n` when `n ≥ 6`. -/
theorem bigDomainCardinality_spec (spr : SparseR1CS F)
    (h : spr.Constraints.length + spr.Public.length < 2 ^ 62) :
    (spr.Constraints.length + spr.Public.length < 6 →
      IsSmallestPowerOfTwoGE (bigDomainCardinality spr)
        (8 * (spr.Constraints.length + spr.Public.length))) ∧
    (6 ≤ spr.Constraints.length + spr.Public.length →
      IsSmallestPowerOfTwoGE (bigDomainCardinality spr)
        (4 * (spr.Constraints.length + spr.Public.length))) := by
  constructor
  · intro h6
    have := bigDomainArgument_small spr h6
    unfold bigDomainCardinality
    rw [this]
    exact nextPowerOfTwo_spec _
  · intro h6
    have := bigDomainArgument_large spr h6 h
    unfold bigDomainCardinality
    rw [this]
    exact nextPowerOfTwo_spec _

/-- Witness for C7: `n = 4` gives a big domain of cardinality 32, the smallest power of
two that is at least `8 * 4`. -/
theorem bigDomainCardinality_spec_witness :
    exampleSystem.Constraints.length + exampleSystem.Public.length < 2 ^ 62 ∧
    bigDomainCardinality exampleSystem = 32 ∧
    (exampleSystem.Constraints.length + exampleSystem.Public.length < 6 →
      IsSmallestPowerOfTwoGE (bigDomainCardinality exampleSystem)
        (8 * (exampleSystem.Constraints.length + exampleSystem.Public.length))) ∧
    (6 ≤ exampleSystem.Constraints.length + exampleSystem.Public.length →
      IsSmallestPowerOfTwoGE (bigDomainCardinality exampleSystem)
        (4 * (exampleSystem.Constraints.length + exampleSystem.Public.length))) :=
  ⟨by decide, by decide, bigDomainCardinality_spec exampleSystem (by decide)⟩

/-- C8 fails on the code: for a system with a single gate and no public input
(`n = 1`) `Setup` takes a big domain of cardinality 8, which is below
`3 * (n + 2) = 9`. -/
theorem bigDomainCardinality_singleGate :
    sizeSystem singleGateSystem = 1 ∧ bigDomainCardinality singleGateSystem = 8 ∧
    ¬ 3 * (sizeSystem singleGateSystem + 2) ≤ bigDomainCardinality singleGateSystem := by
  decide

/-- From two rows on, the big domain does hold `3 * (n + 2)` values. -/
theorem bigDomainCardinality_ge (spr : SparseR1CS F) (h2 : 2 ≤ sizeSystem spr)
    (h : sizeSystem spr < 2 ^ 62) :
    3 * (sizeSystem spr + 2) ≤ bigDomainCardinality spr := by
  unfold bigDomainCardinality
  by_cases h6 : sizeSystem spr < 6
  · rw [bigDomainArgument_small spr h6]
    have := (nextPowerOfTwo_spec (8 * sizeSystem spr)).2.1
    omega
  · rw [bigDomainArgument_large spr (by omega) h]
    have := (nextPowerOfTwo_spec (4 * sizeSystem spr)).2.1
    omega

/-- C9: on a system whose coefficient ids and committed indices are in range, the
selector vectors built by `Setup` have, at every placeholder row `i < p`, `Ql[i] = -1`,
`Qr[i] = Qm[i] = Qo[i] = 0`, and `CQk[i] = LQk[i] = 0`. -/
theorem lagrangeSelectors_placeholders [Field F] (spr : SparseR1CS F)
    (hc : CoeffIdsValid spr) (hcm : CommittedValid spr (smallDomainCardinality spr)) :
    ∃ s, lagrangeSelectors spr (smallDomainCardinality spr) = some s ∧
      ∀ i, i < spr.Public.length →
        s.Ql[i]? = some (-1) ∧ s.Qr[i]? = some 0 ∧ s.Qm[i]? = some 0 ∧
        s.Qo[i]? = some 0 ∧ s.CQk[i]? = some 0 ∧ s.LQk[i]? = some 0 := by
  have hn := sizeSystem_le_smallDomainCardinality spr
  obtain ⟨s, hs, hI⟩ := lagrangeSelectors_inv spr _ hn hc hcm
  unfold sizeSystem at hn
  refine ⟨s, hs, fun i hi => ?_⟩
  have hin : i < smallDomainCardinality spr := by omega
  refine ⟨?_, ?_, ?_, ?_, ?_, ?_⟩
  · rw [hI.ql.2 i hin]; simp [rowValue, hi]
  · rw [hI.qr.2 i hin]; simp [rowValue, hi]
  · rw [hI.qm.2 i hin]; simp [rowValue, hi]
  · rw [hI.qo.2 i hin]; simp [rowValue, hi]
  · rw [hI.cqk.2 i hin]; simp [rowValue, hi]
  · rw [hI.lqk.2 i hin]; simp [rowValue, hi]

/-- Witness for C9 on the system with 3 gates and 1 public input. -/
theorem lagrangeSelectors_placeholders_witness :
    CoeffIdsValid exampleSystem ∧
    CommittedValid exampleSystem (smallDomainCardinality exampleSystem) ∧
    ∃ s, lagrangeSelectors exampleSystem (smallDomainCardinality exampleSystem) = some s ∧
      ∀ i, i < exampleSystem.Public.length →
        s.Ql[i]? = some (-1) ∧ s.Qr[i]? = some 0 ∧ s.Qm[i]? = some 0 ∧
        s.Qo[i]? = some 0 ∧ s.CQk[i]? = some 0 ∧ s.LQk[i]? = some 0 :=
  ⟨by decide, by decide, lagrangeSelectors_placeholders exampleSystem (by decide) (by decide)⟩

theorem rowValue_gate [Field F] (p k : Nat) (a : F) (g : Nat → F) (j : Nat) (hj : j < k) :
    rowValue p k a g (p + j) = g j := by
  unfold rowValue
  rw [if_neg (by omega), if_pos (by omega), Nat.add_sub_cancel_left]

theorem rowValue_tail [Field F] (p k : Nat) (a : F) (g : Nat → F) (i : Nat)
    (hi : p + k ≤ i) : rowValue p k a g i = 0 := by
  unfold rowValue
  rw [if_neg (by omega), if_neg (by omega)]

/-- C10: on a system whose coefficient ids and committed indices are in range, the
selector vectors built by `Setup` have length `N` and, at row `p + j` for every gate
`j`, `Ql = coefficient(L_j)`, `Qr = coefficient(R_j)`,
`Qm = coefficient(M0_j) * coefficient(M1_j)`, `Qo = coefficient(O_j)` and
`CQk = LQk = coefficient(K_j)`; every row of index at least `m + p` is zero in the six
vectors. -/
theorem lagrangeSelectors_gates [Field F] (spr : SparseR1CS F)
    (hc : CoeffIdsValid spr) (hcm : CommittedValid spr (smallDomainCardinality spr)) :
    ∃ s, lagrangeSelectors spr (smallDomainCardinality spr) = some s ∧
      (s.Ql.length = smallDomainCardinality spr ∧ s.Qr.length = smallDomainCardinality spr ∧
        s.Qm.length = smallDomainCardinality spr ∧ s.Qo.length = smallDomainCardinality spr ∧
        s.CQk.length = smallDomainCardinality spr ∧
        s.LQk.length = smallDomainCardinality spr) ∧
      (∀ j c, spr.Constraints[j]? = some c → ∃ l r m0 m1 o k,
        spr.Coefficients[c.L.CoeffID]? = some l ∧ spr.Coefficients[c.R.CoeffID]? = some r ∧
        spr.Coefficients[c.M.1.CoeffID]? = some m0 ∧
        spr.Coefficients[c.M.2.CoeffID]? = some m1 ∧
        spr.Coefficients[c.O.CoeffID]? = some o ∧ spr.Coefficients[c.K]? = some k ∧
        RowIs s (spr.Public.length + j) l r (m0 * m1) o k) ∧
      (∀ i, spr.Constraints.length + spr.Public.length ≤ i → i < smallDomainCardinality spr →
        RowIs s i 0 0 0 0 0) := by
  have hn := sizeSystem_le_smallDomainCardinality spr
  obtain ⟨s, hs, hI⟩ := lagrangeSelectors_inv spr _ hn hc hcm
  unfold sizeSystem at hn
  refine ⟨s, hs, ⟨hI.ql.1, hI.qr.1, hI.qm.1, hI.qo.1, hI.cqk.1, hI.lqk.1⟩,
    fun j c hjc => ?_, fun i hi hin => ?_⟩
  · obtain ⟨hj, hcj⟩ := List.getElem?_eq_some.mp hjc
    obtain ⟨c1, c2, c3, c4, c5, c6⟩ := hc c (hcj ▸ List.getElem_mem hj)
    have hin : spr.Public.length + j < smallDomainCardinality spr := by omega
    have hgv : ∀ sel : SparseR1C → F, gateValue spr sel j = sel c :=
      fun sel => by simp [gateValue, hjc]
    refine ⟨_, _, _, _, _, _, getElem?_eq_some_getD _ 0 _ c1, getElem?_eq_some_getD _ 0 _ c2,
      getElem?_eq_some_getD _ 0 _ c3, getElem?_eq_some_getD _ 0 _ c4,
      getElem?_eq_some_getD _ 0 _ c5, getElem?_eq_some_getD _ 0 _ c6, ?_, ?_, ?_, ?_, ?_, ?_⟩
    · rw [hI.ql.2 _ hin, rowValue_gate _ _ _ _ _ hj, hgv]; rfl
    · rw [hI.qr.2 _ hin, rowValue_gate _ _ _ _ _ hj, hgv]; rfl
    · rw [hI.qm.2 _ hin, rowValue_gate _ _ _ _ _ hj, hgv]; rfl
    · rw [hI.qo.2 _ hin, rowValue_gate _ _ _ _ _ hj, hgv]; rfl
    · rw [hI.cqk.2 _ hin, rowValue_gate _ _ _ _ _ hj, hgv]; rfl
    · rw [hI.lqk.2 _ hin, rowValue_gate _ _ _ _ _ hj, hgv]; rfl
  · have hi' : spr.Public.length + spr.Constraints.length ≤ i := by omega
    refine ⟨?_, ?_, ?_, ?_, ?_, ?_⟩
    · rw [hI.ql.2 _ hin, rowValue_tail _ _ _ _ _ hi']
    · rw [hI.qr.2 _ hin, rowValue_tail _ _ _ _ _ hi']
    · rw [hI.qm.2 _ hin, rowValue_tail _ _ _ _ _ hi']
    · rw [hI.qo.2 _ hin, rowValue_tail _ _ _ _ _ hi']
    · rw [hI.cqk.2 _ hin, rowValue_tail _ _ _ _ _ hi']
    · rw [hI.lqk.2 _ hin, rowValue_tail _ _ _ _ _ hi']

/-- Witness for C10 on the system with 3 gates and 1 public input. -/
theorem lagrangeSelectors_gates_witness :
    CoeffIdsValid exampleSystem ∧
    CommittedValid exampleSystem (smallDomainCardinality exampleSystem) ∧
    ∃ s, lagrangeSelectors exampleSystem (smallDomainCardinality exampleSystem) = some s ∧
      (s.Ql.length = smallDomainCardinality exampleSystem ∧
        s.Qr.length = smallDomainCardinality exampleSystem ∧
        s.Qm.length = smallDomainCardinality exampleSystem ∧
        s.Qo.length = smallDomainCardinality exampleSystem ∧
        s.CQk.length = smallDomainCardinality exampleSystem ∧
        s.LQk.length = smallDomainCardinality exampleSystem) ∧
      (∀ j c, exampleSystem.Constraints[j]? = some c → ∃ l r m0 m1 o k,
        exampleSystem.Coefficients[c.L.CoeffID]? = some l ∧
        exampleSystem.Coefficients[c.R.CoeffID]? = some r ∧
        exampleSystem.Coefficients[c.M.1.CoeffID]? = some m0 ∧
        exampleSystem.Coefficients[c.M.2.CoeffID]? = some m1 ∧
        exampleSystem.Coefficients[c.O.CoeffID]? = some o ∧
        exampleSystem.Coefficients[c.K]? = some k ∧
        RowIs s (exampleSystem.Public.length + j) l r (m0 * m1) o k) ∧
      (∀ i, exampleSystem.Constraints.length + exampleSystem.Public.length ≤ i →
        i < smallDomainCardinality exampleSystem → RowIs s i 0 0 0 0 0) :=
  ⟨by decide, by decide, lagrangeSelectors_gates exampleSystem (by decide) (by decide)⟩

/-! ## The vector `QcPrime` -/

theorem forLoop_preserves {σ α : Type} (f : σ → α) (body : Nat → σ → Option σ)
    (hbody : ∀ k s s', body k s = some s' → f s' = f s) :
    ∀ n init s, forLoop n body init = some s → f s = f init := by
  intro n
  induction n with
  | zero =>
    intro init s h
    simp only [forLoop, Option.some.injEq] at h
    rw [h]
  | succ k ih =>
    intro init s h
    simp only [forLoop, Option.bind_eq_some] at h
    obtain ⟨s0, h0, h1⟩ := h
    rw [hbody k s0 s h1, ih init s0 h0]

theorem placeholderBody_qcPrime [Field F] (k : Nat) (s s' : Selectors F)
    (h : placeholderBody k s = some s') : s'.QcPrime = s.QcPrime := by
  simp only [placeholderBody, Option.bind_eq_bind, Option.bind_eq_some,
    Option.some.injEq] at h
  obtain ⟨_, _, _, _, _, _, _, _, _, _, _, _, rfl⟩ := h
  rfl

theorem constraintBody_qcPrime [Field F] (spr : SparseR1CS F) (offset k : Nat)
    (s s' : Selectors F) (h : constraintBody spr offset k s = some s') :
    s'.QcPrime = s.QcPrime := by
  simp only [constraintBody, Option.bind_eq_bind, Option.bind_eq_some,
    Option.some.injEq] at h
  obtain ⟨_, _, _, _, _, _, _, _, _, _, _, _, _, _, _, _, _, _, _, _, _, _, _, _, _, _,
    rfl⟩ := h
  rfl

/-- The rows of `QcPrime` built by lines 135-165. -/
theorem lagrangeSelectors_qcPrime_rows [Field F] (spr : SparseR1CS F) (n : Nat)
    (s : Selectors F) (hs : lagrangeSelectors spr n = some s)
    (hcm : CommittedValid spr n) :
    s.QcPrime.length = n ∧
      ∀ r, r < n → s.QcPrime[r]? = some (if r ∈ spr.Committed then 1 else 0) := by
  simp only [lagrangeSelectors, Option.bind_eq_bind, Option.bind_eq_some,
    Option.some.injEq] at hs
  obtain ⟨s1, h1, s2, h2, qcp, h3, rfl⟩ := hs
  have e1 := forLoop_preserves (fun s : Selectors F => s.QcPrime) placeholderBody
    placeholderBody_qcPrime _ _ _ h1
  have e2 := forLoop_preserves (fun s : Selectors F => s.QcPrime)
    (constraintBody spr spr.Public.length) (constraintBody_qcPrime spr _) _ _ _ h2
  simp only at e1 e2
  rw [e2, e1] at h3
  obtain ⟨q, hq, hlen, hrows⟩ := forLoop_inv
    (fun k (q : List F) => q.length = n ∧
      ∀ r, r < n → q[r]? = some (if ∃ j, j < k ∧ spr.Committed[j]? = some r then 1 else 0))
    spr.Committed.length (committedBody spr) (List.replicate n 0)
    ⟨by simp, fun r hr => by simp [List.getElem?_replicate, hr]⟩
    (fun k hk q ⟨hl, hq⟩ => by
      have hck : spr.Committed[k]? = some spr.Committed[k] := List.getElem?_eq_getElem hk
      have hlt : spr.Committed[k] < n := hcm _ (List.getElem_mem hk)
      refine ⟨q.set spr.Committed[k] 1, ?_, by simpa using hl, fun r hr => ?_⟩
      · simp only [committedBody, hck, Option.bind_eq_bind, Option.some_bind]
        exact setAt?_eq_some _ (by omega)
      · rw [List.getElem?_set]
        by_cases hr' : spr.Committed[k] = r
        · rw [if_pos hr', if_pos (by omega), if_pos ⟨k, Nat.lt_succ_self k, by rw [hck, hr']⟩]
        · rw [if_neg hr', hq r hr]
          congr 1
          by_cases he : ∃ j, j < k ∧ spr.Committed[j]? = some r
          · obtain ⟨j, hj, hjr⟩ := he
            rw [if_pos ⟨j, hj, hjr⟩, if_pos ⟨j, by omega, hjr⟩]
          · rw [if_neg he, if_neg]
            rintro ⟨j, hj, hjr⟩
            by_cases hjk : j = k
            · subst hjk
              rw [hck] at hjr
              exact hr' (Option.some.inj hjr)
            · exact he ⟨j, by omega, hjr⟩)
  rw [h3] at hq
  cases hq
  refine ⟨hlen, fun r hr => ?_⟩
  rw [hrows r hr]
  congr 1
  by_cases hm : r ∈ spr.Committed
  · obtain ⟨j, hj, hjr⟩ := List.getElem_of_mem hm
    rw [if_pos hm, if_pos ⟨j, hj, by rw [List.getElem?_eq_getElem hj, hjr]⟩]
  · rw [if_neg hm, if_neg]
    rintro ⟨j, _, hjr⟩
    obtain ⟨hj, hjr'⟩ := List.getElem?_eq_some.mp hjr
    exact hm (hjr' ▸ List.getElem_mem hj)

/-- C11: on a system whose coefficient ids and commitment-info indices are in range,
the vector `QcPrime` built by `Setup` in Lagrange basis has length `N` and, at every
row `r < N`, the value `1` if `r` is listed in `Committed` and `0` otherwise. -/
theorem lagrangeSelectors_qcPrime [Field F] (spr : SparseR1CS F)
    (hc : CoeffIdsValid spr) (hcm : CommittedValid spr (smallDomainCardinality spr)) :
    ∃ s, lagrangeSelectors spr (smallDomainCardinality spr) = some s ∧
      s.QcPrime.length = smallDomainCardinality spr ∧
      ∀ r, r < smallDomainCardinality spr →
        s.QcPrime[r]? = some (if r ∈ spr.Committed then 1 else 0) := by
  obtain ⟨s, hs, _⟩ := lagrangeSelectors_inv spr _
    (sizeSystem_le_smallDomainCardinality spr) hc hcm
  exact ⟨s, hs, lagrangeSelectors_qcPrime_rows spr _ s hs hcm⟩

/-- Witness for C11 on the system with 3 gates, 1 public input and one committed
index. -/
theorem lagrangeSelectors_qcPrime_witness :
    CoeffIdsValid committedSystem ∧
    CommittedValid committedSystem (smallDomainCardinality committedSystem) ∧
    ∃ s, lagrangeSelectors committedSystem (smallDomainCardinality committedSystem) = some s ∧
      s.QcPrime.length = smallDomainCardinality committedSystem ∧
      ∀ r, r < smallDomainCardinality committedSystem →
        s.QcPrime[r]? = some (if r ∈ committedSystem.Committed then 1 else 0) :=
  ⟨by decide, by decide, lagrangeSelectors_qcPrime committedSystem (by decide) (by decide)⟩

/-! ## Round trip through the canonical form -/

theorem toLagrange_toCanonical [Field F] (domain : Domain F)
    (hg : IsPrimitiveRoot domain.Generator domain.Cardinality) (hN : 1 ≤ domain.Cardinality)
    (v : List F) (hv : v.length = domain.Cardinality) :
    toLagrange domain (toCanonical domain v) = v := by
  apply List.ext_getElem?
  intro i
  by_cases hi : i < domain.Cardinality
  · rw [getElem?_eq_some_getD v 0 i (by omega)]
    simp only [toLagrange, List.getElem?_map, List.getElem?_range hi, Option.map_some']
    rw [evalCanonical_toCanonical domain hg hN v i hi]
  · have hlen : (toLagrange domain (toCanonical domain v)).length = domain.Cardinality := by
      simp [toLagrange]
    rw [List.getElem?_eq_none (by omega), List.getElem?_eq_none (by omega)]

/-- C12: on a system whose coefficient ids and committed indices are in range, over a
small domain whose generator is a primitive `N`-th root of unity, the forward
transform of each of the six canonical forms persisted by `Setup` (`Ql`, `Qr`, `Qm`,
`Qo`, `CQk`, `QcPrime`) is exactly the Lagrange-basis vector it was built from; in
particular the canonical `Ql` takes the value `coefficient(L)` of gate `j` at
`generator^(p+j)`. -/
theorem canonicalSelectors_roundTrip [Field F] (spr : SparseR1CS F) (domain : Domain F)
    (hc : CoeffIdsValid spr) (hcm : CommittedValid spr (smallDomainCardinality spr))
    (hcard : domain.Cardinality = smallDomainCardinality spr)
    (hg : IsPrimitiveRoot domain.Generator domain.Cardinality) :
    ∃ s, lagrangeSelectors spr domain.Cardinality = some s ∧
      toLagrange domain (canonicalSelectors domain s).Ql = s.Ql ∧
      toLagrange domain (canonicalSelectors domain s).Qr = s.Qr ∧
      toLagrange domain (canonicalSelectors domain s).Qm = s.Qm ∧
      toLagrange domain (canonicalSelectors domain s).Qo = s.Qo ∧
      toLagrange domain (canonicalSelectors domain s).CQk = s.CQk ∧
      toLagrange domain (canonicalSelectors domain s).QcPrime = s.QcPrime ∧
      ∀ j c, spr.Constraints[j]? = some c →
        spr.Coefficients[c.L.CoeffID]? =
          some (evalCanonical (canonicalSelectors domain s).Ql
            (domain.Generator ^ (spr.Public.length + j))) := by
  have hN : 1 ≤ domain.Cardinality := by rw [hcard]; exact smallDomainCardinality_pos spr
  have hn := sizeSystem_le_smallDomainCardinality spr
  obtain ⟨s, hs, hI⟩ := lagrangeSelectors_inv spr _ hn hc hcm
  rw [← hcard] at hs hI
  refine ⟨s, hs, toLagrange_toCanonical domain hg hN _ hI.ql.1,
    toLagrange_toCanonical domain hg hN _ hI.qr.1,
    toLagrange_toCanonical domain hg hN _ hI.qm.1,
    toLagrange_toCanonical domain hg hN _ hI.qo.1,
    toLagrange_toCanonical domain hg hN _ hI.cqk.1,
    toLagrange_toCanonical domain hg hN _ hI.qcp, fun j c hjc => ?_⟩
  obtain ⟨hj, hcj⟩ := List.getElem?_eq_some.mp hjc
  obtain ⟨c1, _⟩ := hc c (hcj ▸ List.getElem_mem hj)
  unfold sizeSystem at hn
  have hin : spr.Public.length + j < domain.Cardinality := by omega
  show _ = some (evalCanonical (toCanonical domain s.Ql) _)
  rw [evalCanonical_toCanonical domain hg hN s.Ql _ hin, getElem?_eq_some_getD _ 0 _ c1]
  have h1 := hI.ql.2 _ hin
  rw [getElem?_eq_some_getD s.Ql 0 _ (by rw [hI.ql.1]; exact hin),
    rowValue_gate _ _ _ _ _ hj] at h1
  rw [Option.some.inj h1]
  simp [gateValue, hjc, coeffAt]

/-- Witness for C12 on the system with 3 gates and 1 public input over `ZMod 17`. -/
theorem canonicalSelectors_roundTrip_witness :
    CoeffIdsValid exampleSystem ∧
    CommittedValid exampleSystem (smallDomainCardinality exampleSystem) ∧
    exampleDomain.Cardinality = smallDomainCardinality exampleSystem ∧
    IsPrimitiveRoot exampleDomain.Generator exampleDomain.Cardinality ∧
    ∃ s, lagrangeSelectors exampleSystem exampleDomain.Cardinality = some s ∧
      toLagrange exampleDomain (canonicalSelectors exampleDomain s).Ql = s.Ql ∧
      toLagrange exampleDomain (canonicalSelectors exampleDomain s).Qr = s.Qr ∧
      toLagrange exampleDomain (canonicalSelectors exampleDomain s).Qm = s.Qm ∧
      toLagrange exampleDomain (canonicalSelectors exampleDomain s).Qo = s.Qo ∧
      toLagrange exampleDomain (canonicalSelectors exampleDomain s).CQk = s.CQk ∧
      toLagrange exampleDomain (canonicalSelectors exampleDomain s).QcPrime = s.QcPrime ∧
      ∀ j c, exampleSystem.Constraints[j]? = some c →
        exampleSystem.Coefficients[c.L.CoeffID]? =
          some (evalCanonical (canonicalSelectors exampleDomain s).Ql
            (exampleDomain.Generator ^ (exampleSystem.Public.length + j))) :=
  ⟨by decide, by decide, by decide, exampleDomain_primitiveRoot,
    canonicalSelectors_roundTrip exampleSystem exampleDomain (by decide) (by decide)
      (by decide) exampleDomain_primitiveRoot⟩

/-! ## `InitKZG` -/

theorem uint64ToInt_of_lt (x : Nat) (h : x < 2 ^ 63) : uint64ToInt x = (x : Int) := by
  have h1 : x % 2 ^ 64 = x := Nat.mod_eq_of_lt (by omega)
  simp only [uint64ToInt, h1, h, if_true]

/-- For a key whose `Size` is below `2^63`, `InitKZG` fails exactly when the reference
string has fewer than `Size` basis elements; a failing call leaves the key unchanged,
a successful one only sets `KZGSRS`. -/
theorem initKZG_of_lt {F D G : Type} (vk : VerifyingKey F D G) (srs : SRS G)
    (h : vk.Size < 2 ^ 63) :
    ((vk.InitKZG srs).1 ≠ none ↔ srs.G1.length < vk.Size) ∧
    ((vk.InitKZG srs).1 ≠ none → (vk.InitKZG srs).2 = vk) ∧
    ((vk.InitKZG srs).1 = none → (vk.InitKZG srs).2 = { vk with KZGSRS := some srs }) := by
  unfold VerifyingKey.InitKZG
  rw [uint64ToInt_of_lt _ h]
  by_cases hlt : srs.G1.length < vk.Size
  · have : (srs.G1.length : Int) < (vk.Size : Int) := by omega
    simp [this, hlt]
  · have : ¬ (srs.G1.length : Int) < (vk.Size : Int) := by omega
    simp [this, hlt]

/-- The method of the proving key delegates to the method of its verifying key. -/
theorem ProvingKey.initKZG_eq {F D G : Type} (pk : ProvingKey F D G) (srs : SRS G) :
    (pk.InitKZG srs).1 = (pk.Vk.InitKZG srs).1 ∧
    (pk.InitKZG srs).2 = { pk with Vk := (pk.Vk.InitKZG srs).2 } :=
  ⟨rfl, rfl⟩

/-- C13 fails on the code: for a verifying key with `Size = 2^63` and a reference
string with 4 basis elements, `int(vk.Size)` is negative, so `InitKZG` (and
`ProvingKey.InitKZG`, which delegates to it) returns no error and binds the reference
string, although `4 < vk.Size`. -/
theorem initKZG_hugeSize :
    exampleSRS.G1.length = 4 ∧ hugeSizeKey.Size = 2 ^ 63 ∧
    exampleSRS.G1.length < hugeSizeKey.Size ∧
    uint64ToInt hugeSizeKey.Size = -2 ^ 63 ∧
    (hugeSizeKey.InitKZG exampleSRS).1 = none ∧
    ((hugeSizeKey.InitKZG exampleSRS).2.KZGSRS.map fun s => s.G1) = some exampleSRS.G1 ∧
    cosetExampleKey.Vk.Size = 2 ^ 63 ∧ (cosetExampleKey.InitKZG exampleSRS).1 = none := by
  decide

/-! ## The commitments of `Setup` -/

theorem except_bind_eq_ok {ε α β : Type} (x : Except ε α) (f : α → Except ε β) (b : β) :
    (x >>= f) = Except.ok b ↔ ∃ a, x = Except.ok a ∧ f a = Except.ok b := by
  cases x with
  | error e => simp [bind, Except.bind]
  | ok a => simp [bind, Except.bind]

theorem except_bind_eq_error {ε α β : Type} (x : Except ε α) (f : α → Except ε β) (e : ε) :
    (x >>= f) = Except.error e ↔
      x = Except.error e ∨ ∃ a, x = Except.ok a ∧ f a = Except.error e := by
  cases x with
  | error e' => simp [bind, Except.bind]
  | ok a => simp [bind, Except.bind]

theorem commitAll_ok {F D G : Type} (commit : List F → SRS G → Except String D)
    (pk : ProvingKey F D G) (vk vk' : VerifyingKey F D G)
    (h : commitAll commit pk vk = some (Except.ok vk')) :
    ∃ srs, vk.KZGSRS = some srs ∧
      commit pk.Ql srs = Except.ok vk'.Ql ∧ commit pk.Qr srs = Except.ok vk'.Qr ∧
      commit pk.Qm srs = Except.ok vk'.Qm ∧ commit pk.QcPrime srs = Except.ok vk'.QcPrime ∧
      commit pk.Qo srs = Except.ok vk'.Qo ∧ commit pk.CQk srs = Except.ok vk'.Qk ∧
      commit pk.S1Canonical srs = Except.ok vk'.S.1 ∧
      commit pk.S2Canonical srs = Except.ok vk'.S.2.1 ∧
      commit pk.S3Canonical srs = Except.ok vk'.S.2.2 ∧
      vk' = { vk with Ql := vk'.Ql, Qr := vk'.Qr, Qm := vk'.Qm, QcPrime := vk'.QcPrime,
                      Qo := vk'.Qo, Qk := vk'.Qk, S := vk'.S } := by
  unfold commitAll at h
  cases hs : vk.KZGSRS with
  | none => rw [hs] at h; exact absurd h (by simp)
  | some srs =>
    rw [hs] at h
    simp only [Option.bind_eq_bind, Option.some_bind, Option.some.injEq,
      except_bind_eq_ok] at h
    obtain ⟨d1, h1, d2, h2, d3, h3, d4, h4, d5, h5, d6, h6, d7, h7, d8, h8, d9, h9, h⟩ := h
    cases h
    exact ⟨srs, rfl, h1, h2, h3, h4, h5, h6, h7, h8, h9, rfl⟩

theorem commitAll_error {F D G : Type} (commit : List F → SRS G → Except String D)
    (pk : ProvingKey F D G) (vk : VerifyingKey F D G) (srs : SRS G) (e : String)
    (hs : vk.KZGSRS = some srs) (h : commitAll commit pk vk = some (Except.error e)) :
    ∃ v, v ∈ pk.committedVectors ∧ commit v srs = Except.error e := by
  unfold commitAll at h
  rw [hs] at h
  simp only [Option.bind_eq_bind, Option.some_bind, Option.some.injEq,
    except_bind_eq_error] at h
  rcases h with h | ⟨_, _, h | ⟨_, _, h | ⟨_, _, h | ⟨_, _, h | ⟨_, _, h | ⟨_, _, h |
    ⟨_, _, h | ⟨_, _, h | ⟨_, _, h⟩⟩⟩⟩⟩⟩⟩⟩⟩
  · exact ⟨_, by simp [ProvingKey.committedVectors], h⟩
  · exact ⟨_, by simp [ProvingKey.committedVectors], h⟩
  · exact ⟨_, by simp [ProvingKey.committedVectors], h⟩
  · exact ⟨_, by simp [ProvingKey.committedVectors], h⟩
  · exact ⟨_, by simp [ProvingKey.committedVectors], h⟩
  · exact ⟨_, by simp [ProvingKey.committedVectors], h⟩
  · exact ⟨_, by simp [ProvingKey.committedVectors], h⟩
  · exact ⟨_, by simp [ProvingKey.committedVectors], h⟩
  · exact ⟨_, by simp [ProvingKey.committedVectors], h⟩
  · exact absurd h (by simp)

theorem commitAll_isSome {F D G : Type} (commit : List F → SRS G → Except String D)
    (pk : ProvingKey F D G) (vk : VerifyingKey F D G) (srs : SRS G)
    (hs : vk.KZGSRS = some srs) : ∃ res, commitAll commit pk vk = some res := by
  unfold commitAll
  rw [hs]
  exact ⟨_, rfl⟩

/-- When every vector given to `kzg.Commit` is committed without error, the sequence of
lines 190-217 returns a verifying key. -/
theorem commitAll_ok_of_forall {F D G : Type} (commit : List F → SRS G → Except String D)
    (pk : ProvingKey F D G) (vk : VerifyingKey F D G) (srs : SRS G)
    (hs : vk.KZGSRS = some srs)
    (h : ∀ v, v ∈ pk.committedVectors → ∃ d, commit v srs = Except.ok d) :
    ∃ vk', commitAll commit pk vk = some (Except.ok vk') := by
  obtain ⟨res, hres⟩ := commitAll_isSome commit pk vk srs hs
  cases res with
  | ok vk' => exact ⟨vk', hres⟩
  | error e =>
    obtain ⟨v, hv, hve⟩ := commitAll_error commit pk vk srs e hs hres
    obtain ⟨d, hd⟩ := h v hv
    rw [hd] at hve
    exact absurd hve (by simp)

/-! ## `clone` and `computeLagrangeCosetPolys` -/

theorem clone_eq_some (input : List F) (capacity : Nat) (h : input.length ≤ capacity) :
    clone input capacity = some input := by
  simp [clone, h]

theorem clone_eq_none (input : List F) (capacity : Nat) (h : capacity < input.length) :
    clone input capacity = none := by
  simp [clone, Nat.not_le.mpr h]

theorem clone_some_inv (input w : List F) (capacity : Nat)
    (h : clone input capacity = some w) : input.length ≤ capacity ∧ w = input := by
  unfold clone at h
  by_cases hle : input.length ≤ capacity
  · rw [if_pos hle] at h
    exact ⟨hle, (Option.some.inj h).symm⟩
  · rw [if_neg hle] at h
    exact absurd h (by simp)

/-- When no cloned canonical form is longer than the big domain,
`computeLagrangeCosetPolys` returns the key with its eight coset fields filled. -/
theorem computeLagrangeCosetPolys_eq {D G : Type} [Field F] (pk : ProvingKey F D G)
    (hlen : ∀ v, v ∈ pk.cosetSources → v.length ≤ pk.Domain.2.Cardinality) :
    pk.computeLagrangeCosetPolys = some { pk with
      lQl := toLagrangeCoset pk.Domain.2 pk.Ql
      lQr := toLagrangeCoset pk.Domain.2 pk.Qr
      lQm := toLagrangeCoset pk.Domain.2 pk.Qm
      lQo := toLagrangeCoset pk.Domain.2 pk.Qo
      lQcPrime := toLagrangeCoset pk.Domain.2 pk.QcPrime
      lS1LagrangeCoset := toLagrangeCoset pk.Domain.2 pk.S1Canonical
      lS2LagrangeCoset := toLagrangeCoset pk.Domain.2 pk.S2Canonical
      lS3LagrangeCoset := toLagrangeCoset pk.Domain.2 pk.S3Canonical } := by
  unfold ProvingKey.computeLagrangeCosetPolys
  rw [clone_eq_some pk.Ql _ (hlen _ (by simp [ProvingKey.cosetSources])),
    clone_eq_some pk.Qr _ (hlen _ (by simp [ProvingKey.cosetSources])),
    clone_eq_some pk.Qm _ (hlen _ (by simp [ProvingKey.cosetSources])),
    clone_eq_some pk.Qo _ (hlen _ (by simp [ProvingKey.cosetSources])),
    clone_eq_some pk.QcPrime _ (hlen _ (by simp [ProvingKey.cosetSources])),
    clone_eq_some pk.S1Canonical _ (hlen _ (by simp [ProvingKey.cosetSources])),
    clone_eq_some pk.S2Canonical _ (hlen _ (by simp [ProvingKey.cosetSources])),
    clone_eq_some pk.S3Canonical _ (hlen _ (by simp [ProvingKey.cosetSources]))]
  rfl

/-- A run of `computeLagrangeCosetPolys` that returns had no cloned canonical form
longer than the big domain. -/
theorem computeLagrangeCosetPolys_lengths {D G : Type} [Field F]
    (pk pk' : ProvingKey F D G) (h : pk.computeLagrangeCosetPolys = some pk') :
    ∀ v, v ∈ pk.cosetSources → v.length ≤ pk.Domain.2.Cardinality := by
  simp only [ProvingKey.computeLagrangeCosetPolys, Option.bind_eq_bind,
    Option.bind_eq_some] at h
  obtain ⟨_, h1, _, h2, _, h3, _, h4, _, h5, _, h6, _, h7, _, h8, _⟩ := h
  intro v hv
  simp only [ProvingKey.cosetSources, List.mem_cons, List.mem_singleton,
    List.mem_nil_iff, or_false] at hv
  rcases hv with rfl | rfl | rfl | rfl | rfl | rfl | rfl | rfl
  · exact (clone_some_inv _ _ _ h1).1
  · exact (clone_some_inv _ _ _ h2).1
  · exact (clone_some_inv _ _ _ h3).1
  · exact (clone_some_inv _ _ _ h4).1
  · exact (clone_some_inv _ _ _ h5).1
  · exact (clone_some_inv _ _ _ h6).1
  · exact (clone_some_inv _ _ _ h7).1
  · exact (clone_some_inv _ _ _ h8).1

/-- A cloned canonical form longer than the big domain stops
`computeLagrangeCosetPolys`. -/
theorem computeLagrangeCosetPolys_eq_none {D G : Type} [Field F] (pk : ProvingKey F D G)
    (v : List F) (hv : v ∈ pk.cosetSources) (hlong : pk.Domain.2.Cardinality < v.length) :
    pk.computeLagrangeCosetPolys = none := by
  cases h : pk.computeLagrangeCosetPolys with
  | none => rfl
  | some pk' =>
    have := computeLagrangeCosetPolys_lengths pk pk' h v hv
    omega

/-! ## The proving key built by `Setup` -/

/-- On a system with valid wire ids `buildPermutation` and
`ccomputePermutationPolynomials` run without an out-of-range index. -/
theorem permutation_pipeline [Field F] (spr : SparseR1CS F) (domain : Domain F)
    (hw : WireIdsValid spr) (hnb : 1 ≤ nbVariables spr)
    (hcard : domain.Cardinality = smallDomainCardinality spr) :
    ∃ perm s, buildPermutation spr domain.Cardinality = some perm ∧
      ccomputePermutationPolynomials domain perm = some s ∧
      perm.length = 3 * domain.Cardinality ∧
      (∀ i, i < 3 * domain.Cardinality →
        ∃ t : Nat, t < 3 * domain.Cardinality ∧ perm[i]? = some (t : Int)) ∧
      s.1.length = domain.Cardinality ∧ s.2.1.length = domain.Cardinality ∧
      s.2.2.length = domain.Cardinality := by
  have hN : 1 ≤ domain.Cardinality := by rw [hcard]; exact smallDomainCardinality_pos spr
  obtain ⟨lro, perm, _, h2, _, h4, h5, h6⟩ := buildPermutation_cycleLinks spr hw hnb
  rw [← hcard] at h2 h4 h5 h6
  obtain ⟨id, hid, hidlen, _⟩ := getIDSmallDomain_rows domain hN
  have hrange : ∀ i, i < 3 * domain.Cardinality →
      ∃ t : Nat, t < 3 * domain.Cardinality ∧ perm[i]? = some (t : Int) :=
    fun i hi => ⟨_, h5.lt hi, h6 i hi⟩
  obtain ⟨s, hs, _⟩ := permutationLagrange_spec domain perm id hid hidlen hrange
  refine ⟨perm, (toCanonical domain s.1, toCanonical domain s.2.1, toCanonical domain s.2.2),
    h2, by simp [ccomputePermutationPolynomials, hs], h4, hrange,
    toCanonical_length _ _, toCanonical_length _ _, toCanonical_length _ _⟩

/-- The key assembled by lines 135-187 from the selectors `sel`, the permutation `perm`
and the permutation polynomials `s`. -/
theorem buildProvingKey_eq_some {D G : Type} [Field F] (spr : SparseR1CS F)
    (domains : Domain F × Domain F) (vk : VerifyingKey F D G) (pk : ProvingKey F D G)
    (h : buildProvingKey spr domains vk = some pk) :
    ∃ sel perm s, lagrangeSelectors spr domains.1.Cardinality = some sel ∧
      buildPermutation spr domains.1.Cardinality = some perm ∧
      ccomputePermutationPolynomials domains.1 perm = some s ∧
      pk.Vk = vk ∧ pk.Domain = domains ∧ pk.Permutation = perm ∧
      pk.Ql = toCanonical domains.1 sel.Ql ∧ pk.Qr = toCanonical domains.1 sel.Qr ∧
      pk.Qm = toCanonical domains.1 sel.Qm ∧ pk.Qo = toCanonical domains.1 sel.Qo ∧
      pk.CQk = toCanonical domains.1 sel.CQk ∧
      pk.QcPrime = toCanonical domains.1 sel.QcPrime ∧ pk.LQk = sel.LQk ∧
      pk.S1Canonical = s.1 ∧ pk.S2Canonical = s.2.1 ∧ pk.S3Canonical = s.2.2 := by
  simp only [buildProvingKey, Option.bind_eq_bind, Option.bind_eq_some] at h
  obtain ⟨sel, h1, perm, h2, s, h3, h4⟩ := h
  rw [computeLagrangeCosetPolys_eq _ (computeLagrangeCosetPolys_lengths _ _ h4)] at h4
  cases h4
  exact ⟨sel, perm, s, h1, h2, h3, rfl, rfl, rfl, rfl, rfl, rfl, rfl, rfl, rfl, rfl, rfl,
    rfl, rfl⟩

/-- On a well-formed system whose small domain is not larger than the big one, lines
135-187 run without an out-of-range index or a failing clone, and the nine vectors
later given to `kzg.Commit` have the length of the small domain. -/
theorem buildProvingKey_isSome {D G : Type} [Field F] (spr : SparseR1CS F)
    (domains : Domain F × Domain F) (vk : VerifyingKey F D G)
    (hw : WireIdsValid spr) (hnb : 1 ≤ nbVariables spr) (hc : CoeffIdsValid spr)
    (hcm : CommittedValid spr (smallDomainCardinality spr))
    (hcard : domains.1.Cardinality = smallDomainCardinality spr)
    (hle : domains.1.Cardinality ≤ domains.2.Cardinality) :
    ∃ pk, buildProvingKey spr domains vk = some pk ∧
      ∀ v, v ∈ pk.committedVectors → v.length = domains.1.Cardinality := by
  obtain ⟨sel, hsel, _⟩ := lagrangeSelectors_inv spr _
    (sizeSystem_le_smallDomainCardinality spr) hc hcm
  rw [← hcard] at hsel
  obtain ⟨perm, s, hperm, hs, _, _, l1, l2, l3⟩ :=
    permutation_pipeline spr domains.1 hw hnb hcard
  have hsome : ∃ pk, buildProvingKey spr domains vk = some pk := by
    simp only [buildProvingKey, hsel, hperm, hs, Option.bind_eq_bind, Option.some_bind]
    refine ⟨_, computeLagrangeCosetPolys_eq _ fun v hv => ?_⟩
    simp only [ProvingKey.cosetSources, canonicalSelectors, List.mem_cons,
      List.mem_singleton, List.mem_nil_iff, or_false] at hv
    show v.length ≤ domains.2.Cardinality
    rcases hv with rfl | rfl | rfl | rfl | rfl | rfl | rfl | rfl
    · rw [toCanonical_length]; exact hle
    · rw [toCanonical_length]; exact hle
    · rw [toCanonical_length]; exact hle
    · rw [toCanonical_length]; exact hle
    · rw [toCanonical_length]; exact hle
    · rw [l1]; exact hle
    · rw [l2]; exact hle
    · rw [l3]; exact hle
  obtain ⟨pk, hpk⟩ := hsome
  refine ⟨pk, hpk, ?_⟩
  obtain ⟨sel', perm', s', h1, h2, h3, _, _, _, e1, e2, e3, e4, e5, e6, _, e7, e8, e9⟩ :=
    buildProvingKey_eq_some spr domains vk pk hpk
  rw [hperm] at h2
  cases h2
  rw [hs] at h3
  cases h3
  intro v hv
  simp only [ProvingKey.committedVectors, List.mem_cons, List.mem_singleton,
    List.mem_nil_iff, or_false] at hv
  rcases hv with rfl | rfl | rfl | rfl | rfl | rfl | rfl | rfl | rfl
  · rw [e1]; exact toCanonical_length _ _
  · rw [e2]; exact toCanonical_length _ _
  · rw [e3]; exact toCanonical_length _ _
  · rw [e6]; exact toCanonical_length _ _
  · rw [e4]; exact toCanonical_length _ _
  · rw [e5]; exact toCanonical_length _ _
  · rw [e7]; exact l1
  · rw [e8]; exact l2
  · rw [e9]; exact l3

/-! ## The structure of `Setup` -/

theorem Setup_of_initKZG_error {D G : Type} [Field F] [Inhabited D]
    (params : DomainParams F) (commit : List F → SRS G → Except String D)
    (spr : SparseR1CS F) (srs : SRS G) (e : String)
    (h : ((initialVerifyingKey params spr : VerifyingKey F D G).InitKZG srs).1 = some e) :
    Setup params commit spr srs = some { pk := none, vk := none, err := some e } := by
  unfold Setup
  generalize (initialVerifyingKey params spr : VerifyingKey F D G).InitKZG srs = q at h
  obtain ⟨e', vk⟩ := q
  cases h
  rfl

theorem Setup_of_initKZG_ok {D G : Type} [Field F] [Inhabited D]
    (params : DomainParams F) (commit : List F → SRS G → Except String D)
    (spr : SparseR1CS F) (srs : SRS G)
    (h : ((initialVerifyingKey params spr : VerifyingKey F D G).InitKZG srs).1 = none) :
    Setup params commit spr srs =
      (buildProvingKey spr (setupDomains params spr)
        ((initialVerifyingKey params spr : VerifyingKey F D G).InitKZG srs).2).bind fun pk =>
      (commitAll commit pk
        ((initialVerifyingKey params spr : VerifyingKey F D G).InitKZG srs).2).bind fun res =>
      match res with
      | Except.error err => some { pk := none, vk := none, err := some err }
      | Except.ok vk => some { pk := some { pk with Vk := vk }, vk := some vk, err := none } := by
  unfold Setup
  generalize (initialVerifyingKey params spr : VerifyingKey F D G).InitKZG srs = q at h
  obtain ⟨e', vk⟩ := q
  cases h
  rfl

theorem initKZG_snd_of_ok {F D G : Type} (vk : VerifyingKey F D G) (srs : SRS G)
    (h : (vk.InitKZG srs).1 = none) : (vk.InitKZG srs).2 = { vk with KZGSRS := some srs } := by
  unfold VerifyingKey.InitKZG at h ⊢
  by_cases hlt : (srs.G1.length : Int) < uint64ToInt vk.Size
  · rw [if_pos hlt] at h
    exact absurd h (by simp)
  · rw [if_neg hlt]

theorem smallDomainCardinality_lt (spr : SparseR1CS F) (h : sizeSystem spr < 2 ^ 62) :
    smallDomainCardinality spr < 2 ^ 63 := by
  have := (nextPowerOfTwo_spec (sizeSystem spr)).2.2 62 (by omega)
  unfold smallDomainCardinality
  omega

theorem nextPowerOfTwo_mono {a b : Nat} (h : a ≤ b) : nextPowerOfTwo a ≤ nextPowerOfTwo b := by
  obtain ⟨⟨e, he⟩, hb, _⟩ := nextPowerOfTwo_spec b
  rw [he]
  exact (nextPowerOfTwo_spec a).2.2 e (by omega)

/-- For a system held in memory the small domain of `Setup` is not larger than the big
one. -/
theorem smallDomainCardinality_le_big (spr : SparseR1CS F) (h : sizeSystem spr < 2 ^ 62) :
    smallDomainCardinality spr ≤ bigDomainCardinality spr := by
  unfold smallDomainCardinality bigDomainCardinality
  apply nextPowerOfTwo_mono
  by_cases h6 : sizeSystem spr < 6
  · rw [bigDomainArgument_small spr h6]; omega
  · rw [bigDomainArgument_large spr (by omega) h]; omega

theorem commitAll_no_error {F D G : Type} (commit : List F → SRS G → Except String D)
    (pk : ProvingKey F D G) (vk vk' : VerifyingKey F D G) (srs : SRS G)
    (hs : vk.KZGSRS = some srs) (h : commitAll commit pk vk = some (Except.ok vk')) :
    ¬ ∃ v, v ∈ pk.committedVectors ∧ ∃ e, commit v srs = Except.error e := by
  obtain ⟨srs', hs', h1, h2, h3, h4, h5, h6, h7, h8, h9, _⟩ := commitAll_ok commit pk vk vk' h
  rw [hs] at hs'
  cases hs'
  rintro ⟨v, hv, e, he⟩
  simp only [ProvingKey.committedVectors, List.mem_cons, List.mem_singleton,
    List.mem_nil_iff, or_false] at hv
  rcases hv with rfl | rfl | rfl | rfl | rfl | rfl | rfl | rfl | rfl
  · rw [h1] at he; exact absurd he (by simp)
  · rw [h2] at he; exact absurd he (by simp)
  · rw [h3] at he; exact absurd he (by simp)
  · rw [h4] at he; exact absurd he (by simp)
  · rw [h5] at he; exact absurd he (by simp)
  · rw [h6] at he; exact absurd he (by simp)
  · rw [h7] at he; exact absurd he (by simp)
  · rw [h8] at he; exact absurd he (by simp)
  · rw [h9] at he; exact absurd he (by simp)

/-- The outcomes of `Setup` on a well-formed system. -/
theorem Setup_outcomes {D G : Type} [Field F] [Inhabited D]
    (params : DomainParams F) (commit : List F → SRS G → Except String D)
    (spr : SparseR1CS F) (srs : SRS G)
    (hw : WireIdsValid spr) (hnb : 1 ≤ nbVariables spr) (hc : CoeffIdsValid spr)
    (hcm : CommittedValid spr (smallDomainCardinality spr))
    (hsize : spr.Constraints.length + spr.Public.length < 2 ^ 62) :
    ∃ r pk0, Setup params commit spr srs = some r ∧
      buildProvingKey spr (setupDomains params spr)
        ((initialVerifyingKey params spr : VerifyingKey F D G).InitKZG srs).2 = some pk0 ∧
      (r.err ≠ none ↔ (srs.G1.length < smallDomainCardinality spr ∨
        ∃ v, v ∈ pk0.committedVectors ∧ ∃ e, commit v srs = Except.error e)) ∧
      (r.err ≠ none → r.pk = none ∧ r.vk = none) ∧
      (r.err = none → r.pk ≠ none ∧ r.vk ≠ none) ∧
      ((∀ v, v.length ≤ srs.G1.length → ∃ d, commit v srs = Except.ok d) →
        (r.err = none ↔ smallDomainCardinality spr ≤ srs.G1.length)) := by
  have hlt : (initialVerifyingKey params spr : VerifyingKey F D G).Size < 2 ^ 63 :=
    smallDomainCardinality_lt spr hsize
  obtain ⟨hiff, _, _⟩ :=
    initKZG_of_lt (initialVerifyingKey params spr : VerifyingKey F D G) srs hlt
  have hsz : (initialVerifyingKey params spr : VerifyingKey F D G).Size =
      smallDomainCardinality spr := rfl
  rw [hsz] at hiff
  obtain ⟨pk0, hpk0, hlen⟩ := buildProvingKey_isSome spr (setupDomains params spr)
    ((initialVerifyingKey params spr : VerifyingKey F D G).InitKZG srs).2 hw hnb hc hcm rfl
    (smallDomainCardinality_le_big spr hsize)
  have hlen' : ∀ v, v ∈ pk0.committedVectors → v.length = smallDomainCardinality spr := hlen
  cases hinit : ((initialVerifyingKey params spr : VerifyingKey F D G).InitKZG srs).1 with
  | some e =>
    have hsmall : srs.G1.length < smallDomainCardinality spr :=
      hiff.mp (by rw [hinit]; simp)
    refine ⟨_, pk0, Setup_of_initKZG_error params commit spr srs e hinit, hpk0, ?_, ?_, ?_, ?_⟩
    · exact ⟨fun _ => Or.inl hsmall, fun _ => by simp⟩
    · exact fun _ => ⟨rfl, rfl⟩
    · intro h; exact absurd h (by simp)
    · intro _
      exact ⟨fun h => absurd h (by simp), fun h => by omega⟩
  | none =>
    have hbig : ¬ srs.G1.length < smallDomainCardinality spr :=
      fun h => (hiff.mpr h) hinit
    have hvk1 := initKZG_snd_of_ok _ srs hinit
    have hsrs : ((initialVerifyingKey params spr : VerifyingKey F D G).InitKZG srs).2.KZGSRS =
        some srs := by rw [hvk1]
    obtain ⟨res, hres⟩ := commitAll_isSome commit pk0 _ srs hsrs
    have hS := Setup_of_initKZG_ok params commit spr srs hinit
    rw [hpk0, Option.some_bind, hres, Option.some_bind] at hS
    cases res with
    | error e =>
      obtain ⟨v, hv, hve⟩ := commitAll_error commit pk0 _ srs e hsrs hres
      refine ⟨_, pk0, hS, hpk0, ?_, ?_, ?_, ?_⟩
      · exact ⟨fun _ => Or.inr ⟨v, hv, e, hve⟩, fun _ => by simp⟩
      · exact fun _ => ⟨rfl, rfl⟩
      · intro h; exact absurd h (by simp)
      · intro hcommit
        obtain ⟨d, hd⟩ := hcommit v (by rw [hlen' v hv]; omega)
        rw [hd] at hve
        exact absurd hve (by simp)
    | ok vk' =>
      refine ⟨_, pk0, hS, hpk0, ?_, ?_, ?_, ?_⟩
      · refine ⟨fun h => absurd rfl h, ?_⟩
        rintro (h | h)
        · exact absurd h hbig
        · exact absurd h (commitAll_no_error commit pk0 _ vk' srs hsrs hres)
      · intro h; exact absurd rfl h
      · exact fun _ => ⟨by simp, by simp⟩
      · exact fun _ => ⟨fun _ => by omega, fun _ => rfl⟩

/-- C14: for every well-formed constraint system (wire ids, coefficient ids and
committed indices in range, at least one variable, a number of rows held in memory)
and every reference string, `Setup` returns; it returns an error exactly when the
reference string has fewer than `N` basis elements or one of the nine commitments
fails; an error comes with no proving key and no verifying key, and otherwise both keys
are returned.  When the commitment scheme accepts every vector that is not longer than
the basis, `Setup` succeeds exactly when the reference string has at least `N` basis
elements. -/
theorem Setup_error_contract {D G : Type} [Field F] [Inhabited D]
    (params : DomainParams F) (commit : List F → SRS G → Except String D)
    (spr : SparseR1CS F) (srs : SRS G)
    (hw : WireIdsValid spr) (hnb : 1 ≤ nbVariables spr) (hc : CoeffIdsValid spr)
    (hcm : CommittedValid spr (smallDomainCardinality spr))
    (hsize : spr.Constraints.length + spr.Public.length < 2 ^ 62) :
    SetupContract params commit spr srs (smallDomainCardinality spr) :=
  Setup_outcomes params commit spr srs hw hnb hc hcm hsize

/-- Witness for C14: the system with 3 gates and 1 public input, a reference string
with 4 basis elements. -/
theorem Setup_error_contract_witness :
    WireIdsValid exampleSystem ∧ 1 ≤ nbVariables exampleSystem ∧
    CoeffIdsValid exampleSystem ∧
    CommittedValid exampleSystem (smallDomainCardinality exampleSystem) ∧
    exampleSystem.Constraints.length + exampleSystem.Public.length < 2 ^ 62 ∧
    SetupContract exampleParams exampleCommit exampleSystem exampleSRS
      (smallDomainCardinality exampleSystem) :=
  ⟨by decide, by decide, by decide, by decide, by decide,
    Setup_error_contract exampleParams exampleCommit exampleSystem exampleSRS
      (by decide) (by decide) (by decide) (by decide) (by decide)⟩

/-- What a successful run of `Setup` went through. -/
theorem Setup_success {D G : Type} [Field F] [Inhabited D]
    (params : DomainParams F) (commit : List F → SRS G → Except String D)
    (spr : SparseR1CS F) (srs : SRS G) (pk : ProvingKey F D G) (vk : VerifyingKey F D G)
    (h : SetupSucceeds params commit spr srs pk vk) :
    ((initialVerifyingKey params spr : VerifyingKey F D G).InitKZG srs).1 = none ∧
    ∃ pk0, buildProvingKey spr (setupDomains params spr)
        { (initialVerifyingKey params spr : VerifyingKey F D G) with KZGSRS := some srs } =
          some pk0 ∧
      commitAll commit pk0
        { (initialVerifyingKey params spr : VerifyingKey F D G) with KZGSRS := some srs } =
          some (Except.ok vk) ∧
      pk = { pk0 with Vk := vk } := by
  unfold SetupSucceeds at h
  cases hinit : ((initialVerifyingKey params spr : VerifyingKey F D G).InitKZG srs).1 with
  | some e =>
    rw [Setup_of_initKZG_error params commit spr srs e hinit] at h
    exact absurd h (by simp)
  | none =>
    refine ⟨rfl, ?_⟩
    rw [Setup_of_initKZG_ok params commit spr srs hinit, initKZG_snd_of_ok _ srs hinit] at h
    simp only [Option.bind_eq_some] at h
    obtain ⟨pk0, h1, res, h2, h3⟩ := h
    cases res with
    | error e => exact absurd h3 (by simp)
    | ok vk' =>
      simp only [Option.some.injEq, SetupReturn.mk.injEq, and_true] at h3
      obtain ⟨h4, h5⟩ := h3
      subst h5
      exact ⟨pk0, h1, h2, h4.symm⟩

theorem exampleSetup_succeeds :
    ∃ pk vk, SetupSucceeds exampleParams exampleCommit exampleSystem exampleSRS pk vk := by
  obtain ⟨r, _, hr, _, _, _, hkeys, hiff⟩ := Setup_outcomes exampleParams exampleCommit
    exampleSystem exampleSRS (by decide) (by decide) (by decide) (by decide) (by decide)
  have herr : r.err = none := (hiff (fun v hv => by
    unfold exampleCommit
    rw [if_pos hv]
    exact ⟨_, rfl⟩)).mpr (by decide)
  obtain ⟨hpk, hvk⟩ := hkeys herr
  obtain ⟨pk, vk, err⟩ := r
  cases pk with
  | none => exact absurd rfl hpk
  | some pk =>
    cases vk with
    | none => exact absurd rfl hvk
    | some vk =>
      simp only at herr
      subst herr
      exact ⟨pk, vk, hr⟩

/-! ## The keys returned by a successful `Setup` -/

theorem commitAll_congr {F D G : Type} (commit commit' : List F → SRS G → Except String D)
    (pk : ProvingKey F D G) (vk : VerifyingKey F D G) (srs : SRS G)
    (hs : vk.KZGSRS = some srs)
    (h : ∀ v, v ∈ pk.committedVectors → commit' v srs = commit v srs) :
    commitAll commit' pk vk = commitAll commit pk vk := by
  unfold commitAll
  rw [hs]
  simp only [Option.bind_eq_bind, Option.some_bind]
  rw [h pk.Ql (by simp [ProvingKey.committedVectors]),
    h pk.Qr (by simp [ProvingKey.committedVectors]),
    h pk.Qm (by simp [ProvingKey.committedVectors]),
    h pk.QcPrime (by simp [ProvingKey.committedVectors]),
    h pk.Qo (by simp [ProvingKey.committedVectors]),
    h pk.CQk (by simp [ProvingKey.committedVectors]),
    h pk.S1Canonical (by simp [ProvingKey.committedVectors]),
    h pk.S2Canonical (by simp [ProvingKey.committedVectors]),
    h pk.S3Canonical (by simp [ProvingKey.committedVectors])]

/-- C15: on every successful `Setup` the verifying key is bound to the reference
string and each of its nine digests is the commitment, under that reference string, of
the corresponding canonical-form polynomial of the proving key (`vk.Qk` from `pk.CQk`,
`vk.S` from `pk.S1Canonical`, `pk.S2Canonical`, `pk.S3Canonical`).  The vector `pk.LQk`
is not committed: the keys are the same for every commitment function that agrees on
the nine canonical vectors. -/
theorem Setup_digests {D G : Type} [Field F] [Inhabited D]
    (params : DomainParams F) (commit : List F → SRS G → Except String D)
    (spr : SparseR1CS F) (srs : SRS G) (pk : ProvingKey F D G) (vk : VerifyingKey F D G)
    (h : SetupSucceeds params commit spr srs pk vk) :
    vk.KZGSRS = some srs ∧ pk.Vk = vk ∧ DigestsCommitTo commit srs pk vk ∧
    ∀ commit' : List F → SRS G → Except String D,
      (∀ v, v ∈ pk.committedVectors → commit' v srs = commit v srs) →
      SetupSucceeds params commit' spr srs pk vk := by
  obtain ⟨hinit, pk0, hpk0, hcommit, rfl⟩ := Setup_success params commit spr srs pk vk h
  obtain ⟨srs', hs, h1, h2, h3, h4, h5, h6, h7, h8, h9, hvk⟩ :=
    commitAll_ok commit pk0 _ vk hcommit
  simp only [Option.some.injEq] at hs
  subst hs
  refine ⟨by rw [hvk], rfl, ⟨h1, h2, h3, h5, h4, h6, h7, h8, h9⟩, fun commit' hagree => ?_⟩
  unfold SetupSucceeds
  rw [Setup_of_initKZG_ok params commit' spr srs hinit, initKZG_snd_of_ok _ srs hinit, hpk0,
    Option.some_bind, commitAll_congr commit commit' pk0 _ srs rfl hagree, hcommit,
    Option.some_bind]

/-- Witness for C15: the system with 3 gates and 1 public input, a reference string
with 4 basis elements. -/
theorem Setup_digests_witness :
    ∃ pk vk, SetupSucceeds exampleParams exampleCommit exampleSystem exampleSRS pk vk ∧
      vk.KZGSRS = some exampleSRS ∧ pk.Vk = vk ∧
      DigestsCommitTo exampleCommit exampleSRS pk vk ∧
      ∀ commit' : List (ZMod 17) → SRS (ZMod 17) → Except String (ZMod 17),
        (∀ v, v ∈ pk.committedVectors → commit' v exampleSRS = exampleCommit v exampleSRS) →
        SetupSucceeds exampleParams commit' exampleSystem exampleSRS pk vk := by
  obtain ⟨pk, vk, h⟩ := exampleSetup_succeeds
  exact ⟨pk, vk, h, Setup_digests exampleParams exampleCommit exampleSystem exampleSRS pk vk h⟩

/-- C16: on every successful `Setup` for a system with `p` public inputs, over a field
where `2 ≠ 0`, the returned verifying key, which is also `pk.Vk`, has `Size` equal to
the small-domain cardinality `N`, `SizeInv * Size = 1`, `Generator` and `CosetShift`
equal to the generator and the coset shift of the small domain, and
`NbPublicWitness() = NbPublicVariables = p`. -/
theorem Setup_verifyingKey_fields {D G : Type} [Field F] [Inhabited D]
    (params : DomainParams F) (commit : List F → SRS G → Except String D)
    (spr : SparseR1CS F) (srs : SRS G) (pk : ProvingKey F D G) (vk : VerifyingKey F D G)
    (h2 : (2 : F) ≠ 0) (hp : spr.Public.length < 2 ^ 63)
    (h : SetupSucceeds params commit spr srs pk vk) :
    pk.Vk = vk ∧ vk.Size = smallDomainCardinality spr ∧
    pk.Domain.1.Cardinality = smallDomainCardinality spr ∧
    vk.SizeInv * (vk.Size : F) = 1 ∧
    vk.Generator = pk.Domain.1.Generator ∧
    vk.CosetShift = pk.Domain.1.FrMultiplicativeGen ∧
    vk.NbPublicWitness = (vk.NbPublicVariables : Int) ∧
    vk.NbPublicVariables = spr.Public.length := by
  obtain ⟨_, pk0, hpk0, hcommit, rfl⟩ := Setup_success params commit spr srs pk vk h
  obtain ⟨_, _, _, _, _, _, _, _, _, _, _, hvk⟩ := commitAll_ok commit pk0 _ vk hcommit
  obtain ⟨_, _, _, _, _, _, _, hdom, _⟩ := buildProvingKey_eq_some spr _ _ pk0 hpk0
  have hsize : vk.Size = smallDomainCardinality spr := by rw [hvk]; rfl
  have hinv : vk.SizeInv = ((smallDomainCardinality spr : Nat) : F)⁻¹ := by rw [hvk]; rfl
  have hnb : vk.NbPublicVariables = spr.Public.length := by rw [hvk]; rfl
  refine ⟨rfl, hsize, ?_, ?_, ?_, ?_, ?_, hnb⟩
  · show pk0.Domain.1.Cardinality = _
    rw [hdom]; rfl
  · rw [hinv, hsize]
    obtain ⟨⟨e, he⟩, _, _⟩ := nextPowerOfTwo_spec (sizeSystem spr)
    have hne : ((smallDomainCardinality spr : Nat) : F) ≠ 0 := by
      unfold smallDomainCardinality
      rw [he, Nat.cast_pow]
      exact pow_ne_zero _ (by exact_mod_cast h2)
    exact inv_mul_cancel₀ hne
  · show _ = pk0.Domain.1.Generator
    rw [hdom, hvk]; rfl
  · show _ = pk0.Domain.1.FrMultiplicativeGen
    rw [hdom, hvk]; rfl
  · unfold VerifyingKey.NbPublicWitness
    rw [hnb]
    exact uint64ToInt_of_lt _ hp

/-- Witness for C16: 3 gates and 1 public input give `Size = 4` and
`NbPublicWitness() = 1`. -/
theorem Setup_verifyingKey_fields_witness :
    (2 : ZMod 17) ≠ 0 ∧ exampleSystem.Public.length < 2 ^ 63 ∧
    ∃ pk vk, SetupSucceeds exampleParams exampleCommit exampleSystem exampleSRS pk vk ∧
      vk.Size = 4 ∧ vk.NbPublicWitness = 1 ∧
      (pk.Vk = vk ∧ vk.Size = smallDomainCardinality exampleSystem ∧
        pk.Domain.1.Cardinality = smallDomainCardinality exampleSystem ∧
        vk.SizeInv * (vk.Size : ZMod 17) = 1 ∧
        vk.Generator = pk.Domain.1.Generator ∧
        vk.CosetShift = pk.Domain.1.FrMultiplicativeGen ∧
        vk.NbPublicWitness = (vk.NbPublicVariables : Int) ∧
        vk.NbPublicVariables = exampleSystem.Public.length) := by
  obtain ⟨pk, vk, h⟩ := exampleSetup_succeeds
  have hf := Setup_verifyingKey_fields exampleParams exampleCommit exampleSystem exampleSRS
    pk vk (by decide) (by decide) h
  refine ⟨by decide, by decide, pk, vk, h, ?_, ?_, hf⟩
  · rw [hf.2.1]; decide
  · rw [hf.2.2.2.2.2.2.1, hf.2.2.2.2.2.2.2]; decide

/-- C18: on every successful `Setup` of a system whose coefficient ids and committed
indices are in range, `pk.LQk` is the Lagrange-basis vector built by lines 135-161
(`0` on the placeholder rows, `coefficient(K_j)` at row `p + j`, `0` from row `m + p`
on), not transformed, and `pk.CQk` is the canonical form of this same vector. -/
theorem Setup_qk_variants {D G : Type} [Field F] [Inhabited D]
    (params : DomainParams F) (commit : List F → SRS G → Except String D)
    (spr : SparseR1CS F) (srs : SRS G) (pk : ProvingKey F D G) (vk : VerifyingKey F D G)
    (hc : CoeffIdsValid spr) (hcm : CommittedValid spr (smallDomainCardinality spr))
    (h : SetupSucceeds params commit spr srs pk vk) :
    pk.LQk.length = smallDomainCardinality spr ∧
    (∀ i, i < spr.Public.length → pk.LQk[i]? = some 0) ∧
    (∀ j c, spr.Constraints[j]? = some c →
      ∃ k, spr.Coefficients[c.K]? = some k ∧ pk.LQk[spr.Public.length + j]? = some k) ∧
    (∀ i, spr.Constraints.length + spr.Public.length ≤ i → i < smallDomainCardinality spr →
      pk.LQk[i]? = some 0) ∧
    pk.CQk = toCanonical pk.Domain.1 pk.LQk := by
  obtain ⟨_, pk0, hpk0, _, rfl⟩ := Setup_success params commit spr srs pk vk h
  obtain ⟨sel, _, _, hsel, _, _, _, hdom, _, _, _, _, _, hcqk, _, hlqk, _⟩ :=
    buildProvingKey_eq_some spr _ _ pk0 hpk0
  have hn := sizeSystem_le_smallDomainCardinality spr
  obtain ⟨sel', hsel', hI⟩ := lagrangeSelectors_inv spr _ hn hc hcm
  have hcard : (setupDomains params spr).1.Cardinality = smallDomainCardinality spr := rfl
  rw [hcard, hsel'] at hsel
  cases hsel
  unfold sizeSystem at hn
  have heq : sel.CQk = sel.LQk := by
    apply List.ext_getElem?
    intro i
    by_cases hi : i < smallDomainCardinality spr
    · rw [hI.cqk.2 i hi, hI.lqk.2 i hi]
    · rw [List.getElem?_eq_none (by rw [hI.cqk.1]; omega),
        List.getElem?_eq_none (by rw [hI.lqk.1]; omega)]
  show pk0.LQk.length = _ ∧ (∀ i, _ → pk0.LQk[i]? = _) ∧ (∀ j c, _ → ∃ k, _ ∧ pk0.LQk[_]? = _) ∧
    (∀ i, _ → _ → pk0.LQk[i]? = _) ∧ pk0.CQk = toCanonical pk0.Domain.1 pk0.LQk
  rw [hlqk, hcqk, hdom, heq]
  refine ⟨hI.lqk.1, fun i hi => ?_, fun j c hjc => ?_, fun i hi hin => ?_, rfl⟩
  · rw [hI.lqk.2 i (by omega)]; simp [rowValue, hi]
  · obtain ⟨hj, hcj⟩ := List.getElem?_eq_some.mp hjc
    obtain ⟨_, _, _, _, _, c6⟩ := hc c (hcj ▸ List.getElem_mem hj)
    refine ⟨_, getElem?_eq_some_getD _ 0 _ c6, ?_⟩
    rw [hI.lqk.2 _ (by omega), rowValue_gate _ _ _ _ _ hj]
    simp [gateValue, hjc, coeffAt]
  · rw [hI.lqk.2 i hin, rowValue_tail _ _ _ _ _ (by omega)]

/-- Witness for C18: the system with 3 gates and 1 public input, a reference string
with 4 basis elements. -/
theorem Setup_qk_variants_witness :
    CoeffIdsValid exampleSystem ∧
    CommittedValid exampleSystem (smallDomainCardinality exampleSystem) ∧
    ∃ pk vk, SetupSucceeds exampleParams exampleCommit exampleSystem exampleSRS pk vk ∧
      pk.LQk.length = smallDomainCardinality exampleSystem ∧
      (∀ i, i < exampleSystem.Public.length → pk.LQk[i]? = some 0) ∧
      (∀ j c, exampleSystem.Constraints[j]? = some c →
        ∃ k, exampleSystem.Coefficients[c.K]? = some k ∧
          pk.LQk[exampleSystem.Public.length + j]? = some k) ∧
      (∀ i, exampleSystem.Constraints.length + exampleSystem.Public.length ≤ i →
        i < smallDomainCardinality exampleSystem → pk.LQk[i]? = some 0) ∧
      pk.CQk = toCanonical pk.Domain.1 pk.LQk := by
  obtain ⟨pk, vk, h⟩ := exampleSetup_succeeds
  exact ⟨by decide, by decide, pk, vk, h,
    Setup_qk_variants exampleParams exampleCommit exampleSystem exampleSRS pk vk
      (by decide) (by decide) h⟩

/-! ## `computeLagrangeCosetPolys` -/

theorem evalCanonical_zeroExtend [Field F] (v : List F) (n : Nat) (x : F) :
    evalCanonical (zeroExtend v n) x = evalCanonical v x := by
  unfold evalCanonical zeroExtend
  rw [List.length_append, List.length_replicate, Finset.sum_range_add]
  have h1 : ∀ j ∈ Finset.range v.length,
      (v ++ List.replicate (n - v.length) (0 : F)).getD j 0 * x ^ j = v.getD j 0 * x ^ j := by
    intro j hj
    rw [List.getD_append _ _ _ _ (Finset.mem_range.mp hj)]
  have h2 : ∀ j ∈ Finset.range (n - v.length),
      (v ++ List.replicate (n - v.length) (0 : F)).getD (v.length + j) 0 *
        x ^ (v.length + j) = 0 := by
    intro j hj
    rw [List.getD_append_right _ _ _ _ (by omega)]
    simp [List.getD_eq_getElem?_getD, List.getElem?_replicate, Finset.mem_range.mp hj]
  rw [Finset.sum_congr rfl h1, Finset.sum_congr rfl h2, Finset.sum_const_zero, add_zero]

theorem toLagrangeCoset_isCosetFormOf [Field F] (domain : Domain F) (canon : List F) :
    IsCosetFormOf domain canon (toLagrangeCoset domain canon) := by
  refine ⟨by simp [toLagrangeCoset], fun i hi => ?_⟩
  simp [toLagrangeCoset, List.getElem?_map, List.getElem?_range hi]

/-- C17, as stated, fails on a proving key where `Ql = 1`, `CQk = 2` and the other
polynomials are `0`: `computeLagrangeCosetPolys` returns, the key then holds the coset
form of `Ql`, and it holds no coset form of `Qk`, neither of `CQk` nor of `LQk`. -/
theorem computeLagrangeCosetPolys_no_qk :
    DerivesCosetFormOf cosetExampleKey cosetExampleKey.Ql ∧
    ¬ DerivesCosetFormOf cosetExampleKey cosetExampleKey.CQk ∧
    ¬ DerivesCosetFormOf cosetExampleKey cosetExampleKey.LQk := by
  have hcomp := computeLagrangeCosetPolys_eq cosetExampleKey (by decide)
  refine ⟨⟨_, hcomp, by decide⟩, ?_, ?_⟩
  · rintro ⟨pk', h, hm⟩
    rw [hcomp] at h
    cases h
    exact absurd hm (by decide)
  · rintro ⟨pk', h, hm⟩
    rw [hcomp] at h
    cases h
    exact absurd hm (by decide)

/-- C17, amended: on a proving key whose canonical forms `Ql`, `Qr`, `Qm`, `Qo`,
`QcPrime`, `S1`, `S2`, `S3` are not longer than the big domain,
`computeLagrangeCosetPolys` returns a key `pk'` that holds a big-domain coset form for
these eight polynomials, each from the canonical form zero-extended to the big-domain
length; `pk'` differs from the key only in these eight coset fields, so `CQk` and `LQk`
are unchanged; and no coset form is derived from `Qk`: with any other `CQk` and `LQk`
the method returns the same eight coset forms. -/
theorem computeLagrangeCosetPolys_spec {D G : Type} [Field F] (pk : ProvingKey F D G)
    (hlen : ∀ v, v ∈ pk.cosetSources → v.length ≤ pk.Domain.2.Cardinality) :
    ∃ pk', pk.computeLagrangeCosetPolys = some pk' ∧
      IsCosetFormOf pk.Domain.2 pk.Ql pk'.lQl ∧
      IsCosetFormOf pk.Domain.2 pk.Qr pk'.lQr ∧
      IsCosetFormOf pk.Domain.2 pk.Qm pk'.lQm ∧
      IsCosetFormOf pk.Domain.2 pk.Qo pk'.lQo ∧
      IsCosetFormOf pk.Domain.2 pk.QcPrime pk'.lQcPrime ∧
      IsCosetFormOf pk.Domain.2 pk.S1Canonical pk'.lS1LagrangeCoset ∧
      IsCosetFormOf pk.Domain.2 pk.S2Canonical pk'.lS2LagrangeCoset ∧
      IsCosetFormOf pk.Domain.2 pk.S3Canonical pk'.lS3LagrangeCoset ∧
      pk' = { pk with lQl := pk'.lQl, lQr := pk'.lQr, lQm := pk'.lQm, lQo := pk'.lQo,
                      lQcPrime := pk'.lQcPrime, lS1LagrangeCoset := pk'.lS1LagrangeCoset,
                      lS2LagrangeCoset := pk'.lS2LagrangeCoset,
                      lS3LagrangeCoset := pk'.lS3LagrangeCoset } ∧
      ∀ cqk lqk : List F,
        ProvingKey.computeLagrangeCosetPolys { pk with CQk := cqk, LQk := lqk } =
          some { pk' with CQk := cqk, LQk := lqk } := by
  refine ⟨_, computeLagrangeCosetPolys_eq pk hlen, toLagrangeCoset_isCosetFormOf _ _,
    toLagrangeCoset_isCosetFormOf _ _, toLagrangeCoset_isCosetFormOf _ _,
    toLagrangeCoset_isCosetFormOf _ _, toLagrangeCoset_isCosetFormOf _ _,
    toLagrangeCoset_isCosetFormOf _ _, toLagrangeCoset_isCosetFormOf _ _,
    toLagrangeCoset_isCosetFormOf _ _, rfl, fun cqk lqk => ?_⟩
  exact computeLagrangeCosetPolys_eq { pk with CQk := cqk, LQk := lqk } hlen

/-- Witness for the amended C17: the key with `Ql = 1`, `CQk = 2`, big domain of
cardinality 2. -/
theorem computeLagrangeCosetPolys_spec_witness :
    (∀ v, v ∈ cosetExampleKey.cosetSources → v.length ≤ cosetExampleKey.Domain.2.Cardinality) ∧
    ∃ pk', cosetExampleKey.computeLagrangeCosetPolys = some pk' ∧
      IsCosetFormOf cosetExampleKey.Domain.2 cosetExampleKey.Ql pk'.lQl ∧
      IsCosetFormOf cosetExampleKey.Domain.2 cosetExampleKey.Qr pk'.lQr ∧
      IsCosetFormOf cosetExampleKey.Domain.2 cosetExampleKey.Qm pk'.lQm ∧
      IsCosetFormOf cosetExampleKey.Domain.2 cosetExampleKey.Qo pk'.lQo ∧
      IsCosetFormOf cosetExampleKey.Domain.2 cosetExampleKey.QcPrime pk'.lQcPrime ∧
      IsCosetFormOf cosetExampleKey.Domain.2 cosetExampleKey.S1Canonical
        pk'.lS1LagrangeCoset ∧
      IsCosetFormOf cosetExampleKey.Domain.2 cosetExampleKey.S2Canonical
        pk'.lS2LagrangeCoset ∧
      IsCosetFormOf cosetExampleKey.Domain.2 cosetExampleKey.S3Canonical
        pk'.lS3LagrangeCoset ∧
      pk' = { cosetExampleKey with
                lQl := pk'.lQl, lQr := pk'.lQr, lQm := pk'.lQm, lQo := pk'.lQo,
                lQcPrime := pk'.lQcPrime, lS1LagrangeCoset := pk'.lS1LagrangeCoset,
                lS2LagrangeCoset := pk'.lS2LagrangeCoset,
                lS3LagrangeCoset := pk'.lS3LagrangeCoset } ∧
      ∀ cqk lqk : List (ZMod 17),
        ProvingKey.computeLagrangeCosetPolys
            { cosetExampleKey with CQk := cqk, LQk := lqk } =
          some { pk' with CQk := cqk, LQk := lqk } :=
  ⟨by decide, computeLagrangeCosetPolys_spec cosetExampleKey (by decide)⟩

/-- A key whose `Ql` is longer than the big domain: the clone of line 285 stops
`computeLagrangeCosetPolys`. -/
theorem computeLagrangeCosetPolys_long_ql :
    ProvingKey.computeLagrangeCosetPolys
      { cosetExampleKey with Ql := [1, 2, 3] } = none :=
  computeLagrangeCosetPolys_eq_none _ [1, 2, 3] (by decide) (by decide)

/-! ## The committed rows against the gate rows -/

/-- C19 fails on the code: with 1 public input and the gate of index 0 committed,
`QcPrime` is `1` at row `0`, the placeholder row, and `0` at row `p + 0 = 1`, the row
that holds gate 0. -/
theorem qcPrime_misses_gate_row :
    committedSystem.Public.length = 1 ∧ committedSystem.Committed = [0] ∧
    ∃ s, lagrangeSelectors committedSystem (smallDomainCardinality committedSystem) = some s ∧
      s.QcPrime[0]? = some 1 ∧ s.QcPrime[committedSystem.Public.length + 0]? = some 0 := by
  obtain ⟨s, hs, _⟩ := lagrangeSelectors_inv committedSystem _
    (sizeSystem_le_smallDomainCardinality committedSystem) (by decide) (by decide)
  obtain ⟨_, hrows⟩ := lagrangeSelectors_qcPrime_rows committedSystem _ s hs (by decide)
  refine ⟨rfl, rfl, s, hs, ?_, ?_⟩
  · rw [hrows 0 (by decide)]; rfl
  · rw [hrows _ (by decide)]; rfl

/-! ## Index safety of the permutation -/

/-- C20: on a system with at least one variable whose gate wire ids are below
`nbVariables`, `buildPermutation` runs without an out-of-range index (`m + p ≤ N`, the
table `lro` has length `3N` and entries below `nbVariables`), every entry of the
permutation is in `[0, 3N)` and none is the sentinel `-1`, and
`ccomputePermutationPolynomials` runs without an out-of-range index. -/
theorem buildPermutation_safe [Field F] (spr : SparseR1CS F) (domain : Domain F)
    (hw : WireIdsValid spr) (hnb : 1 ≤ nbVariables spr)
    (hcard : domain.Cardinality = smallDomainCardinality spr) :
    spr.Constraints.length + spr.Public.length ≤ domain.Cardinality ∧
    ∃ lro perm s, initLRO spr domain.Cardinality = some lro ∧
      lro.length = 3 * domain.Cardinality ∧ (∀ v, v ∈ lro → v < nbVariables spr) ∧
      buildPermutation spr domain.Cardinality = some perm ∧
      perm.length = 3 * domain.Cardinality ∧
      (∀ i, i < 3 * domain.Cardinality →
        ∃ t : Nat, t < 3 * domain.Cardinality ∧ perm[i]? = some (t : Int)) ∧
      (∀ x, x ∈ perm → x ≠ -1) ∧
      ccomputePermutationPolynomials domain perm = some s := by
  have hn := sizeSystem_le_smallDomainCardinality spr
  obtain ⟨lro, perm', h1, h2, h3, _, h5, _⟩ := buildPermutation_eq spr
    (smallDomainCardinality spr) hn hw hnb
  obtain ⟨perm, s, hperm, hs, hlen, hrange, _⟩ := permutation_pipeline spr domain hw hnb hcard
  rw [← hcard] at h1 h2 h3 h5
  refine ⟨by rw [hcard]; exact hn, lro, perm, s, h1, h3.len, fun v hv => ?_, hperm, hlen,
    hrange, fun x hx => ?_, hs⟩
  · obtain ⟨i, hi, hiv⟩ := List.getElem_of_mem hv
    obtain ⟨w, hw', hlw⟩ := h5 i (by rw [← h3.len]; exact hi)
    rw [List.getElem?_eq_getElem hi, hiv] at hlw
    cases hlw
    exact hw'
  · obtain ⟨i, hi, hix⟩ := List.getElem_of_mem hx
    obtain ⟨t, _, ht⟩ := hrange i (by rw [← hlen]; exact hi)
    rw [List.getElem?_eq_getElem hi, hix] at ht
    cases ht
    omega

/-- Witness for C20 on the system with 3 gates and 1 public input. -/
theorem buildPermutation_safe_witness :
    WireIdsValid exampleSystem ∧ 1 ≤ nbVariables exampleSystem ∧
    exampleDomain.Cardinality = smallDomainCardinality exampleSystem ∧
    exampleSystem.Constraints.length + exampleSystem.Public.length ≤
      exampleDomain.Cardinality ∧
    ∃ lro perm s, initLRO exampleSystem exampleDomain.Cardinality = some lro ∧
      lro.length = 3 * exampleDomain.Cardinality ∧
      (∀ v, v ∈ lro → v < nbVariables exampleSystem) ∧
      buildPermutation exampleSystem exampleDomain.Cardinality = some perm ∧
      perm.length = 3 * exampleDomain.Cardinality ∧
      (∀ i, i < 3 * exampleDomain.Cardinality →
        ∃ t : Nat, t < 3 * exampleDomain.Cardinality ∧ perm[i]? = some (t : Int)) ∧
      (∀ x, x ∈ perm → x ≠ -1) ∧
      ccomputePermutationPolynomials exampleDomain perm = some s :=
  ⟨by decide, by decide, by decide,
    buildPermutation_safe exampleSystem exampleDomain (by decide) (by decide) (by decide)⟩

end Plonk
